import Mathlib

/-!
Archive parser.  A shallow embedding of the Go package `internal/parser` (files `constants.go`,
`types.go`, `parser.go`, `header.go`) together with the parts of the Go standard
library it calls (`strings`, `unicode`, `unicode/utf8`, `encoding/binary`).

Go strings and byte slices are finite sequences of bytes; both are modelled as
`List (Fin 256)`.  Functions that mutate a `*FileEntry` or the `*ArchiveParser`
receiver are modelled by explicit state passing.  Output written with `fmt.Printf`
and `log.Printf` is not part of the model.  `int` is taken to be 64 bits wide, so
that the conversion `int(contentLength)` of a `uint32` is exact.
-/

namespace Archive

/-! ## Bytes and the constants of `constants.go` -/

abbrev Byte := Fin 256

abbrev Bytes := List Byte

/-- The constant `SectionDelimiter = "**%%"`. -/
def SectionDelimiter : Bytes := [42, 42, 37, 37]

/-- The constant `SignatureMarker = "_SIG/D.C."`. -/
def SignatureMarker : Bytes := [95, 83, 73, 71, 47, 68, 46, 67, 46]

/-- The constant `DocumentPrefix = "DOCU"`. -/
def DocumentPrefix : Bytes := [68, 79, 67, 85]

/-- The literal `"**"` stripped from the last section. -/
def EndMarker : Bytes := [42, 42]

/-- The literal `"%%"` that starts a comment line. -/
def CommentToken : Bytes := [37, 37]

/-- The literal `"/"`. -/
def Slash : Bytes := [47]

/-- The literal `"\n"`. -/
def Newline : Bytes := [10]

/-! ## Package `strings`: byte-level functions -/

/-- Go `strings.HasPrefix`. -/
def HasPrefix (s pre : Bytes) : Bool := pre.isPrefixOf s

/-- Go `strings.HasSuffix`. -/
def HasSuffix (s suf : Bytes) : Bool := suf.isSuffixOf s

/-- Go `strings.TrimPrefix`. -/
def TrimPrefix (s pre : Bytes) : Bytes :=
  if HasPrefix s pre then s.drop pre.length else s

/-- Go `strings.TrimSuffix`. -/
def TrimSuffix (s suf : Bytes) : Bytes :=
  if HasSuffix s suf then s.take (s.length - suf.length) else s

/-- Go `strings.Index`: the offset of the first occurrence of `sep` in `s`;
`none` stands for the result `-1`. -/
def Index : Bytes → Bytes → Option Nat
  | [], sep => if HasPrefix [] sep then some 0 else none
  | b :: t, sep =>
    if HasPrefix (b :: t) sep then some 0 else (Index t sep).map (· + 1)

/-- Go `strings.Contains`, that is `Index(s, sep) >= 0`. -/
def Contains (s sep : Bytes) : Bool := (Index s sep).isSome

/-- The loop of Go `strings.genSplit` for a non-empty separator: cut at the first
occurrence of `sep`, continue after it. Every cut removes at least one byte, so
`fuel = len(s)` iterations are enough. -/
def splitLoop (sep : Bytes) : Nat → Bytes → List Bytes
  | 0, s => [s]
  | fuel + 1, s =>
    match Index s sep with
    | none => [s]
    | some m => s.take m :: splitLoop sep fuel (s.drop (m + sep.length))

/-- Go `strings.Split(s, sep)` for a non-empty separator `sep`. -/
def Split (s sep : Bytes) : List Bytes := splitLoop sep s.length s

/-- Go `strings.SplitN(s, sep, 2)` for a non-empty separator `sep`. -/
def SplitN2 (s sep : Bytes) : List Bytes :=
  match Index s sep with
  | none => [s]
  | some m => [s.take m, s.drop (m + sep.length)]

/-! ## Package `unicode/utf8` -/

/-- The rune `utf8.RuneError = U+FFFD`. -/
def RuneError : Nat := 0xFFFD

/-- Go `utf8.RuneStart`: the byte is not a continuation byte `10xxxxxx`. -/
def RuneStart (b : Byte) : Bool := decide (b.val < 0x80 ∨ 0xC0 ≤ b.val)

/-- The width `first[s0] & 7` that the table `first` of package `utf8` gives to a
leading byte `s0` in `0xC2..0xF4`. -/
def firstSize (s0 : Byte) : Nat :=
  if s0.val < 0xE0 then 2 else if s0.val < 0xF0 then 3 else 4

/-- The lower bound `acceptRanges[first[s0] >> 4].lo` for the second byte. -/
def acceptLo (s0 : Byte) : Nat :=
  if s0.val = 0xE0 then 0xA0 else if s0.val = 0xF0 then 0x90 else 0x80

/-- The upper bound `acceptRanges[first[s0] >> 4].hi` for the second byte. -/
def acceptHi (s0 : Byte) : Nat :=
  if s0.val = 0xED then 0x9F else if s0.val = 0xF4 then 0x8F else 0xBF

/-- Go `utf8.DecodeRuneInString`: the first rune of `s` and its width in bytes.
Bytes below `0x80` are ASCII, bytes in `0x80..0xC1` and `0xF5..0xFF` are invalid
(entry `xx` of the table `first`). -/
def DecodeRune : Bytes → Nat × Nat
  | [] => (RuneError, 0)
  | s0 :: rest =>
    if s0.val < 0x80 then (s0.val, 1)
    else if s0.val < 0xC2 ∨ 0xF4 < s0.val then (RuneError, 1)
    else if rest.length + 1 < firstSize s0 then (RuneError, 1)
    else
      match rest with
      | [] => (RuneError, 1)
      | s1 :: r1 =>
        if s1.val < acceptLo s0 ∨ acceptHi s0 < s1.val then (RuneError, 1)
        else if firstSize s0 ≤ 2 then ((s0.val % 32) * 64 + s1.val % 64, 2)
        else
          match r1 with
          | [] => (RuneError, 1)
          | s2 :: r2 =>
            if s2.val < 0x80 ∨ 0xBF < s2.val then (RuneError, 1)
            else if firstSize s0 ≤ 3 then
              ((s0.val % 16) * 4096 + (s1.val % 64) * 64 + s2.val % 64, 3)
            else
              match r2 with
              | [] => (RuneError, 1)
              | s3 :: _ =>
                if s3.val < 0x80 ∨ 0xBF < s3.val then (RuneError, 1)
                else
                  ((s0.val % 8) * 262144 + (s1.val % 64) * 4096
                    + (s2.val % 64) * 64 + s3.val % 64, 4)

/-- The backward scan of Go `utf8.DecodeLastRuneInString`, on the reversed string
without its last byte: the number of bytes before the last one at which decoding
starts. The scan inspects at most three bytes and stops at the first rune start;
when it finds none, decoding starts one byte before the limit `end - 4` (or at
offset 0, which taking the window from the string does by itself). -/
def backToRuneStart : Bytes → Nat
  | b1 :: r1 =>
    if RuneStart b1 then 1
    else
      match r1 with
      | b2 :: r2 =>
        if RuneStart b2 then 2
        else
          match r2 with
          | b3 :: _ => if RuneStart b3 then 3 else 4
          | [] => 4
      | [] => 4
  | [] => 4

/-- Go `utf8.DecodeLastRuneInString`: the last rune of `s` and its width. -/
def DecodeLastRune (s : Bytes) : Nat × Nat :=
  match s.reverse with
  | [] => (RuneError, 0)
  | b0 :: rest =>
    if b0.val < 0x80 then (b0.val, 1)
    else
      let w := ((b0 :: rest).take (backToRuneStart rest + 1)).reverse
      let d := DecodeRune w
      if d.2 ≠ w.length then (RuneError, 1) else d

/-! ## Package `unicode` -/

/-- The range tables `unicode.Letter` and `unicode.Digit` of the Go standard
library above Latin-1 (code points greater than U+00FF), which are not part of the
repository: membership is taken as a parameter. -/
structure UnicodeTables where
  Letter : Nat → Bool
  Digit : Nat → Bool

/-- Go `unicode.IsSpace`: the Latin-1 switch and the table `White_Space`. -/
def IsSpace (r : Nat) : Bool :=
  if r ≤ 0xFF then
    r == 0x09 || r == 0x0A || r == 0x0B || r == 0x0C || r == 0x0D || r == 0x20
      || r == 0x85 || r == 0xA0
  else
    r == 0x1680 || (decide (0x2000 ≤ r) && decide (r ≤ 0x200A)) || r == 0x2028
      || r == 0x2029 || r == 0x202F || r == 0x205F || r == 0x3000

/-- Go `unicode.IsLetter`: the Latin-1 property table, then `unicode.Letter`. -/
def IsLetter (U : UnicodeTables) (r : Nat) : Bool :=
  if r ≤ 0xFF then
    (decide (0x41 ≤ r) && decide (r ≤ 0x5A)) || (decide (0x61 ≤ r) && decide (r ≤ 0x7A))
      || r == 0xAA || r == 0xB5 || r == 0xBA
      || (decide (0xC0 ≤ r) && decide (r ≤ 0xD6))
      || (decide (0xD8 ≤ r) && decide (r ≤ 0xF6))
      || decide (0xF8 ≤ r)
  else U.Letter r

/-- Go `unicode.IsDigit`. -/
def IsDigit (U : UnicodeTables) (r : Nat) : Bool :=
  if r ≤ 0xFF then decide (0x30 ≤ r) && decide (r ≤ 0x39) else U.Digit r

/-! ## Package `strings`: rune-level trimming -/

/-- Go `strings.indexFunc`: the loop `for i, r := range s` stops at the first rune
with `f(r) == truth`; `off` is the offset of `s` in the whole string. -/
def indexFuncLoop (f : Nat → Bool) (truth : Bool) : Nat → Bytes → Nat → Option Nat
  | 0, _, _ => none
  | fuel + 1, s, off =>
    if s.isEmpty then none
    else
      let d := DecodeRune s
      if f d.1 == truth then some off
      else indexFuncLoop f truth fuel (s.drop d.2) (off + d.2)

/-- Go `strings.indexFunc`; `none` stands for `-1`. -/
def indexFunc (s : Bytes) (f : Nat → Bool) (truth : Bool) : Option Nat :=
  indexFuncLoop f truth s.length s 0

/-- Go `strings.lastIndexFunc`: the loop `for i := len(s); i > 0;`. -/
def lastIndexFuncLoop (f : Nat → Bool) (truth : Bool) (s : Bytes) : Nat → Nat → Option Nat
  | 0, _ => none
  | fuel + 1, i =>
    if i = 0 then none
    else
      let d := DecodeLastRune (s.take i)
      if f d.1 == truth then some (i - d.2)
      else lastIndexFuncLoop f truth s fuel (i - d.2)

/-- Go `strings.lastIndexFunc`; `none` stands for `-1`. -/
def lastIndexFunc (s : Bytes) (f : Nat → Bool) (truth : Bool) : Option Nat :=
  lastIndexFuncLoop f truth s s.length s.length

/-- Go `strings.TrimLeftFunc`. -/
def TrimLeftFunc (s : Bytes) (f : Nat → Bool) : Bytes :=
  match indexFunc s f false with
  | none => []
  | some i => s.drop i

/-- Go `strings.TrimRightFunc`. -/
def TrimRightFunc (s : Bytes) (f : Nat → Bool) : Bytes :=
  match lastIndexFunc s f false with
  | none => s.take 0
  | some i =>
    if 0x80 ≤ (s.getD i 0).val then s.take (i + (DecodeRune (s.drop i)).2)
    else s.take (i + 1)

/-- Go `strings.TrimFunc`. -/
def TrimFunc (s : Bytes) (f : Nat → Bool) : Bytes :=
  TrimRightFunc (TrimLeftFunc s f) f

/-- Go `strings.TrimSpace`: all leading and trailing white space removed, as
defined by Unicode. The library has a fast path for ASCII that computes the same
slice as `TrimFunc(s, unicode.IsSpace)`. -/
def TrimSpace (s : Bytes) : Bytes := TrimFunc s IsSpace

/-! ## `fmt` and `encoding/binary` -/

/-- The digits of `n` in base ten, most significant first, in front of `acc`. -/
def decimalLoop : Nat → Nat → Bytes → Bytes
  | 0, _, acc => acc
  | fuel + 1, n, acc =>
    let acc1 : Bytes := Fin.ofNat (48 + n % 10) :: acc
    if n / 10 = 0 then acc1 else decimalLoop fuel (n / 10) acc1

/-- Go `fmt.Sprintf("%d", n)` for an unsigned `n`. -/
def FormatUint (n : Nat) : Bytes := decimalLoop (n + 1) n []

/-- Go `binary.LittleEndian.Uint32` on a slice of four bytes. -/
def LittleEndianUint32 (b : Bytes) : Nat :=
  (b.getD 0 0).val + (b.getD 1 0).val * 256 + (b.getD 2 0).val * 65536
    + (b.getD 3 0).val * 16777216

/-! ## `types.go` -/

/-- A Go `map[string]string`, kept as a list of pairs with distinct keys. -/
abbrev StringMap := List (Bytes × Bytes)

/-- The assignment `m[k] = v`. -/
def MapSet (m : StringMap) (k v : Bytes) : StringMap :=
  (k, v) :: m.filter (fun p => p.1 != k)

/-- The lookup `v, ok := m[k]`. -/
def MapLookup (m : StringMap) (k : Bytes) : Option Bytes := m.lookup k

/-- The expression `m[k]`: the empty string when the key is absent. -/
def MapIndex (m : StringMap) (k : Bytes) : Bytes := (MapLookup m k).getD []

/-- The struct `FileEntry`. The field `Type` is named `Type_`. -/
structure FileEntry where
  DocType : Bytes
  EnvGUID : Bytes
  Extension : Bytes
  Filename : Bytes
  GUID : Bytes
  SHA1 : Bytes
  Type_ : Bytes
  Content : Bytes
  Metadata : StringMap
  ContentLengthHint : Nat
  deriving DecidableEq, Repr

/-- The struct `ArchiveParser`. -/
structure ArchiveParser where
  entries : List FileEntry
  data : Bytes
  deriving DecidableEq, Repr

/-- The zero value of `FileEntry` with `Metadata: make(map[string]string)`. -/
def emptyEntry : FileEntry :=
  { DocType := [], EnvGUID := [], Extension := [], Filename := [], GUID := [],
    SHA1 := [], Type_ := [], Content := [], Metadata := [], ContentLengthHint := 0 }

/-! ## `header.go` -/

/-- The key `"ENV_GUID"`. -/
def keyENV_GUID : Bytes := [69, 78, 86, 95, 71, 85, 73, 68]

/-- The key `"EXT"`. -/
def keyEXT : Bytes := [69, 88, 84]

/-- The key `"FILENAME"`. -/
def keyFILENAME : Bytes := [70, 73, 76, 69, 78, 65, 77, 69]

/-- The key `"GUID"`. -/
def keyGUID : Bytes := [71, 85, 73, 68]

/-- The key `"SHA1"`. -/
def keySHA1 : Bytes := [83, 72, 65, 49]

/-- The key `"TYPE"`. -/
def keyTYPE : Bytes := [84, 89, 80, 69]

/-- The key `"DOCTYPE"`. -/
def keyDOCTYPE : Bytes := [68, 79, 67, 84, 89, 80, 69]

/-- The key `"ContentLengthHint"`. -/
def keyContentLengthHint : Bytes :=
  [67, 111, 110, 116, 101, 110, 116, 76, 101, 110, 103, 116, 104, 72, 105, 110, 116]

/-- The method `mapMetadataToFields`. -/
def mapMetadataToFields (key value : Bytes) (entry : FileEntry) : FileEntry :=
  if key = keyENV_GUID then { entry with EnvGUID := value }
  else if key = keyEXT then { entry with Extension := value }
  else if key = keyFILENAME then { entry with Filename := value }
  else if key = keyGUID then { entry with GUID := value }
  else if key = keySHA1 then { entry with SHA1 := value }
  else if key = keyTYPE then { entry with Type_ := value }
  else if key = keyDOCTYPE then
    if entry.DocType = [] then { entry with DocType := value } else entry
  else entry

/-- The method `parseMetadataLine`. -/
def parseMetadataLine (line : Bytes) (entry : FileEntry) : FileEntry :=
  let line := TrimSpace line
  if line = [] ∨ HasPrefix line CommentToken = true then entry
  else if Contains line Slash = true ∧ ¬ HasPrefix line SignatureMarker = true then
    match SplitN2 line Slash with
    | [p0, p1] =>
      let key := TrimSpace p0
      let value := TrimSpace p1
      mapMetadataToFields key value
        { entry with Metadata := MapSet entry.Metadata key value }
    | _ => entry
  else entry

/-- The predicate given to `strings.TrimFunc` in `parseDocumentType`. -/
def notLetterNorDigit (U : UnicodeTables) (r : Nat) : Bool :=
  !IsLetter U r && !IsDigit U r

/-- The method `parseDocumentType`. -/
def parseDocumentType (U : UnicodeTables) (firstLine : Bytes) (entry : FileEntry) :
    FileEntry :=
  let trimmed := TrimSpace firstLine
  if HasPrefix trimmed DocumentPrefix then
    let docType := TrimPrefix trimmed DocumentPrefix
    let docType := TrimFunc docType (notLetterNorDigit U)
    if docType ≠ [] then { entry with DocType := docType } else entry
  else entry

/-- The method `parseHeader`. -/
def parseHeader (U : UnicodeTables) (headerData : Bytes) (entry : FileEntry) :
    FileEntry :=
  let lines := Split headerData Newline
  let entry1 :=
    match lines with
    | [] => entry
    | l0 :: _ => parseDocumentType U l0 entry
  lines.foldl (fun e line => parseMetadataLine line e) entry1

/-! ## `parser.go` -/

/-- The function `New`. -/
def New : ArchiveParser := { entries := [], data := [] }

/-- The method `extractSectionContent`: the entry after the call and the result;
`sigIndex` is a non-negative offset. -/
def extractSectionContent (sectionBytes : Bytes) (sigIndex : Nat) (entry : FileEntry) :
    FileEntry × Except String Bytes :=
  let sigOffset := sigIndex + SignatureMarker.length
  if sigOffset + 4 > sectionBytes.length then
    (entry, .error "not enough bytes after signature marker for length prefix")
  else
    let lengthBytes := (sectionBytes.drop sigOffset).take 4
    let contentLength := LittleEndianUint32 lengthBytes
    let entry1 : FileEntry :=
      { entry with
        ContentLengthHint := contentLength
        Metadata := MapSet entry.Metadata keyContentLengthHint (FormatUint contentLength) }
    let rawContent := sectionBytes.drop (sigOffset + 4)
    if contentLength ≤ rawContent.length then (entry1, .ok (rawContent.take contentLength))
    else (entry1, .ok rawContent)

/-- The method `parseSection`. -/
def parseSection (U : UnicodeTables) (sectionData : Bytes) : Except String FileEntry :=
  match Index sectionData SignatureMarker with
  | none => .error "no signature marker found"
  | some sigIndex =>
    let headerData := sectionData.take sigIndex
    let entry := parseHeader U headerData emptyEntry
    match extractSectionContent sectionData sigIndex entry with
    | (_, .error err) => .error ("failed to extract content: " ++ err)
    | (entry1, .ok content) => .ok { entry1 with Content := content }

/-- The method `normalizeSectionData`. -/
def normalizeSectionData (sec : Bytes) (index totalSections : Nat) : Bytes :=
  if (index : Int) = (totalSections : Int) - 1 then TrimSuffix sec EndMarker else sec

/-- The method `shouldSkipSection`. -/
def shouldSkipSection (trimmed : Bytes) (_index : Nat) : Bool :=
  !HasPrefix trimmed DocumentPrefix

/-- The body of the loop of `parseContent` for section `sec` at position `i`:
the entries after the iteration. -/
def parseContentStep (U : UnicodeTables) (total : Nat) (entries : List FileEntry)
    (i : Nat) (sec : Bytes) : List FileEntry :=
  if TrimSpace sec = [] then entries
  else
    let sectionData := normalizeSectionData sec i total
    let trimmed := TrimSpace sectionData
    if shouldSkipSection trimmed i then entries
    else
      match parseSection U sectionData with
      | .error _ => entries
      | .ok entry => entries ++ [entry]

/-- The loop `for i, section := range sections` of `parseContent`. -/
def parseContentLoop (U : UnicodeTables) (total : Nat) :
    Nat → List Bytes → List FileEntry → List FileEntry
  | _, [], entries => entries
  | i, sec :: rest, entries =>
    parseContentLoop U total (i + 1) rest (parseContentStep U total entries i sec)

/-- The method `parseContent`: the parser after the call and the returned error,
which is always `nil`. -/
def parseContent (U : UnicodeTables) (p : ArchiveParser) : ArchiveParser × Option String :=
  let sections := Split p.data SectionDelimiter
  ({ p with entries := parseContentLoop U sections.length 0 sections p.entries }, none)

/-- The method `ParseData`: the parser after the call and the returned error. -/
def ParseData (U : UnicodeTables) (p : ArchiveParser) (data : Bytes) :
    ArchiveParser × Option String :=
  if data.length = 0 then (p, some "data cannot be empty")
  else parseContent U { p with data := data }

/-- The tables with no letter and no digit above Latin-1, for evaluating the
parser on ASCII input. -/
def asciiTables : UnicodeTables := { Letter := fun _ => false, Digit := fun _ => false }

/-! ## The archive format, as the tests of the package compose it -/

/-- Go `binary.LittleEndian.PutUint32(b, uint32(n))`: the four bytes of `n` modulo
`2^32`, least significant first. -/
def PutUint32 (n : Nat) : Bytes :=
  [Fin.ofNat (n % 256), Fin.ofNat (n / 256 % 256), Fin.ofNat (n / 65536 % 256),
    Fin.ofNat (n / 16777216 % 256)]

/-- One section of an archive: header text, signature marker, little-endian length
of the payload, payload. -/
def encodeSection (header payload : Bytes) : Bytes :=
  header ++ (SignatureMarker ++ (PutUint32 payload.length ++ payload))

/-- Sections joined by the delimiter `**%%`. -/
def joinSections : List Bytes → Bytes
  | [] => []
  | [s] => s
  | s :: t :: rest => s ++ (SectionDelimiter ++ joinSections (t :: rest))

/-- An archive: the encoded sections joined by `**%%` and terminated by `**`. -/
def encodeArchive (secs : List (Bytes × Bytes)) : Bytes :=
  joinSections (secs.map (fun hp => encodeSection hp.1 hp.2)) ++ EndMarker

/-- The length declared in a section: the four bytes after the marker at offset
`sigIndex`, read as an unsigned little-endian number. -/
def declaredLength (sectionBytes : Bytes) (sigIndex : Nat) : Nat :=
  LittleEndianUint32 ((sectionBytes.drop (sigIndex + SignatureMarker.length)).take 4)

/-- The bytes of a section that follow the length field. -/
def afterLength (sectionBytes : Bytes) (sigIndex : Nat) : Bytes :=
  sectionBytes.drop (sigIndex + SignatureMarker.length + 4)

/-- The key and value that `parseMetadataLine` takes from a line, when it accepts
the line as a key/value pair. -/
def lineKeyValue (line : Bytes) : Option (Bytes × Bytes) :=
  let t := TrimSpace line
  if t = [] ∨ HasPrefix t CommentToken = true then none
  else if Contains t Slash = true ∧ ¬ HasPrefix t SignatureMarker = true then
    match Index t Slash with
    | none => none
    | some m => some (TrimSpace (t.take m), TrimSpace (t.drop (m + 1)))
  else none

/-- The pieces into which `**%%` cuts an archive: the encoded sections, the last
one still followed by the terminator `**`. -/
def archiveSections : List Bytes → List Bytes
  | [] => [EndMarker]
  | [s] => [s ++ EndMarker]
  | s :: t :: rest => s :: archiveSections (t :: rest)

/-- The record that `parseSection` builds from the section encoded from `header`
and `payload`: the fields of the header, the length field (the payload length
modulo `2^32`) as hint and in the metadata, and that many bytes of the payload. -/
def sectionRecord (U : UnicodeTables) (header payload : Bytes) : FileEntry :=
  { parseHeader U header emptyEntry with
    ContentLengthHint := payload.length % 4294967296
    Metadata := MapSet (parseHeader U header emptyEntry).Metadata keyContentLengthHint
      (FormatUint (payload.length % 4294967296))
    Content := payload.take (payload.length % 4294967296) }

/-- The loop `for _, r := range s`: every rune of `s` satisfies `p`. -/
def allRunesLoop (p : Nat → Bool) : Nat → Bytes → Bool
  | 0, _ => true
  | fuel + 1, s =>
    if s.isEmpty then true
    else p (DecodeRune s).1 && allRunesLoop p fuel (s.drop (DecodeRune s).2)

/-- Every rune that ranging over the string `s` yields satisfies `p`. -/
def AllRunes (p : Nat → Bool) (s : Bytes) : Bool := allRunesLoop p s.length s

/-- The rune is a letter or a digit: `unicode.IsLetter(r) || unicode.IsDigit(r)`. -/
def IsLetterOrDigit (U : UnicodeTables) (r : Nat) : Bool := IsLetter U r || IsDigit U r

/-- The header `"DOCU" + T + "\nFILENAME/" + f + "\nGUID/" + g + "\nSHA1/" + s`. -/
def fieldsHeader (T f g s : Bytes) : Bytes :=
  DocumentPrefix ++ (T ++ (Newline ++ (keyFILENAME ++ (Slash ++ (f ++ (Newline ++
    (keyGUID ++ (Slash ++ (g ++ (Newline ++ (keySHA1 ++ (Slash ++ s))))))))))))

/-! ## Inputs taken from `parser_test.go` -/

/-- The header `"DOCUTest\nFILENAME/test.txt\n"` used by several tests. -/
def testHeader : Bytes :=
  [68, 79, 67, 85, 84, 101, 115, 116, 10, 70, 73, 76, 69, 78, 65, 77, 69, 47, 116, 101,
    115, 116, 46, 116, 120, 116, 10]

/-- The payload `"short"`. -/
def testShort : Bytes := [115, 104, 111, 114, 116]

/-- The section of `TestParseData_TooLongDeclaredLength`: header, marker, declared
length 10, payload `"short"`. -/
def testTooLongSection : Bytes :=
  testHeader ++ (SignatureMarker ++ ([10, 0, 0, 0] ++ testShort))

/-- The input of `TestParseData_TooLongDeclaredLength`. -/
def testTooLong : Bytes := testTooLongSection ++ EndMarker

/-- The input of `TestParseData_InvalidLengthBytes`: nothing after the marker. -/
def testInvalidLength : Bytes := testHeader ++ SignatureMarker

/-- The buffer of `TestExtractSectionContent` (`"Header\n"`, marker, length 5,
`"abcde"`), followed by three more bytes `"xyz"`. -/
def testExtractBuffer : Bytes :=
  [72, 101, 97, 100, 101, 114, 10] ++ (SignatureMarker ++ ([5, 0, 0, 0]
    ++ [97, 98, 99, 100, 101, 120, 121, 122]))

/-- An archive of one section that begins with `KEYB` (the constant
`KeyboardPrefix`) and has a marker, the length 2 and the payload `"Hi"`. -/
def testKeyboard : Bytes :=
  [75, 69, 89, 66] ++ (SignatureMarker ++ ([2, 0, 0, 0] ++ [72, 105])) ++ EndMarker

/-- The two sections of `TestParseData_MultipleSections`, as header and payload:
`"DOCUType1\nFILENAME/file1.txt\n"` with `"Hello"` and
`"DOCUType2\nFILENAME/file2.txt\n"` with `"Bye"`. -/
def testTwoSections : List (Bytes × Bytes) :=
  [([68, 79, 67, 85, 84, 121, 112, 101, 49, 10, 70, 73, 76, 69, 78, 65, 77, 69, 47, 102,
      105, 108, 101, 49, 46, 116, 120, 116, 10], [72, 101, 108, 108, 111]),
   ([68, 79, 67, 85, 84, 121, 112, 101, 50, 10, 70, 73, 76, 69, 78, 65, 77, 69, 47, 102,
      105, 108, 101, 50, 46, 116, 120, 116, 10], [66, 121, 101])]

/-- The header `"A/1\nA/2"`, in which the key `A` occurs on two lines. -/
def testDuplicateKey : Bytes := [65, 47, 49, 10, 65, 47, 50]

/-- The header `"A/1\nB/x/y"`. -/
def testTwoKeys : Bytes := [65, 47, 49, 10, 66, 47, 120, 47, 121]

/-! ## `parser.go`: the accessors -/

/-- The method `GetEntries`. -/
def GetEntries (p : ArchiveParser) : List FileEntry := p.entries

/-- The method `Count`. -/
def Count (p : ArchiveParser) : Int := (p.entries.length : Int)

/-- The method `GetEntry`: the parser after the call and the result. The entry
that the returned pointer refers to is returned by value; the error message is
`"index %d out of range [0, %d)"` with its arguments. -/
def GetEntry (p : ArchiveParser) (index : Int) : ArchiveParser × Except String FileEntry :=
  if h : index < 0 ∨ index ≥ (p.entries.length : Int) then
    (p, .error ("index " ++ toString index ++ " out of range [0, "
      ++ toString p.entries.length ++ ")"))
  else
    (p, .ok (p.entries.get ⟨index.toNat, by omega⟩))

/-- The loop `for i := range p.entries` of `GetEntryByFilename`: the first entry
whose `Filename` is `filename`. -/
def findByFilename (filename : Bytes) : List FileEntry → Option FileEntry
  | [] => none
  | e :: rest => if e.Filename = filename then some e else findByFilename filename rest

/-- The method `GetEntryByFilename`: the parser after the call and the result.
The error message is `"entry with filename %q not found"`, its argument left
out. -/
def GetEntryByFilename (p : ArchiveParser) (filename : Bytes) :
    ArchiveParser × Except String FileEntry :=
  match findByFilename filename p.entries with
  | some e => (p, .ok e)
  | none => (p, .error "entry with filename not found")

/-- The value of the first line of `lines` that `parseMetadataLine` accepts
with the key `DOCTYPE` and a non-empty value; the empty string when there is
none. -/
def firstDocType : List Bytes → Bytes
  | [] => []
  | l :: rest =>
    match lineKeyValue l with
    | some kv => if kv.1 = keyDOCTYPE ∧ kv.2 ≠ [] then kv.2 else firstDocType rest
    | none => firstDocType rest

/-- The header `"DOCU-Test9!\nDOCTYPE/zz"`: a first line with a document type
and a `DOCTYPE` line. -/
def testDocTypeHeader : Bytes :=
  [68, 79, 67, 85, 45, 84, 101, 115, 116, 57, 33, 10, 68, 79, 67, 84, 89, 80, 69, 47, 122, 122]

/-- The line `"EXT/.txt"`. -/
def testExtLine : Bytes := [69, 88, 84, 47, 46, 116, 120, 116]

/-- The decimal digits of `n` as the library of Lean writes them, as bytes. -/
def decimalString (n : Nat) : Bytes :=
  (Nat.toDigits 10 n).map (fun c => (Fin.ofNat c.toNat : Byte))

/-- An archive of one section whose header `"DOCU\nContentLengthHint/99\n"` has a
line with the key `ContentLengthHint`, with declared length 2 and payload `"Hi"`. -/
def testHintLine : Bytes :=
  encodeSection [68, 79, 67, 85, 10, 67, 111, 110, 116, 101, 110, 116, 76, 101, 110, 103,
    116, 104, 72, 105, 110, 116, 47, 57, 57, 10] [72, 105] ++ EndMarker

/-! ## `extractor.go`: `generateFilename` -/

/-- The loop of Go `strings.Replace(s, old, new, -1)` for a non-empty `old`: copy
the text up to the next occurrence of `old`, write `new`, continue after it. -/
def replaceLoop (old new : Bytes) : Nat → Bytes → Bytes
  | 0, s => s
  | fuel + 1, s =>
    match Index s old with
    | none => s
    | some j => s.take j ++ (new ++ replaceLoop old new fuel (s.drop (j + old.length)))

/-- Go `strings.ReplaceAll(s, old, new)` for a non-empty `old`. -/
def ReplaceAll (s old new : Bytes) : Bytes :=
  if old = new then s else replaceLoop old new s.length s

/-- Go `fmt.Sprintf("%d", i)` for a signed `i`. -/
def FormatInt (i : Int) : Bytes :=
  if i < 0 then 45 :: FormatUint (-i).toNat else FormatUint i.toNat

/-- The literal `"file_"`. -/
def filePrefix : Bytes := [102, 105, 108, 101, 95]

/-- The literal `"_"`, the value of every key of the map `replacements`. -/
def Underscore : Bytes := [95]

/-- The keys of the map `replacements`: `/ \ : * ? " < > |`. -/
def replacementKeys : List Bytes :=
  [[47], [92], [58], [42], [63], [34], [60], [62], [124]]

/-- The name that `generateFilename` starts from: the field `Filename`, or
`fmt.Sprintf("file_%d_%s%s", index, entry.DocType, entry.Extension)` when that
is empty. -/
def baseFilename (entry : FileEntry) (index : Int) : Bytes :=
  if entry.Filename = [] then
    filePrefix ++ (FormatInt index ++ (Underscore ++ (entry.DocType ++ entry.Extension)))
  else entry.Filename

/-- The method `generateFilename`. The order in which `range replacements` visits
the keys of the map is not fixed by the language: it is the parameter `order`, a
list of the keys. -/
def generateFilename (order : List Bytes) (entry : FileEntry) (index : Int) : Bytes :=
  order.foldl (fun filename old => ReplaceAll filename old Underscore)
    (baseFilename entry index)

/-- The byte with which a byte is replaced in a safe file name. -/
def sanitizeByte (b : Byte) : Byte := if [b] ∈ replacementKeys then 95 else b

/-- The entry of `TestGenerateFilename`: `DocType: "X"`, `Extension: ".txt"`. -/
def testEntryX : FileEntry :=
  { emptyEntry with DocType := [88], Extension := [46, 116, 120, 116] }

/-- The value `docType` that `parseDocumentType` computes for a first line
that starts with `DOCU`: the prefix is removed, then `strings.TrimFunc` removes
the runes that are neither letters nor digits at both ends. -/
def trimmedDocType (U : UnicodeTables) (firstLine : Bytes) : Bytes :=
  TrimFunc (TrimPrefix (TrimSpace firstLine) DocumentPrefix) (notLetterNorDigit U)

/-- The first line `"  DOCU-Test9!"`. -/
def testDocLine : Bytes := [32, 32, 68, 79, 67, 85, 45, 84, 101, 115, 116, 57, 33]

/-! ## Go `crypto/sha1`, `encoding/hex` and `strings.EqualFold` -/

/-- Go `bits.RotateLeft32` on a 32-bit word. -/
def RotateLeft32 (x k : Nat) : Nat := ((x <<< k) ||| (x >>> (32 - k))) % 2 ^ 32

/-- The state `h[0..4]` of a SHA-1 digest. -/
structure Digest where
  h0 : Nat
  h1 : Nat
  h2 : Nat
  h3 : Nat
  h4 : Nat
  deriving DecidableEq, Repr

/-- The initial state set by `sha1.New()`. -/
def initDigest : Digest :=
  { h0 := 0x67452301, h1 := 0xEFCDAB89, h2 := 0x98BADCFE, h3 := 0x10325476, h4 := 0xC3D2E1F0 }

/-- The word `w[i]` of a block: four bytes, big endian. -/
def blockWord (p : Bytes) (i : Nat) : Nat :=
  (p.getD (4 * i) 0).val <<< 24 ||| (p.getD (4 * i + 1) 0).val <<< 16 |||
    (p.getD (4 * i + 2) 0).val <<< 8 ||| (p.getD (4 * i + 3) 0).val

/-- The function `f` of round `i`. -/
def roundF (i b c d : Nat) : Nat :=
  if i < 20 then (b &&& c) ||| ((b ^^^ 0xFFFFFFFF) &&& d)
  else if i < 40 then b ^^^ c ^^^ d
  else if i < 60 then ((b ||| c) &&& d) ||| (b &&& c)
  else b ^^^ c ^^^ d

/-- The constant `_K0` to `_K3` of round `i`. -/
def roundK (i : Nat) : Nat :=
  if i < 20 then 0x5A827999
  else if i < 40 then 0x6ED9EBA1
  else if i < 60 then 0x8F1BBCDC
  else 0xCA62C1D6

/-- The working variables of `blockGeneric`: the sixteen words `w` and `a` to `e`. -/
structure Round where
  w : List Nat
  a : Nat
  b : Nat
  c : Nat
  d : Nat
  e : Nat

/-- One round of `blockGeneric`: from round 16 on, `w[i&0xf]` is first replaced by
the rotated sum of four earlier words. -/
def roundStep (i : Nat) (r : Round) : Round :=
  let w :=
    if i < 16 then r.w
    else
      let tmp := r.w.getD ((i - 3) % 16) 0 ^^^ r.w.getD ((i - 8) % 16) 0 ^^^
        r.w.getD ((i - 14) % 16) 0 ^^^ r.w.getD (i % 16) 0
      r.w.set (i % 16) (RotateLeft32 tmp 1)
  let t := (RotateLeft32 r.a 5 + roundF i r.b r.c r.d + r.e + w.getD (i % 16) 0 + roundK i)
    % 2 ^ 32
  { w := w, a := t, b := r.a, c := RotateLeft32 r.b 30, d := r.c, e := r.d }

/-- The rounds `i`, `i + 1`, ..., `i + n - 1`. -/
def roundsLoop : Nat → Nat → Round → Round
  | 0, _, r => r
  | n + 1, i, r => roundsLoop n (i + 1) (roundStep i r)

/-- The body of the loop of `blockGeneric` on one block of 64 bytes. -/
def blockStep (dig : Digest) (p : Bytes) : Digest :=
  let w := (List.range 16).map (blockWord p)
  let r := roundsLoop 80 0 (Round.mk w dig.h0 dig.h1 dig.h2 dig.h3 dig.h4)
  { h0 := (dig.h0 + r.a) % 2 ^ 32, h1 := (dig.h1 + r.b) % 2 ^ 32,
    h2 := (dig.h2 + r.c) % 2 ^ 32, h3 := (dig.h3 + r.d) % 2 ^ 32,
    h4 := (dig.h4 + r.e) % 2 ^ 32 }

/-- Go `blockGeneric`: the loop `for len(p) >= chunk`. -/
def blockGeneric : Nat → Digest → Bytes → Digest
  | 0, dig, _ => dig
  | fuel + 1, dig, p =>
    if 64 ≤ p.length then blockGeneric fuel (blockStep dig (p.take 64)) (p.drop 64) else dig

/-- A number as `n` bytes, big endian (`byteorder.BePutUint64`, `BePutUint32`). -/
def bigEndian : Nat → Nat → Bytes
  | 0, _ => []
  | n + 1, x => bigEndian n (x / 256) ++ [Fin.ofNat x]

/-- The padding that `checkSum` writes: the byte `0x80`, zero bytes up to 56 modulo
64, and the length of the message in bits as 8 bytes. -/
def sha1Padding (len : Nat) : Bytes :=
  let t := if len % 64 < 56 then 56 - len % 64 else 64 + 56 - len % 64
  (0x80 :: List.replicate (t - 1) 0) ++ bigEndian 8 ((len * 8) % 2 ^ 64)

/-- The digest `hasher.Sum(nil)` after `hasher.Write(content)` on a new hasher: 20
bytes. -/
def sha1Sum (content : Bytes) : Bytes :=
  let p := content ++ sha1Padding content.length
  let dig := blockGeneric (p.length / 64) initDigest p
  bigEndian 4 dig.h0 ++ bigEndian 4 dig.h1 ++ bigEndian 4 dig.h2 ++ bigEndian 4 dig.h3 ++
    bigEndian 4 dig.h4

/-- The table `hextable` of `encoding/hex`: `"0123456789abcdef"`. -/
def hextable : Bytes := [48, 49, 50, 51, 52, 53, 54, 55, 56, 57, 97, 98, 99, 100, 101, 102]

/-- Go `hex.EncodeToString`. -/
def EncodeToString : Bytes → Bytes
  | [] => []
  | v :: rest => hextable.getD (v.val >>> 4) 0 :: hextable.getD (v.val &&& 0x0f) 0 ::
      EncodeToString rest

/-- The table `asciiFold` of package `unicode`: the next rune of the case orbit of
an ASCII rune. The orbit of `k` goes on to the Kelvin sign `U+212A` and the orbit
of `s` to the long s `U+017F`. -/
def asciiFold (r : Nat) : Nat :=
  if 0x41 ≤ r ∧ r ≤ 0x5A then r + 0x20
  else if r = 0x6B then 0x212A
  else if r = 0x73 then 0x017F
  else if 0x61 ≤ r ∧ r ≤ 0x7A then r - 0x20
  else r

/-- Go `unicode.SimpleFold`: the table `asciiFold` below `0x80`; above it the orbit
tables of the library, taken as the parameter `fold`. -/
def SimpleFold (fold : Nat → Nat) (r : Nat) : Nat :=
  if 0x10FFFF < r then r
  else if r < 0x80 then asciiFold r
  else fold r

/-- The loop `for r != sr && r < tr { r = unicode.SimpleFold(r) }` of
`strings.EqualFold`; `none` when the fuel runs out before the loop ends. -/
def foldLoop (fold : Nat → Nat) (sr tr : Nat) : Nat → Nat → Option Nat
  | 0, _ => none
  | fuel + 1, r =>
    if r ≠ sr ∧ r < tr then foldLoop fold sr tr fuel (SimpleFold fold r) else some r

/-- The comparison of two runes in the second loop of `strings.EqualFold`:
`some true` stands for `continue`, `some false` for `return false`. -/
def foldRunes (fold : Nat → Nat) (fuel : Nat) (sr tr : Nat) : Option Bool :=
  if tr = sr then some true
  else
    let lo := if tr < sr then tr else sr
    let hi := if tr < sr then sr else tr
    if hi < 0x80 then some (decide (0x41 ≤ lo ∧ lo ≤ 0x5A ∧ hi = lo + 0x20))
    else
      match foldLoop fold lo hi fuel (SimpleFold fold lo) with
      | none => none
      | some r => some (r == hi)

/-- The part `hasUnicode` of `strings.EqualFold`: the loop `for _, sr := range s`
over the runes of `s`, taking one rune from `t` each time. -/
def equalFoldUnicode (fold : Nat → Nat) (fuel : Nat) : Nat → Bytes → Bytes → Option Bool
  | 0, _, t => some t.isEmpty
  | n + 1, s, t =>
    if s.isEmpty then some t.isEmpty
    else
      let ds := DecodeRune s
      match t with
      | [] => some false
      | t0 :: trest =>
        let dt := if t0.val < 0x80 then (t0.val, 1) else DecodeRune (t0 :: trest)
        match foldRunes fold fuel ds.1 dt.1 with
        | none => none
        | some false => some false
        | some true => equalFoldUnicode fold fuel n (s.drop ds.2) ((t0 :: trest).drop dt.2)

/-- The first loop of `strings.EqualFold`, over the bytes `s[i]`, `t[i]`; the
arguments are the strings from `i` on, so `len(s) == len(t)` compares what is
left of them. -/
def equalFoldLoop (fold : Nat → Nat) (fuel : Nat) : Bytes → Bytes → Option Bool
  | sr :: s, tr :: t =>
    if 0x80 ≤ (sr.val ||| tr.val) then
      equalFoldUnicode fold fuel (sr :: s).length (sr :: s) (tr :: t)
    else if tr = sr then equalFoldLoop fold fuel s t
    else
      let lo := if tr.val < sr.val then tr.val else sr.val
      let hi := if tr.val < sr.val then sr.val else tr.val
      if 0x41 ≤ lo ∧ lo ≤ 0x5A ∧ hi = lo + 0x20 then equalFoldLoop fold fuel s t
      else some false
  | [], t => some (t.length == 0)
  | _ :: s, [] => some (s.length + 1 == 0)

/-- Go `strings.EqualFold`; `none` when the fuel of the orbit loop runs out. -/
def EqualFold (fold : Nat → Nat) (fuel : Nat) (s t : Bytes) : Option Bool :=
  equalFoldLoop fold fuel s t

/-- The errors of `verifySHA1`: `emptyExpected` is `"expected SHA1 cannot be empty"`,
`mismatch expected actual` is `"SHA1 mismatch: expected %s, got %s"`. -/
inductive VerifyError where
  | emptyExpected : VerifyError
  | mismatch (expected actual : Bytes) : VerifyError
  deriving DecidableEq, Repr

/-- The method `verifySHA1`: the parser after the call and the error (`none` is
`nil`). The outer `none` is the orbit loop of `strings.EqualFold` out of fuel. -/
def verifySHA1 (fold : Nat → Nat) (fuel : Nat) (p : ArchiveParser) (content : Bytes)
    (expectedSHA1 : Bytes) : Option (ArchiveParser × Option VerifyError) :=
  if expectedSHA1 = [] then some (p, some VerifyError.emptyExpected)
  else
    let actualSHA1 := EncodeToString (sha1Sum content)
    match EqualFold fold fuel actualSHA1 expectedSHA1 with
    | none => none
    | some false => some (p, some (VerifyError.mismatch expectedSHA1 actualSHA1))
    | some true => some (p, none)

/-- The lower-case form of an ASCII byte: `A` to `Z` become `a` to `z`. -/
def asciiLower (b : Byte) : Byte :=
  if 0x41 ≤ b.val ∧ b.val ≤ 0x5A then b + 0x20 else b

/-- A digit of lower-case hexadecimal: `0` to `9` or `a` to `f`. -/
def isLowerHex (b : Byte) : Bool :=
  (0x30 ≤ b.val && b.val ≤ 0x39) || (0x61 ≤ b.val && b.val ≤ 0x66)

/-- The content `"hello"` of `TestVerifySHA1`. -/
def testHello : Bytes := [104, 101, 108, 108, 111]

/-- The digest `"aaf4c61ddcc5e8a2dabede0f3b482cd9aea9434d"` of `TestVerifySHA1`. -/
def testHelloSHA1 : Bytes :=
  [97, 97, 102, 52, 99, 54, 49, 100, 100, 99, 99, 53, 101, 56, 97, 50, 100, 97, 98, 101,
    100, 101, 48, 102, 51, 98, 52, 56, 50, 99, 100, 57, 97, 101, 97, 57, 52, 51, 52, 100]

/-- The digest of `TestVerifySHA1` in upper case. -/
def testHelloUpper : Bytes :=
  [65, 65, 70, 52, 67, 54, 49, 68, 68, 67, 67, 53, 69, 56, 65, 50, 68, 65, 66, 69,
    68, 69, 48, 70, 51, 66, 52, 56, 50, 67, 68, 57, 65, 69, 65, 57, 52, 51, 52, 68]

/-! ## Facts about the byte-level string functions -/

theorem HasPrefix_iff (s pre : Bytes) : HasPrefix s pre = true ↔ pre <+: s := by
  simp [HasPrefix]

theorem Index_eq_none_iff (s sep : Bytes) :
    Index s sep = none ↔ ∀ i, ¬ sep <+: s.drop i := by
  induction s with
  | nil => simp [Index, HasPrefix_iff]
  | cons b t ih =>
    simp only [Index]
    by_cases h : HasPrefix (b :: t) sep = true
    · simp only [h, if_true]
      constructor
      · intro h0; cases h0
      · intro h0; exact absurd ((HasPrefix_iff _ _).1 h) (by simpa using h0 0)
    · simp only [h, Bool.false_eq_true, if_false, Option.map_eq_none', ih]
      constructor
      · intro h0 i
        cases i with
        | zero => simpa [HasPrefix_iff] using h
        | succ j => simpa using h0 j
      · intro h0 i
        simpa using h0 (i + 1)

theorem Index_eq_some_iff (s sep : Bytes) (i : Nat) :
    Index s sep = some i ↔
      i ≤ s.length ∧ sep <+: s.drop i ∧ ∀ j, j < i → ¬ sep <+: s.drop j := by
  induction s generalizing i with
  | nil =>
    simp only [Index, List.drop_nil, List.length_nil, Nat.le_zero_eq]
    by_cases h : HasPrefix [] sep = true
    · have h1 := (HasPrefix_iff _ _).1 h
      simp only [h, if_true, Option.some.injEq]
      constructor
      · intro h0; subst h0; exact ⟨rfl, h1, by simp⟩
      · intro h0; exact h0.1.symm
    · have h1 : ¬ sep <+: [] := fun h2 => h ((HasPrefix_iff _ _).2 h2)
      simp [h, h1]
  | cons b t ih =>
    simp only [Index]
    by_cases h : HasPrefix (b :: t) sep = true
    · have h1 := (HasPrefix_iff _ _).1 h
      simp only [h, if_true, Option.some.injEq]
      constructor
      · intro h0; subst h0; exact ⟨by simp, by simpa using h1, by simp⟩
      · intro h0
        by_contra hne
        exact h0.2.2 0 (by omega) (by simpa using h1)
    · have h1 : ¬ sep <+: b :: t := fun h2 => h ((HasPrefix_iff _ _).2 h2)
      simp only [h, Bool.false_eq_true, if_false, Option.map_eq_some']
      constructor
      · rintro ⟨k, hk, rfl⟩
        obtain ⟨ha, hb, hc⟩ := (ih k).1 hk
        refine ⟨by simpa using ha, by simpa using hb, ?_⟩
        intro j hj
        cases j with
        | zero => simpa using h1
        | succ j => simpa using hc j (by omega)
      · rintro ⟨ha, hb, hc⟩
        cases i with
        | zero => exact absurd (by simpa using hb) h1
        | succ k =>
          refine ⟨k, (ih k).2 ⟨by simpa using ha, by simpa using hb, ?_⟩, rfl⟩
          intro j hj
          simpa using hc (j + 1) (by omega)

theorem Contains_eq_false_iff (s sep : Bytes) :
    Contains s sep = false ↔ ∀ i, ¬ sep <+: s.drop i := by
  rw [← Index_eq_none_iff]
  simp [Contains]

theorem Index_nil_left (sep : Bytes) (hsep : sep ≠ []) : Index [] sep = none := by
  cases sep with
  | nil => exact absurd rfl hsep
  | cons c t => simp [Index, HasPrefix, List.isPrefixOf]

theorem Index_le_length (s sep : Bytes) (m : Nat) (hsep : sep ≠ [])
    (h : Index s sep = some m) : m + sep.length ≤ s.length := by
  obtain ⟨h1, h2, _⟩ := (Index_eq_some_iff s sep m).1 h
  have h3 := h2.length_le
  simp only [List.length_drop] at h3
  have h4 : 0 < sep.length := List.length_pos.2 hsep
  omega

theorem splitLoop_fuel (sep : Bytes) (hsep : sep ≠ []) :
    ∀ (fuel1 fuel2 : Nat) (s : Bytes), s.length ≤ fuel1 → s.length ≤ fuel2 →
      splitLoop sep fuel1 s = splitLoop sep fuel2 s := by
  intro fuel1
  induction fuel1 with
  | zero =>
    intro fuel2 s h1 _
    have hs : s = [] := List.length_eq_zero.1 (by omega)
    subst hs
    cases fuel2 with
    | zero => rfl
    | succ n => simp [splitLoop, Index_nil_left sep hsep]
  | succ n ih =>
    intro fuel2 s h1 h2
    cases fuel2 with
    | zero =>
      have hs : s = [] := List.length_eq_zero.1 (by omega)
      subst hs
      simp [splitLoop, Index_nil_left sep hsep]
    | succ k =>
      simp only [splitLoop]
      cases hI : Index s sep with
      | none => rfl
      | some m =>
        have hle := Index_le_length s sep m hsep hI
        have h4 : 0 < sep.length := List.length_pos.2 hsep
        simp only
        rw [ih k (s.drop (m + sep.length)) (by simp only [List.length_drop]; omega)
          (by simp only [List.length_drop]; omega)]

theorem Split_eq (s sep : Bytes) (hsep : sep ≠ []) :
    Split s sep =
      match Index s sep with
      | none => [s]
      | some m => s.take m :: Split (s.drop (m + sep.length)) sep := by
  unfold Split
  cases hs : s.length with
  | zero =>
    have hs0 : s = [] := List.length_eq_zero.1 hs
    subst hs0
    simp [splitLoop, Index_nil_left sep hsep]
  | succ n =>
    simp only [splitLoop]
    cases hI : Index s sep with
    | none => rfl
    | some m =>
      have hle := Index_le_length s sep m hsep hI
      have h4 : 0 < sep.length := List.length_pos.2 hsep
      simp only
      rw [splitLoop_fuel sep hsep n (s.drop (m + sep.length)).length _
        (by simp only [List.length_drop]; omega) le_rfl]

theorem Split_of_not_Contains (s sep : Bytes) (hsep : sep ≠ [])
    (h : Contains s sep = false) : Split s sep = [s] := by
  have h1 : Index s sep = none := by
    simpa [Contains] using h
  rw [Split_eq s sep hsep, h1]

/-- An occurrence of `sep` right after `a` is the first one when no occurrence
starts inside `a`. -/
theorem Index_append_first (a sep rest : Bytes)
    (h : ∀ j, j < a.length → ¬ sep <+: a.drop j ++ (sep ++ rest)) :
    Index (a ++ (sep ++ rest)) sep = some a.length := by
  rw [Index_eq_some_iff]
  refine ⟨by simp, by simp, ?_⟩
  intro j hj
  rw [List.drop_append_of_le_length (by omega)]
  exact h j hj

theorem Split_append_first (a sep rest : Bytes) (hsep : sep ≠ [])
    (h : ∀ j, j < a.length → ¬ sep <+: a.drop j ++ (sep ++ rest)) :
    Split (a ++ (sep ++ rest)) sep = a :: Split rest sep := by
  rw [Split_eq _ sep hsep, Index_append_first a sep rest h]
  simp

/-- A prefix that starts inside `h` and runs into a following copy of `sep` makes
`sep` overlap itself. -/
theorem overlap_getElem (sep h x : Bytes) (hp : sep <+: h ++ (sep ++ x))
    (hlen : h.length < sep.length) : sep[h.length]? = sep[0]? := by
  obtain ⟨t, ht⟩ := hp
  have h1 := congrArg (fun l => l[h.length]?) ht
  simp only at h1
  rw [List.getElem?_append_left hlen, List.getElem?_append_right le_rfl] at h1
  simp only [Nat.sub_self] at h1
  rw [h1]
  cases sep with
  | nil => simp at hlen
  | cons c r => simp

theorem prefix_of_long (sep h x : Bytes) (hp : sep <+: h ++ x)
    (hlen : sep.length ≤ h.length) : sep <+: h :=
  List.prefix_of_prefix_length_le hp (List.prefix_append h x) hlen

theorem overlap_getElem_shift (sep h x : Bytes) (hp : sep <+: h ++ (sep ++ x)) (k : Nat)
    (hlen : h.length + k < sep.length) : sep[h.length + k]? = sep[k]? := by
  obtain ⟨t, ht⟩ := hp
  have h1 := congrArg (fun l => l[h.length + k]?) ht
  simp only at h1
  rw [List.getElem?_append_left hlen, List.getElem?_append_right (by omega)] at h1
  simp only [Nat.add_sub_cancel_left] at h1
  rw [h1, List.getElem?_append_left (by omega)]

/-- The delimiter right after a section without delimiter is its first occurrence. -/
theorem Index_delimiter_first (a rest : Bytes) (h : Contains a SectionDelimiter = false) :
    Index (a ++ (SectionDelimiter ++ rest)) SectionDelimiter = some a.length := by
  apply Index_append_first
  intro j hj hp
  rw [Contains_eq_false_iff] at h
  by_cases hl : SectionDelimiter.length ≤ (a.drop j).length
  · exact h j (prefix_of_long _ _ _ hp hl)
  · have hl1 : (a.drop j).length < 4 := by simpa [SectionDelimiter] using hl
    have hl2 : 0 < (a.drop j).length := by simp only [List.length_drop]; omega
    have e1 := overlap_getElem_shift _ _ _ hp 1
    have e2 := overlap_getElem_shift _ _ _ hp 0
    generalize (a.drop j).length = m at hl1 hl2 e1 e2
    interval_cases m
    · exact absurd (e1 (by decide)) (by decide)
    · exact absurd (e2 (by decide)) (by decide)
    · exact absurd (e2 (by decide)) (by decide)

/-- The marker right after a header without marker is its first occurrence. -/
theorem Index_marker_first (hdr rest : Bytes) (h : Contains hdr SignatureMarker = false) :
    Index (hdr ++ (SignatureMarker ++ rest)) SignatureMarker = some hdr.length := by
  apply Index_append_first
  intro j hj hp
  rw [Contains_eq_false_iff] at h
  by_cases hl : SignatureMarker.length ≤ (hdr.drop j).length
  · exact h j (prefix_of_long _ _ _ hp hl)
  · have hl1 : (hdr.drop j).length < 9 := by simpa [SignatureMarker] using hl
    have hl2 : 0 < (hdr.drop j).length := by simp only [List.length_drop]; omega
    have e2 := overlap_getElem_shift _ _ _ hp 0
    generalize (hdr.drop j).length = m at hl1 hl2 e2
    interval_cases m <;> exact absurd (e2 (by decide)) (by decide)

/-- Appending the terminator `**` to a section creates no delimiter. -/
theorem Contains_delimiter_append_end (a : Bytes) (h : Contains a SectionDelimiter = false) :
    Contains (a ++ EndMarker) SectionDelimiter = false := by
  rw [Contains_eq_false_iff] at h ⊢
  intro i hp
  by_cases hi : i ≤ a.length
  · rw [List.drop_append_of_le_length hi] at hp
    by_cases hl : SectionDelimiter.length ≤ (a.drop i).length
    · exact h i (prefix_of_long _ _ _ hp hl)
    · have hl1 : (a.drop i).length < 4 := by simpa [SectionDelimiter] using hl
      generalize a.drop i = t at hp hl1
      rcases t with _ | ⟨x, _ | ⟨y, _ | ⟨z, _ | ⟨w, t⟩⟩⟩⟩
      · exact absurd hp (by decide)
      · simp [SectionDelimiter, EndMarker] at hp
      · simp [SectionDelimiter, EndMarker] at hp
      · simp [SectionDelimiter, EndMarker] at hp
      · simp only [List.length_cons] at hl1; omega
  · have h1 := hp.length_le
    simp [SectionDelimiter, EndMarker] at h1
    omega

theorem TrimSuffix_append_end (a : Bytes) : TrimSuffix (a ++ EndMarker) EndMarker = a := by
  have h : HasSuffix (a ++ EndMarker) EndMarker = true := by
    simp [HasSuffix]
  simp [TrimSuffix, h]

/-! ## Facts about UTF-8 decoding -/

theorem DecodeRune_ascii (b : Byte) (t : Bytes) (hb : b.val < 0x80) :
    DecodeRune (b :: t) = (b.val, 1) := by
  simp [DecodeRune, hb]

theorem DecodeRune_not_start (b : Byte) (t : Bytes) (hb : RuneStart b = false) :
    DecodeRune (b :: t) = (RuneError, 1) := by
  have h1 : ¬ (b.val < 0x80 ∨ 0xC0 ≤ b.val) := by simpa [RuneStart] using hb
  have h2 : ¬ b.val < 0x80 := by omega
  have h3 : b.val < 0xC2 ∨ 0xF4 < b.val := by omega
  simp only [DecodeRune, h2, h3, if_true, if_false]

theorem DecodeRune_width (s : Bytes) (hs : s ≠ []) :
    1 ≤ (DecodeRune s).2 ∧ (DecodeRune s).2 ≤ s.length := by
  rcases s with _ | ⟨s0, _ | ⟨s1, _ | ⟨s2, _ | ⟨s3, r⟩⟩⟩⟩
  · exact absurd rfl hs
  all_goals
    simp only [DecodeRune, List.length_cons]
    split_ifs <;> exact ⟨by omega, by omega⟩

theorem DecodeRune_single (b : Byte) (hb : 0x80 ≤ b.val) : DecodeRune [b] = (RuneError, 1) := by
  simp only [DecodeRune]
  split_ifs <;> first | rfl | omega

theorem RuneStart_ascii (c : Byte) (hc : c.val < 0x80) : RuneStart c = true := by
  simp [RuneStart, hc]

theorem DecodeLastRune_snoc (g : Bytes) (b0 : Byte) :
    DecodeLastRune (g ++ [b0]) =
      if b0.val < 0x80 then (b0.val, 1)
      else
        let w := ((b0 :: g.reverse).take (backToRuneStart g.reverse + 1)).reverse
        let d := DecodeRune w
        if d.2 ≠ w.length then (RuneError, 1) else d := by
  simp [DecodeLastRune]

theorem DecodeLastRune_snoc_ascii (g : Bytes) (c : Byte) (hc : c.val < 0x80) :
    DecodeLastRune (g ++ [c]) = (c.val, 1) := by
  rw [DecodeLastRune_snoc]; simp [hc]

theorem exists_snoc (s : Bytes) (hs : s ≠ []) : ∃ g b0, s = g ++ [b0] :=
  ⟨s.dropLast, s.getLast hs, (List.dropLast_append_getLast hs).symm⟩

theorem DecodeLastRune_width (s : Bytes) (hs : s ≠ []) :
    1 ≤ (DecodeLastRune s).2 ∧ (DecodeLastRune s).2 ≤ s.length := by
  obtain ⟨g, b0, rfl⟩ := exists_snoc s hs
  rw [DecodeLastRune_snoc]
  by_cases h1 : b0.val < 0x80
  · simp [h1]
  · simp only [h1, if_false]
    generalize hw : ((b0 :: g.reverse).take (backToRuneStart g.reverse + 1)).reverse = w
    have hwl : w.length ≤ g.length + 1 := by
      rw [← hw]; simp
    have hwne : w ≠ [] := by
      rw [← hw]; simp
    have h3 := DecodeRune_width w hwne
    simp only [List.length_append, List.length_singleton]
    split_ifs with h2
    · simp
    · exact ⟨h3.1, by omega⟩

/-- The bytes in front of an ASCII byte do not matter for the last rune of what
follows it. -/
theorem DecodeLastRune_after_ascii (p : Bytes) (c : Byte) (f : Bytes) (hc : c.val < 0x80)
    (hf : f ≠ []) : DecodeLastRune (p ++ c :: f) = DecodeLastRune f := by
  obtain ⟨g, b0, rfl⟩ := exists_snoc f hf
  have e : p ++ c :: (g ++ [b0]) = (p ++ c :: g) ++ [b0] := by simp
  rw [e, DecodeLastRune_snoc, DecodeLastRune_snoc]
  by_cases h0 : b0.val < 0x80
  · simp [h0]
  · have h0b : 0x80 ≤ b0.val := by omega
    have hcs := RuneStart_ascii c hc
    have hd1 := DecodeRune_single b0 h0b
    simp only [h0, if_false, List.reverse_append, List.reverse_cons, List.append_assoc,
      List.singleton_append]
    generalize g.reverse = gr
    rcases gr with _ | ⟨b1, _ | ⟨b2, _ | ⟨b3, r⟩⟩⟩
    · simp [backToRuneStart, hcs, hd1, DecodeRune_ascii _ _ hc]
    · by_cases s1 : RuneStart b1 = true
      · simp [backToRuneStart, s1]
      · simp only [Bool.not_eq_true] at s1
        simp [backToRuneStart, s1, hcs, DecodeRune_ascii _ _ hc, DecodeRune_not_start _ _ s1]
    · by_cases s1 : RuneStart b1 = true
      · simp [backToRuneStart, s1]
      · simp only [Bool.not_eq_true] at s1
        by_cases s2 : RuneStart b2 = true
        · simp [backToRuneStart, s1, s2]
        · simp only [Bool.not_eq_true] at s2
          simp [backToRuneStart, s1, s2, hcs, DecodeRune_ascii _ _ hc,
            DecodeRune_not_start _ _ s2]
    · by_cases s1 : RuneStart b1 = true
      · simp [backToRuneStart, s1]
      · simp only [Bool.not_eq_true] at s1
        by_cases s2 : RuneStart b2 = true
        · simp [backToRuneStart, s1, s2]
        · simp only [Bool.not_eq_true] at s2
          by_cases s3 : RuneStart b3 = true
          · simp [backToRuneStart, s1, s2, s3]
          · simp only [Bool.not_eq_true] at s3
            rcases r with _ | ⟨b4, r⟩
            · simp [backToRuneStart, s1, s2, s3, DecodeRune_ascii _ _ hc,
                DecodeRune_not_start _ _ s3]
            · simp [backToRuneStart, s1, s2, s3]

/-! ## Facts about trimming -/

theorem lastIndexFuncLoop_succ (f : Nat → Bool) (truth : Bool) (s : Bytes) (fuel i : Nat) :
    lastIndexFuncLoop f truth s (fuel + 1) i =
      if i = 0 then none
      else if (f (DecodeLastRune (s.take i)).1 == truth) = true then
        some (i - (DecodeLastRune (s.take i)).2)
      else lastIndexFuncLoop f truth s fuel (i - (DecodeLastRune (s.take i)).2) := rfl

theorem lastIndexFuncLoop_zero_index (f : Nat → Bool) (truth : Bool) (s : Bytes) (fuel : Nat) :
    lastIndexFuncLoop f truth s fuel 0 = none := by
  cases fuel <;> simp [lastIndexFuncLoop]

theorem take_after_ascii (p : Bytes) (c : Byte) (t : Bytes) (j : Nat) :
    (p ++ c :: t).take (p.length + 1 + j) = p ++ c :: t.take j := by
  have e : p ++ c :: t = (p ++ [c]) ++ t := by simp
  have e2 : p.length + 1 + j = (p ++ [c]).length + j := by simp
  rw [e, e2, List.take_append]
  simp

theorem drop_after_ascii (p : Bytes) (c : Byte) (t : Bytes) (j : Nat) :
    (p ++ c :: t).drop (p.length + 1 + j) = t.drop j := by
  have e : p ++ c :: t = (p ++ [c]) ++ t := by simp
  have e2 : p.length + 1 + j = (p ++ [c]).length + j := by simp
  rw [e, e2, List.drop_append]

theorem getD_after_ascii (p : Bytes) (c : Byte) (t : Bytes) (j : Nat) :
    (p ++ c :: t).getD (p.length + 1 + j) 0 = t.getD j 0 := by
  have e : p ++ c :: t = (p ++ [c]) ++ t := by simp
  have e2 : p.length + 1 + j = (p ++ [c]).length + j := by simp
  rw [e, e2, List.getD_eq_getElem?_getD, List.getD_eq_getElem?_getD,
    List.getElem?_append_right (by omega)]
  simp

/-- Scanning backwards over `p ++ c :: t`, where `c` is an ASCII byte that `f`
rejects, finds what the scan over `t` finds, or else `c`. -/
theorem lastIndexFuncLoop_after_ascii (f : Nat → Bool) (p : Bytes) (c : Byte) (t : Bytes)
    (hc : c.val < 0x80) (hfc : f c.val = false) :
    ∀ (n j fuel : Nat), j ≤ n → j ≤ t.length → n + 1 + p.length ≤ fuel →
      lastIndexFuncLoop f false (p ++ c :: t) fuel (p.length + 1 + j) =
        some (match lastIndexFuncLoop f false t n j with
          | some i => p.length + 1 + i
          | none => p.length) := by
  intro n
  induction n with
  | zero =>
    intro j fuel hj _ hfuel
    obtain ⟨k, rfl⟩ : ∃ k, fuel = k + 1 := ⟨fuel - 1, by omega⟩
    have hj0 : j = 0 := by omega
    subst hj0
    rw [lastIndexFuncLoop_succ, take_after_ascii]
    simp [DecodeLastRune_snoc_ascii p c hc, hfc, lastIndexFuncLoop]
  | succ n ih =>
    intro j fuel hj hjt hfuel
    obtain ⟨k, rfl⟩ : ∃ k, fuel = k + 1 := ⟨fuel - 1, by omega⟩
    rw [lastIndexFuncLoop_succ, take_after_ascii]
    cases j with
    | zero =>
      simp [DecodeLastRune_snoc_ascii p c hc, hfc, lastIndexFuncLoop]
    | succ j =>
      have hne : t.take (j + 1) ≠ [] := by
        intro h0
        have := congrArg List.length h0
        rw [List.length_take, List.length_nil] at this
        omega
      rw [DecodeLastRune_after_ascii p c _ hc hne, lastIndexFuncLoop_succ]
      have hw := DecodeLastRune_width _ hne
      have hlen : (t.take (j + 1)).length = j + 1 := by
        rw [List.length_take]; omega
      rw [hlen] at hw
      have e1 : p.length + 1 + (j + 1) - (DecodeLastRune (t.take (j + 1))).2
          = p.length + 1 + (j + 1 - (DecodeLastRune (t.take (j + 1))).2) := by omega
      simp only [e1, Nat.add_eq_zero, one_ne_zero, and_false, if_false]
      have e0 : ¬ (p.length = 0 ∧ False) := by simp
      by_cases hf : (f (DecodeLastRune (t.take (j + 1))).1 == false) = true
      · simp [hf]
      · simp only [hf, if_false]
        rw [ih _ k (by omega) (by omega) (by omega)]
        simp

theorem TrimRightFunc_after_ascii (f : Nat → Bool) (p : Bytes) (c : Byte) (t : Bytes)
    (hc : c.val < 0x80) (hfc : f c.val = false) :
    TrimRightFunc (p ++ c :: t) f = p ++ c :: TrimRightFunc t f := by
  unfold TrimRightFunc lastIndexFunc
  have e : (p ++ c :: t).length = p.length + 1 + t.length := by simp; omega
  rw [e, lastIndexFuncLoop_after_ascii f p c t hc hfc t.length t.length _ le_rfl le_rfl
    (by omega)]
  cases h : lastIndexFuncLoop f false t t.length t.length with
  | none =>
    have h1 : (p ++ c :: t).getD p.length 0 = c := by
      rw [List.getD_eq_getElem?_getD, List.getElem?_append_right le_rfl]
      simp
    have h2 : ¬ 0x80 ≤ c.val := by omega
    simp only [h1, h2, if_false, List.take_zero]
    have := take_after_ascii p c t 0
    simpa using this
  | some i =>
    simp only [getD_after_ascii, drop_after_ascii]
    split_ifs
    · rw [Nat.add_assoc, take_after_ascii]
    · rw [Nat.add_assoc, take_after_ascii]

theorem acceptLo_ge (s0 : Byte) : 0x80 ≤ acceptLo s0 := by
  unfold acceptLo; split_ifs <;> omega

theorem acceptHi_le (s0 : Byte) : acceptHi s0 ≤ 0xBF := by
  unfold acceptHi; split_ifs <;> omega

theorem RuneStart_eq_false_iff (b : Byte) : RuneStart b = false ↔ 0x80 ≤ b.val ∧ b.val < 0xC0 := by
  simp [RuneStart]

/-- The bytes of a rune after its first byte are continuation bytes. -/
theorem DecodeRune_cont (s : Bytes) (j : Nat) (h1 : 1 ≤ j) (h2 : j < (DecodeRune s).2) :
    ∃ b, s[j]? = some b ∧ RuneStart b = false := by
  rcases s with _ | ⟨s0, _ | ⟨s1, _ | ⟨s2, _ | ⟨s3, r⟩⟩⟩⟩
  · simp [DecodeRune] at h2
  · have := (DecodeRune_width [s0] (by simp)).2
    simp at this; omega
  all_goals
    have hlo := acceptLo_ge s0
    have hhi := acceptHi_le s0
    simp only [DecodeRune] at h2
    split_ifs at h2
    all_goals simp only at h2
    all_goals first
      | omega
      | (interval_cases j
         all_goals simp only [List.getElem?_cons_succ, List.getElem?_cons_zero,
           Option.some.injEq, exists_eq_left', RuneStart_eq_false_iff]
         all_goals omega)

theorem indexFuncLoop_succ (f : Nat → Bool) (truth : Bool) (fuel : Nat) (s : Bytes) (off : Nat) :
    indexFuncLoop f truth (fuel + 1) s off =
      if s.isEmpty = true then none
      else if (f (DecodeRune s).1 == truth) = true then some off
      else indexFuncLoop f truth fuel (s.drop (DecodeRune s).2) (off + (DecodeRune s).2) := rfl

/-- Scanning forwards never passes an ASCII byte that `f` rejects. -/
theorem indexFuncLoop_before_ascii (f : Nat → Bool) (c : Byte) (b : Bytes)
    (hc : c.val < 0x80) (hfc : f c.val = false) :
    ∀ (fuel : Nat) (a : Bytes) (off : Nat), (a ++ c :: b).length ≤ fuel →
      ∃ k, k ≤ a.length ∧ indexFuncLoop f false fuel (a ++ c :: b) off = some (off + k) := by
  intro fuel
  induction fuel with
  | zero => intro a off h; simp at h
  | succ n ih =>
    intro a off h
    rw [indexFuncLoop_succ]
    have hne : (a ++ c :: b).isEmpty = false := by cases a <;> rfl
    simp only [hne, Bool.false_eq_true, if_false]
    by_cases hf : (f (DecodeRune (a ++ c :: b)).1 == false) = true
    · exact ⟨0, by omega, by simp [hf]⟩
    · simp only [hf, if_false]
      rcases a with _ | ⟨a0, a1⟩
      · exact absurd (by simp [DecodeRune_ascii c b hc, hfc]) hf
      · have hw := DecodeRune_width (a0 :: a1 ++ c :: b) (by simp)
        have hle : (DecodeRune (a0 :: a1 ++ c :: b)).2 ≤ (a0 :: a1).length := by
          by_contra hlt
          obtain ⟨x, hx1, hx2⟩ := DecodeRune_cont (a0 :: a1 ++ c :: b) (a0 :: a1).length
            (by simp) (by omega)
          rw [List.getElem?_append_right le_rfl] at hx1
          simp only [Nat.sub_self, List.getElem?_cons_zero, Option.some.injEq] at hx1
          subst hx1
          rw [RuneStart_ascii c hc] at hx2
          cases hx2
        rw [List.drop_append_of_le_length hle]
        obtain ⟨k, hk1, hk2⟩ := ih ((a0 :: a1).drop (DecodeRune (a0 :: a1 ++ c :: b)).2)
          (off + (DecodeRune (a0 :: a1 ++ c :: b)).2) (by
            simp only [List.length_append, List.length_drop, List.length_cons] at h hle ⊢
            omega)
        refine ⟨(DecodeRune (a0 :: a1 ++ c :: b)).2 + k, ?_, ?_⟩
        · simp only [List.length_drop] at hk1
          omega
        · rw [hk2, Nat.add_assoc]; simp

theorem indexFuncLoop_bound (f : Nat → Bool) (truth : Bool) :
    ∀ (fuel : Nat) (s : Bytes) (off k : Nat), indexFuncLoop f truth fuel s off = some k →
      off ≤ k ∧ k < off + s.length := by
  intro fuel
  induction fuel with
  | zero => intro s off k h; simp [indexFuncLoop] at h
  | succ n ih =>
    intro s off k h
    rw [indexFuncLoop_succ] at h
    rcases s with _ | ⟨s0, s1⟩
    · simp at h
    · have hw := DecodeRune_width (s0 :: s1) (by simp)
      simp only [List.isEmpty_cons, Bool.false_eq_true, if_false] at h
      split_ifs at h with hf
      · simp only [Option.some.injEq] at h
        subst h
        simp
      · have := ih _ _ _ h
        simp only [List.length_drop] at this
        omega

theorem TrimLeftFunc_eq_drop (s : Bytes) (f : Nat → Bool) :
    ∃ i, i ≤ s.length ∧ TrimLeftFunc s f = s.drop i := by
  unfold TrimLeftFunc indexFunc
  cases h : indexFuncLoop f false s.length s 0 with
  | none => exact ⟨s.length, le_rfl, by simp⟩
  | some i =>
    have := indexFuncLoop_bound f false _ _ _ _ h
    exact ⟨i, by omega, rfl⟩

theorem TrimRightFunc_eq_take (s : Bytes) (f : Nat → Bool) :
    ∃ j, TrimRightFunc s f = s.take j := by
  unfold TrimRightFunc
  cases lastIndexFunc s f false with
  | none => exact ⟨0, rfl⟩
  | some i =>
    simp only
    split_ifs
    · exact ⟨_, rfl⟩
    · exact ⟨_, rfl⟩

theorem TrimLeftFunc_ascii (f : Nat → Bool) (c : Byte) (b : Bytes)
    (hc : c.val < 0x80) (hfc : f c.val = false) : TrimLeftFunc (c :: b) f = c :: b := by
  unfold TrimLeftFunc indexFunc
  simp [indexFuncLoop, DecodeRune_ascii c b hc, hfc]

/-- Trimming on the left keeps everything from the first ASCII byte that `f`
rejects. -/
theorem TrimLeftFunc_before_ascii (f : Nat → Bool) (a : Bytes) (c : Byte) (b : Bytes)
    (hc : c.val < 0x80) (hfc : f c.val = false) :
    ∃ a1, TrimLeftFunc (a ++ c :: b) f = a1 ++ c :: b := by
  unfold TrimLeftFunc indexFunc
  obtain ⟨k, hk1, hk2⟩ := indexFuncLoop_before_ascii f c b hc hfc _ a 0 le_rfl
  rw [hk2]
  simp only [Nat.zero_add]
  exact ⟨a.drop k, List.drop_append_of_le_length hk1⟩

/-- A string with an ASCII byte that is not white space does not trim to the
empty string; trimming keeps that byte and what is between it and the end of the
right trimming. -/
theorem TrimFunc_ascii_ne_nil (f : Nat → Bool) (a : Bytes) (c : Byte) (b : Bytes)
    (hc : c.val < 0x80) (hfc : f c.val = false) : TrimFunc (a ++ c :: b) f ≠ [] := by
  unfold TrimFunc
  obtain ⟨a1, h1⟩ := TrimLeftFunc_before_ascii f a c b hc hfc
  rw [h1, TrimRightFunc_after_ascii f a1 c b hc hfc]
  simp

theorem TrimFunc_ascii_cons (f : Nat → Bool) (c : Byte) (b : Bytes)
    (hc : c.val < 0x80) (hfc : f c.val = false) :
    TrimFunc (c :: b) f = c :: TrimRightFunc b f := by
  unfold TrimFunc
  rw [TrimLeftFunc_ascii f c b hc hfc]
  exact TrimRightFunc_after_ascii f [] c b hc hfc

/-! ## Facts about `extractSectionContent` and `parseSection` -/

theorem LittleEndianUint32_PutUint32 (n : Nat) :
    LittleEndianUint32 (PutUint32 n) = n % 4294967296 := by
  simp only [LittleEndianUint32, PutUint32, List.getD_cons_zero, List.getD_cons_succ,
    Fin.ofNat, Fin.val_mk]
  omega

theorem extractSectionContent_short (s : Bytes) (k : Nat) (entry : FileEntry)
    (h : s.length < k + SignatureMarker.length + 4) :
    extractSectionContent s k entry =
      (entry, .error "not enough bytes after signature marker for length prefix") := by
  unfold extractSectionContent
  simp [h]

theorem extractSectionContent_long (s : Bytes) (k : Nat) (entry : FileEntry)
    (h : k + SignatureMarker.length + 4 ≤ s.length) :
    extractSectionContent s k entry =
      ({ entry with
          ContentLengthHint := declaredLength s k
          Metadata := MapSet entry.Metadata keyContentLengthHint
            (FormatUint (declaredLength s k)) },
        .ok (if declaredLength s k ≤ (afterLength s k).length then
          (afterLength s k).take (declaredLength s k) else afterLength s k)) := by
  unfold extractSectionContent
  have h1 : ¬ k + SignatureMarker.length + 4 > s.length := by omega
  simp only [h1, if_false, declaredLength, afterLength]
  split_ifs <;> rfl

theorem parseSection_no_marker (U : UnicodeTables) (s : Bytes)
    (h : Index s SignatureMarker = none) :
    parseSection U s = .error "no signature marker found" := by
  simp [parseSection, h]

theorem parseSection_short (U : UnicodeTables) (s : Bytes) (k : Nat)
    (h : Index s SignatureMarker = some k) (hs : s.length < k + SignatureMarker.length + 4) :
    parseSection U s = .error ("failed to extract content: "
      ++ "not enough bytes after signature marker for length prefix") := by
  simp only [parseSection, h, extractSectionContent_short s k _ hs]

theorem parseSection_long (U : UnicodeTables) (s : Bytes) (k : Nat)
    (h : Index s SignatureMarker = some k) (hs : k + SignatureMarker.length + 4 ≤ s.length) :
    parseSection U s = .ok
      { parseHeader U (s.take k) emptyEntry with
        ContentLengthHint := declaredLength s k
        Metadata := MapSet (parseHeader U (s.take k) emptyEntry).Metadata keyContentLengthHint
          (FormatUint (declaredLength s k))
        Content := if declaredLength s k ≤ (afterLength s k).length then
          (afterLength s k).take (declaredLength s k) else afterLength s k } := by
  simp only [parseSection, h, extractSectionContent_long s k _ hs]

/-! ## Facts about the loop of `parseContent` -/

theorem parseContentStep_append (U : UnicodeTables) (total : Nat) (entries : List FileEntry)
    (i : Nat) (sec : Bytes) :
    parseContentStep U total entries i sec = entries ++ parseContentStep U total [] i sec := by
  unfold parseContentStep
  by_cases h1 : TrimSpace sec = []
  · simp [h1]
  · by_cases h2 : shouldSkipSection (TrimSpace (normalizeSectionData sec i total)) i = true
    · simp [h1, h2]
    · simp only [h1, h2, if_false]
      cases parseSection U (normalizeSectionData sec i total) <;> simp

theorem parseContentLoop_append (U : UnicodeTables) (total : Nat) :
    ∀ (secs : List Bytes) (i : Nat) (entries : List FileEntry),
      parseContentLoop U total i secs entries =
        entries ++ parseContentLoop U total i secs [] := by
  intro secs
  induction secs with
  | nil => intro i entries; simp [parseContentLoop]
  | cons sec rest ih =>
    intro i entries
    simp only [parseContentLoop]
    rw [ih (i + 1) (parseContentStep U total entries i sec),
      ih (i + 1) (parseContentStep U total [] i sec),
      parseContentStep_append U total entries i sec, List.append_assoc]

theorem parseContentLoop_cons (U : UnicodeTables) (total : Nat) (sec : Bytes)
    (rest : List Bytes) (i : Nat) (entries : List FileEntry) :
    parseContentLoop U total i (sec :: rest) entries =
      entries ++ (parseContentStep U total [] i sec
        ++ parseContentLoop U total (i + 1) rest []) := by
  simp only [parseContentLoop]
  rw [parseContentLoop_append U total rest (i + 1) (parseContentStep U total entries i sec),
    parseContentStep_append U total entries i sec, List.append_assoc]

/-- Every record that an iteration adds is among the entries after the loop. -/
theorem parseContentLoop_mem (U : UnicodeTables) (total : Nat) :
    ∀ (secs : List Bytes) (i : Nat) (entries : List FileEntry) (j : Nat) (sec : Bytes)
      (e : FileEntry), secs[j]? = some sec → e ∈ parseContentStep U total [] (i + j) sec →
      e ∈ parseContentLoop U total i secs entries := by
  intro secs
  induction secs with
  | nil => intro i entries j sec e h; simp at h
  | cons s0 rest ih =>
    intro i entries j sec e h he
    rw [parseContentLoop_cons]
    cases j with
    | zero =>
      simp only [List.getElem?_cons_zero, Option.some.injEq] at h
      subst h
      simp only [List.mem_append]
      exact Or.inr (Or.inl he)
    | succ j =>
      simp only [List.getElem?_cons_succ] at h
      have e1 : i + (j + 1) = i + 1 + j := by omega
      rw [e1] at he
      simp only [List.mem_append]
      exact Or.inr (Or.inr (ih (i + 1) [] j sec e h he))

/-- The loop adds nothing when no iteration adds a record. -/
theorem parseContentLoop_unchanged (U : UnicodeTables) (total : Nat) :
    ∀ (secs : List Bytes) (i : Nat) (entries : List FileEntry),
      (∀ (j : Nat) (sec : Bytes), secs[j]? = some sec →
        parseContentStep U total [] (i + j) sec = []) →
      parseContentLoop U total i secs entries = entries := by
  intro secs
  induction secs with
  | nil => intro i entries _; simp [parseContentLoop]
  | cons s0 rest ih =>
    intro i entries h
    have h0 : parseContentStep U total [] i s0 = [] := by simpa using h 0 s0 (by simp)
    rw [parseContentLoop_cons, h0, ih (i + 1) []]
    · simp
    · intro j sec hj
      have := h (j + 1) sec (by simpa using hj)
      have e1 : i + (j + 1) = i + 1 + j := by omega
      rwa [e1] at this

theorem ParseData_nonempty (U : UnicodeTables) (p : ArchiveParser) (data : Bytes)
    (h : data ≠ []) :
    ParseData U p data =
      ({ entries := parseContentLoop U (Split data SectionDelimiter).length 0
            (Split data SectionDelimiter) p.entries,
         data := data }, none) := by
  have h1 : data.length ≠ 0 := by simpa using h
  simp [ParseData, parseContent, h1]

/-! ## Sections that begin with the document prefix -/

theorem TrimRightFunc_ascii_cons (f : Nat → Bool) (c : Byte) (t : Bytes)
    (hc : c.val < 0x80) (hfc : f c.val = false) :
    TrimRightFunc (c :: t) f = c :: TrimRightFunc t f := by
  simpa using TrimRightFunc_after_ascii f [] c t hc hfc

theorem TrimSpace_DocumentPrefix (rest : Bytes) :
    TrimSpace (DocumentPrefix ++ rest) = DocumentPrefix ++ TrimRightFunc rest IsSpace := by
  have e : DocumentPrefix ++ rest = 68 :: 79 :: 67 :: 85 :: rest := rfl
  rw [e]
  unfold TrimSpace
  rw [TrimFunc_ascii_cons IsSpace 68 _ (by decide) (by decide),
    TrimRightFunc_ascii_cons IsSpace 79 _ (by decide) (by decide),
    TrimRightFunc_ascii_cons IsSpace 67 _ (by decide) (by decide),
    TrimRightFunc_ascii_cons IsSpace 85 _ (by decide) (by decide)]
  rfl

theorem HasPrefix_TrimSpace_DocumentPrefix (s : Bytes)
    (h : HasPrefix s DocumentPrefix = true) :
    HasPrefix (TrimSpace s) DocumentPrefix = true ∧ TrimSpace s ≠ [] := by
  obtain ⟨rest, rfl⟩ := (HasPrefix_iff _ _).1 h
  rw [TrimSpace_DocumentPrefix]
  constructor
  · rw [HasPrefix_iff]; exact List.prefix_append _ _
  · simp [DocumentPrefix]

theorem normalizeSectionData_isPrefix (sec : Bytes) (i total : Nat) :
    normalizeSectionData sec i total <+: sec := by
  unfold normalizeSectionData TrimSuffix
  split_ifs
  · exact List.take_prefix _ _
  · exact List.prefix_refl _
  · exact List.prefix_refl _

/-- A section whose normalised, trimmed text begins with `DOCU` passes the test
`strings.TrimSpace(section) == ""` at the head of the loop. -/
theorem TrimSpace_ne_nil_of_isPrefix (sd sec : Bytes) (hp : sd <+: sec)
    (h : HasPrefix (TrimSpace sd) DocumentPrefix = true) : TrimSpace sec ≠ [] := by
  obtain ⟨x, rfl⟩ := hp
  rw [HasPrefix_iff] at h
  unfold TrimSpace TrimFunc at h
  obtain ⟨i, hi, e1⟩ := TrimLeftFunc_eq_drop sd IsSpace
  obtain ⟨j, e2⟩ := TrimRightFunc_eq_take (TrimLeftFunc sd IsSpace) IsSpace
  rw [e2, e1] at h
  obtain ⟨t, ht⟩ := h
  have h3 : ∃ t1, sd.drop i = 68 :: t1 := by
    rcases hd : sd.drop i with _ | ⟨c, t1⟩
    · rw [hd] at ht; simp [DocumentPrefix] at ht
    · rw [hd] at ht
      cases j with
      | zero => simp [DocumentPrefix] at ht
      | succ j =>
        simp only [DocumentPrefix, List.take_succ_cons, List.cons_append, List.cons.injEq] at ht
        exact ⟨t1, by rw [ht.1]⟩
  obtain ⟨t1, ht1⟩ := h3
  have e3 : sd ++ x = sd.take i ++ 68 :: (t1 ++ x) := by
    conv_lhs => rw [← List.take_append_drop i sd, ht1]
    simp
  rw [e3]
  exact TrimFunc_ascii_ne_nil IsSpace _ 68 _ (by decide) (by decide)

/-- The iteration of the loop of `parseContent` on a section whose normalised,
trimmed text begins with `DOCU`. -/
theorem parseContentStep_document (U : UnicodeTables) (total : Nat)
    (entries : List FileEntry) (i : Nat) (sec : Bytes)
    (h : HasPrefix (TrimSpace (normalizeSectionData sec i total)) DocumentPrefix = true) :
    parseContentStep U total entries i sec =
      match parseSection U (normalizeSectionData sec i total) with
      | .error _ => entries
      | .ok entry => entries ++ [entry] := by
  have h1 := TrimSpace_ne_nil_of_isPrefix _ sec (normalizeSectionData_isPrefix sec i total) h
  simp [parseContentStep, h1, shouldSkipSection, h]

/-! ## The claims -/

/-- C1: `ParseData` returns an error if and only if its input is empty; on the
empty input the error is "data cannot be empty", and on every non-empty input,
whatever its sections are, the returned error is `nil`. -/
theorem ParseData_error_iff_empty (U : UnicodeTables) (p : ArchiveParser) (data : Bytes) :
    ((ParseData U p data).2 ≠ none ↔ data = []) ∧
      (ParseData U p data).2 = if data = [] then some "data cannot be empty" else none := by
  by_cases h : data = []
  · subst h
    simp [ParseData]
  · rw [ParseData_nonempty U p data h]
    simp [h]

/-- C4: when at least four bytes follow the marker at offset `sigIndex` and the
declared length `N` is at most the number of bytes after the length field,
`extractSectionContent` returns no error and returns exactly the first `N` bytes
after the length field. -/
theorem extractSectionContent_exact (sectionBytes : Bytes) (sigIndex : Nat)
    (entry : FileEntry)
    (h4 : sigIndex + SignatureMarker.length + 4 ≤ sectionBytes.length)
    (hN : declaredLength sectionBytes sigIndex ≤ (afterLength sectionBytes sigIndex).length) :
    (extractSectionContent sectionBytes sigIndex entry).2 =
      .ok ((afterLength sectionBytes sigIndex).take (declaredLength sectionBytes sigIndex)) := by
  rw [extractSectionContent_long sectionBytes sigIndex entry h4]
  simp [hN]

/-- C4, on the buffer of `TestExtractSectionContent` with three bytes appended:
the five declared bytes `abcde` are returned and `xyz` is discarded. -/
theorem extractSectionContent_exact_witness :
    (extractSectionContent testExtractBuffer 7 emptyEntry).2 =
        .ok ((afterLength testExtractBuffer 7).take (declaredLength testExtractBuffer 7)) ∧
      (afterLength testExtractBuffer 7).take (declaredLength testExtractBuffer 7)
        = [97, 98, 99, 100, 101] :=
  ⟨extractSectionContent_exact testExtractBuffer 7 emptyEntry (by decide) (by decide),
    by decide⟩

/-- C5: when at least four bytes follow the marker and the declared length
exceeds the number of bytes after the length field, `extractSectionContent`
raises no error, returns all the remaining bytes and sets `ContentLengthHint` to
the declared value; and `ParseData` returns no error and stores a record with that
content and that hint for every section of its input whose normalised text is such
a section and begins, after trimming, with `DOCU`. -/
theorem extractSectionContent_truncated (U : UnicodeTables) (sectionBytes : Bytes)
    (sigIndex : Nat) (entry : FileEntry)
    (h4 : sigIndex + SignatureMarker.length + 4 ≤ sectionBytes.length)
    (hN : (afterLength sectionBytes sigIndex).length < declaredLength sectionBytes sigIndex) :
    (extractSectionContent sectionBytes sigIndex entry).2 =
        .ok (afterLength sectionBytes sigIndex) ∧
      (extractSectionContent sectionBytes sigIndex entry).1.ContentLengthHint =
        declaredLength sectionBytes sigIndex ∧
      ∀ (p : ArchiveParser) (data : Bytes) (i : Nat) (sec : Bytes),
        data ≠ [] → (Split data SectionDelimiter)[i]? = some sec →
        normalizeSectionData sec i (Split data SectionDelimiter).length = sectionBytes →
        HasPrefix (TrimSpace sectionBytes) DocumentPrefix = true →
        Index sectionBytes SignatureMarker = some sigIndex →
        (ParseData U p data).2 = none ∧
          ∃ e ∈ (ParseData U p data).1.entries,
            e.Content = afterLength sectionBytes sigIndex ∧
              e.ContentLengthHint = declaredLength sectionBytes sigIndex := by
  have hN1 : ¬ declaredLength sectionBytes sigIndex ≤ (afterLength sectionBytes sigIndex).length := by
    omega
  refine ⟨?_, ?_, ?_⟩
  · rw [extractSectionContent_long sectionBytes sigIndex entry h4]
    simp [hN1]
  · rw [extractSectionContent_long sectionBytes sigIndex entry h4]
  · intro p data i sec hne hsec hnorm hdoc hidx
    rw [ParseData_nonempty U p data hne]
    refine ⟨rfl, ?_⟩
    have hstep := parseContentStep_document U (Split data SectionDelimiter).length [] i sec
      (by rw [hnorm]; exact hdoc)
    rw [hnorm, parseSection_long U sectionBytes sigIndex hidx h4] at hstep
    simp only [hN1, if_false, List.nil_append] at hstep
    refine ⟨{ parseHeader U (sectionBytes.take sigIndex) emptyEntry with
        ContentLengthHint := declaredLength sectionBytes sigIndex
        Metadata := MapSet (parseHeader U (sectionBytes.take sigIndex) emptyEntry).Metadata
          keyContentLengthHint (FormatUint (declaredLength sectionBytes sigIndex))
        Content := afterLength sectionBytes sigIndex },
      parseContentLoop_mem U _ _ 0 p.entries i sec _ hsec ?_, rfl, rfl⟩
    rw [Nat.zero_add, hstep]
    exact List.mem_singleton_self _

/-- C5, on the input of `TestParseData_TooLongDeclaredLength`: declared length 10,
five bytes available. -/
theorem extractSectionContent_truncated_witness :
    (ParseData asciiTables New testTooLong).2 = none ∧
      ∃ e ∈ (ParseData asciiTables New testTooLong).1.entries,
        e.Content = afterLength testTooLongSection 27 ∧
          e.ContentLengthHint = declaredLength testTooLongSection 27 :=
  (extractSectionContent_truncated asciiTables testTooLongSection 27 emptyEntry
    (by decide) (by decide)).2.2 New testTooLong 0 testTooLong (by decide) (by decide)
    (by decide) (by decide) (by decide)

/-- C6: `extractSectionContent` fails if and only if fewer than four bytes remain
after the signature marker, and then it leaves the entry unchanged (so also its
`ContentLengthHint` and `Metadata`); the iteration of `parseContent` on a section
in that state adds no record, `ParseData` returns no error on any non-empty
input, and an input that is one such section yields no record. -/
theorem extractSectionContent_fails_iff (U : UnicodeTables) (sectionBytes : Bytes)
    (sigIndex : Nat) (entry : FileEntry) :
    ((∃ err, (extractSectionContent sectionBytes sigIndex entry).2 = .error err) ↔
        sigIndex + SignatureMarker.length + 4 > sectionBytes.length) ∧
      (sigIndex + SignatureMarker.length + 4 > sectionBytes.length →
        (extractSectionContent sectionBytes sigIndex entry).1 = entry) ∧
      (sigIndex + SignatureMarker.length + 4 > sectionBytes.length →
        Index sectionBytes SignatureMarker = some sigIndex →
        (∀ (total i : Nat) (entries : List FileEntry) (sec : Bytes),
          normalizeSectionData sec i total = sectionBytes →
          parseContentStep U total entries i sec = entries) ∧
        ∀ (p : ArchiveParser) (data : Bytes), data ≠ [] →
          Contains data SectionDelimiter = false →
          TrimSuffix data EndMarker = sectionBytes →
          ParseData U p data = ({ entries := p.entries, data := data }, none)) := by
  refine ⟨?_, ?_, ?_⟩
  · by_cases h : sigIndex + SignatureMarker.length + 4 > sectionBytes.length
    · rw [extractSectionContent_short sectionBytes sigIndex entry h]
      simp [h]
    · rw [extractSectionContent_long sectionBytes sigIndex entry (by omega)]
      simp [h]
  · intro h
    rw [extractSectionContent_short sectionBytes sigIndex entry h]
  · intro h hidx
    have hstep : ∀ (total i : Nat) (entries : List FileEntry) (sec : Bytes),
        normalizeSectionData sec i total = sectionBytes →
        parseContentStep U total entries i sec = entries := by
      intro total i entries sec hnorm
      unfold parseContentStep
      simp only [hnorm, parseSection_short U sectionBytes sigIndex hidx h]
      split_ifs <;> rfl
    refine ⟨hstep, ?_⟩
    intro p data hne hdel hnorm
    rw [ParseData_nonempty U p data hne,
      Split_of_not_Contains data SectionDelimiter (by decide) hdel]
    simp only [parseContentLoop, List.length_singleton]
    rw [hstep 1 0 p.entries data (by simpa [normalizeSectionData] using hnorm)]

/-- C6, on the input of `TestParseData_InvalidLengthBytes`: nothing follows the
marker at offset 27, the iteration adds nothing, and the parse yields no record. -/
theorem extractSectionContent_fails_iff_witness :
    (extractSectionContent testInvalidLength 27 emptyEntry).1 = emptyEntry ∧
      parseContentStep asciiTables 1 [] 0 testInvalidLength = [] ∧
      ParseData asciiTables New testInvalidLength =
        ({ entries := New.entries, data := testInvalidLength }, none) :=
  ⟨(extractSectionContent_fails_iff asciiTables testInvalidLength 27 emptyEntry).2.1
      (by decide),
    ((extractSectionContent_fails_iff asciiTables testInvalidLength 27 emptyEntry).2.2
      (by decide) (by decide)).1 1 0 [] testInvalidLength (by decide),
    ((extractSectionContent_fails_iff asciiTables testInvalidLength 27 emptyEntry).2.2
      (by decide) (by decide)).2 New testInvalidLength (by decide) (by decide) (by decide)⟩

/-! ## Sections are pieces of the input -/

theorem Contains_eq_false_iff_isInfix (s sep : Bytes) :
    Contains s sep = false ↔ ¬ sep <:+: s := by
  rw [Contains_eq_false_iff]
  constructor
  · intro h hin
    obtain ⟨a, b, hab⟩ := hin
    apply h a.length
    rw [← hab, List.append_assoc, List.drop_left]
    exact List.prefix_append _ _
  · intro h i hp
    exact h (hp.isInfix.trans (List.drop_suffix i s).isInfix)

theorem Contains_false_of_isInfix (s t sep : Bytes) (hts : t <:+: s)
    (h : Contains s sep = false) : Contains t sep = false := by
  rw [Contains_eq_false_iff_isInfix] at h ⊢
  exact fun h1 => h (h1.trans hts)

theorem splitLoop_isInfix (sep : Bytes) :
    ∀ (fuel : Nat) (s x : Bytes), x ∈ splitLoop sep fuel s → x <:+: s := by
  intro fuel
  induction fuel with
  | zero =>
    intro s x hx
    simp only [splitLoop, List.mem_singleton] at hx
    subst hx; exact List.infix_refl _
  | succ n ih =>
    intro s x hx
    simp only [splitLoop] at hx
    cases hI : Index s sep with
    | none =>
      rw [hI] at hx
      simp only [List.mem_singleton] at hx
      subst hx; exact List.infix_refl _
    | some m =>
      rw [hI] at hx
      simp only [List.mem_cons] at hx
      rcases hx with hx | hx
      · subst hx; exact (List.take_prefix _ _).isInfix
      · exact (ih _ x hx).trans (List.drop_suffix _ _).isInfix

theorem Split_isInfix (s sep x : Bytes) (hx : x ∈ Split s sep) : x <:+: s :=
  splitLoop_isInfix sep _ s x hx

/-- The error of `parseSection`: it fails when the section has no marker and
when fewer than four bytes follow the first marker, and in no other case. -/
theorem parseSection_error_iff (U : UnicodeTables) (s : Bytes) :
    (∃ err, parseSection U s = .error err) ↔
      (Contains s SignatureMarker = false ∨
        ∃ k, Index s SignatureMarker = some k ∧ s.length < k + SignatureMarker.length + 4) := by
  cases hI : Index s SignatureMarker with
  | none =>
    rw [parseSection_no_marker U s hI]
    simp [Contains, hI]
  | some k =>
    by_cases hs : s.length < k + SignatureMarker.length + 4
    · rw [parseSection_short U s k hI hs]
      simp [hs]
    · rw [parseSection_long U s k hI (by omega)]
      simp [Contains, hI, hs]

theorem parseContentStep_of_error (U : UnicodeTables) (total : Nat)
    (entries : List FileEntry) (i : Nat) (sec : Bytes) (err : String)
    (h : parseSection U (normalizeSectionData sec i total) = .error err) :
    parseContentStep U total entries i sec = entries := by
  unfold parseContentStep
  simp only [h]
  split_ifs <;> rfl

theorem parseContentStep_of_skip (U : UnicodeTables) (total : Nat)
    (entries : List FileEntry) (i : Nat) (sec : Bytes)
    (h : HasPrefix (TrimSpace (normalizeSectionData sec i total)) DocumentPrefix = false) :
    parseContentStep U total entries i sec = entries := by
  unfold parseContentStep
  simp only [shouldSkipSection, h]
  split_ifs <;> simp_all

/-- C7, counterexample: the section `DOCU_SIG/D.C.` contains the marker, and
`parseSection` fails on it. -/
theorem parseSection_fails_with_marker :
    Contains (DocumentPrefix ++ SignatureMarker) SignatureMarker = true ∧
      parseSection asciiTables (DocumentPrefix ++ SignatureMarker) =
        .error ("failed to extract content: "
          ++ "not enough bytes after signature marker for length prefix") :=
  ⟨by decide, parseSection_short asciiTables _ 4 (by decide) (by decide)⟩

/-- C7, amended: on a non-empty input with no occurrence of the signature marker
`ParseData` returns no error and adds no record, so a fresh parser has zero
records; `parseSection` fails exactly when the section does not contain the
marker or fewer than four bytes follow its first occurrence, and the failure is
absorbed. -/
theorem ParseData_no_marker (U : UnicodeTables) (p : ArchiveParser) (data : Bytes)
    (hne : data ≠ []) (h : Contains data SignatureMarker = false) :
    ParseData U p data = ({ entries := p.entries, data := data }, none) ∧
      (ParseData U New data).2 = none ∧ (ParseData U New data).1.entries = [] ∧
      ∀ s, (∃ err, parseSection U s = .error err) ↔
        (Contains s SignatureMarker = false ∨
          ∃ k, Index s SignatureMarker = some k ∧
            s.length < k + SignatureMarker.length + 4) := by
  have key : ∀ q : ArchiveParser,
      ParseData U q data = ({ entries := q.entries, data := data }, none) := by
    intro q
    rw [ParseData_nonempty U q data hne, parseContentLoop_unchanged]
    intro j sec hj
    have hmem : sec ∈ Split data SectionDelimiter := List.mem_iff_getElem?.2 ⟨j, hj⟩
    have hin : normalizeSectionData sec (0 + j) (Split data SectionDelimiter).length <:+: data :=
      (normalizeSectionData_isPrefix _ _ _).isInfix.trans (Split_isInfix _ _ _ hmem)
    have hc := Contains_false_of_isInfix _ _ _ hin h
    have hI : Index (normalizeSectionData sec (0 + j) (Split data SectionDelimiter).length)
        SignatureMarker = none := by simpa [Contains] using hc
    exact parseContentStep_of_error U _ [] _ sec _ (parseSection_no_marker U _ hI)
  refine ⟨key p, ?_, ?_, parseSection_error_iff U⟩
  · rw [key New]
  · rw [key New]; rfl

/-- C7, amended, on the input of `TestParseData_MissingSignature`. -/
theorem ParseData_no_marker_witness :
    ParseData asciiTables New testHeader = ({ entries := New.entries, data := testHeader }, none) :=
  (ParseData_no_marker asciiTables New testHeader (by decide) (by decide)).1

/-- C8: an iteration of `parseContent` adds no record for a section whose
trimmed text, after end-marker stripping, does not begin with `DOCU`; hence on a
non-empty input none of whose sections begins with `DOCU` in that sense
`ParseData` returns no error and adds no record, so a fresh parser has zero
records, whatever markers and payloads the sections contain. -/
theorem ParseData_no_document (U : UnicodeTables) (p : ArchiveParser) (data : Bytes)
    (hne : data ≠ [])
    (h : ∀ (i : Nat) (sec : Bytes), (Split data SectionDelimiter)[i]? = some sec →
      HasPrefix (TrimSpace (normalizeSectionData sec i (Split data SectionDelimiter).length))
        DocumentPrefix = false) :
    ParseData U p data = ({ entries := p.entries, data := data }, none) ∧
      (ParseData U New data).2 = none ∧ (ParseData U New data).1.entries = [] ∧
      ∀ (total i : Nat) (entries : List FileEntry) (sec : Bytes),
        HasPrefix (TrimSpace (normalizeSectionData sec i total)) DocumentPrefix = false →
        parseContentStep U total entries i sec = entries := by
  have key : ∀ q : ArchiveParser,
      ParseData U q data = ({ entries := q.entries, data := data }, none) := by
    intro q
    rw [ParseData_nonempty U q data hne, parseContentLoop_unchanged]
    intro j sec hj
    exact parseContentStep_of_skip U _ [] _ sec (by rw [Nat.zero_add]; exact h j sec hj)
  refine ⟨key p, ?_, ?_, fun total i entries sec hs =>
    parseContentStep_of_skip U total entries i sec hs⟩
  · rw [key New]
  · rw [key New]; rfl

/-- C8, on an archive whose only section begins with `KEYB` and carries a marker,
the length 2 and the payload `Hi`. -/
theorem ParseData_no_document_witness :
    ParseData asciiTables New testKeyboard =
      ({ entries := New.entries, data := testKeyboard }, none) :=
  (ParseData_no_document asciiTables New testKeyboard (by decide) (by
    intro i sec hsec
    have hs : Split testKeyboard SectionDelimiter = [testKeyboard] := by decide
    rw [hs] at hsec ⊢
    cases i with
    | zero =>
      simp only [List.getElem?_cons_zero, Option.some.injEq] at hsec
      subst hsec
      decide
    | succ i => simp at hsec)).1

/-! ## Well-formed archives -/

theorem Split_archive :
    ∀ (encs : List Bytes), (∀ e ∈ encs, Contains e SectionDelimiter = false) →
      Split (joinSections encs ++ EndMarker) SectionDelimiter = archiveSections encs := by
  intro encs
  induction encs with
  | nil => intro _; decide
  | cons s rest ih =>
    intro h
    cases rest with
    | nil =>
      simp only [joinSections, archiveSections]
      exact Split_of_not_Contains _ _ (by decide)
        (Contains_delimiter_append_end s (h s (by simp)))
    | cons t rest =>
      simp only [joinSections, archiveSections]
      have e : s ++ (SectionDelimiter ++ joinSections (t :: rest)) ++ EndMarker
          = s ++ (SectionDelimiter ++ (joinSections (t :: rest) ++ EndMarker)) := by simp
      rw [e, Split_eq _ _ (by decide), Index_delimiter_first s _ (h s (by simp))]
      have e2 : (s ++ (SectionDelimiter ++ (joinSections (t :: rest) ++ EndMarker))).drop
          (s.length + SectionDelimiter.length) = joinSections (t :: rest) ++ EndMarker := by
        rw [← List.append_assoc, ← List.length_append, List.drop_left]
      have e3 : (s ++ (SectionDelimiter ++ (joinSections (t :: rest) ++ EndMarker))).take
          s.length = s := List.take_left _ _
      simp only [e2, e3, ih (fun x hx => h x (by simp [hx]))]

theorem encodeSection_length (header payload : Bytes) :
    (encodeSection header payload).length = header.length + SignatureMarker.length + 4
      + payload.length := by
  simp [encodeSection, PutUint32]
  omega

theorem declaredLength_encodeSection (header payload : Bytes) :
    declaredLength (encodeSection header payload) header.length
      = payload.length % 4294967296 := by
  unfold declaredLength encodeSection
  rw [← List.append_assoc, ← List.length_append, List.drop_left]
  have e : (PutUint32 payload.length ++ payload).take 4 = PutUint32 payload.length := by
    simp [PutUint32]
  rw [e, LittleEndianUint32_PutUint32]

theorem afterLength_encodeSection (header payload : Bytes) :
    afterLength (encodeSection header payload) header.length = payload := by
  unfold afterLength encodeSection
  have e : header ++ (SignatureMarker ++ (PutUint32 payload.length ++ payload))
      = (header ++ SignatureMarker ++ PutUint32 payload.length) ++ payload := by simp
  have e2 : header.length + SignatureMarker.length + 4
      = (header ++ SignatureMarker ++ PutUint32 payload.length).length := by
    simp [PutUint32]
    omega
  rw [e, e2, List.drop_left]

/-- The parser reads back the section encoded from a header without marker. -/
theorem parseSection_encodeSection (U : UnicodeTables) (header payload : Bytes)
    (h : Contains header SignatureMarker = false) :
    parseSection U (encodeSection header payload) = .ok (sectionRecord U header payload) := by
  have hI : Index (encodeSection header payload) SignatureMarker = some header.length :=
    Index_marker_first header _ h
  have hlen := encodeSection_length header payload
  rw [parseSection_long U _ _ hI (by omega), declaredLength_encodeSection,
    afterLength_encodeSection]
  have ht : (encodeSection header payload).take header.length = header := List.take_left _ _
  have hm : payload.length % 4294967296 ≤ payload.length := Nat.mod_le _ _
  simp only [ht, hm, if_true]
  rfl

theorem HasPrefix_encodeSection (header payload : Bytes)
    (h : HasPrefix header DocumentPrefix = true) :
    HasPrefix (encodeSection header payload) DocumentPrefix = true := by
  rw [HasPrefix_iff] at h ⊢
  exact h.trans (List.prefix_append _ _)

theorem normalizeSectionData_last (sec : Bytes) (i total : Nat) (h : i + 1 = total) :
    normalizeSectionData sec i total = TrimSuffix sec EndMarker := by
  have : (i : Int) = (total : Int) - 1 := by omega
  simp [normalizeSectionData, this]

theorem normalizeSectionData_inner (sec : Bytes) (i total : Nat) (h : i + 1 ≠ total) :
    normalizeSectionData sec i total = sec := by
  have : ¬ (i : Int) = (total : Int) - 1 := by omega
  simp [normalizeSectionData, this]

/-- The loop of `parseContent` over the pieces of a well-formed archive stores
one record per section, in order. -/
theorem parseContentLoop_archive (U : UnicodeTables) (total : Nat) :
    ∀ (secs : List (Bytes × Bytes)) (i : Nat) (entries : List FileEntry),
      secs ≠ [] → i + secs.length = total →
      (∀ hp ∈ secs, HasPrefix hp.1 DocumentPrefix = true ∧
        Contains hp.1 SignatureMarker = false) →
      parseContentLoop U total i
          (archiveSections (secs.map (fun hp => encodeSection hp.1 hp.2))) entries
        = entries ++ secs.map (fun hp => sectionRecord U hp.1 hp.2) := by
  intro secs
  induction secs with
  | nil => intro i entries h; exact absurd rfl h
  | cons hp rest ih =>
    intro i entries _ htot hwf
    obtain ⟨hdoc, hsig⟩ := hwf hp (by simp)
    cases rest with
    | nil =>
      simp only [List.map_cons, List.map_nil, archiveSections, parseContentLoop]
      have hn : normalizeSectionData (encodeSection hp.1 hp.2 ++ EndMarker) i total
          = encodeSection hp.1 hp.2 := by
        rw [normalizeSectionData_last _ _ _ (by simpa using htot), TrimSuffix_append_end]
      rw [parseContentStep_document U total entries i _
        (by rw [hn]; exact (HasPrefix_TrimSpace_DocumentPrefix _
          (HasPrefix_encodeSection _ _ hdoc)).1), hn, parseSection_encodeSection U _ _ hsig]
    | cons hp2 rest =>
      simp only [List.map_cons, archiveSections, parseContentLoop]
      have hn : normalizeSectionData (encodeSection hp.1 hp.2) i total
          = encodeSection hp.1 hp.2 :=
        normalizeSectionData_inner _ _ _ (by simp only [List.length_cons] at htot; omega)
      rw [parseContentStep_document U total entries i _
        (by rw [hn]; exact (HasPrefix_TrimSpace_DocumentPrefix _
          (HasPrefix_encodeSection _ _ hdoc)).1), hn, parseSection_encodeSection U _ _ hsig]
      have := ih (i + 1) (entries ++ [sectionRecord U hp.1 hp.2]) (by simp)
        (by simp only [List.length_cons] at htot ⊢; omega)
        (fun x hx => hwf x (by simp only [List.mem_cons] at hx ⊢; exact Or.inr hx))
      simp only [List.map_cons] at this
      rw [this]
      simp

theorem archiveSections_length (encs : List Bytes) (h : encs ≠ []) :
    (archiveSections encs).length = encs.length := by
  induction encs with
  | nil => exact absurd rfl h
  | cons s rest ih =>
    cases rest with
    | nil => rfl
    | cons t rest =>
      simp only [archiveSections, List.length_cons]
      have := ih (by simp)
      simp only [List.length_cons] at this
      omega

/-- The result of `ParseData` on a well-formed archive. -/
theorem ParseData_archive (U : UnicodeTables) (p : ArchiveParser) (secs : List (Bytes × Bytes))
    (hne : secs ≠ [])
    (hwf : ∀ hp ∈ secs, HasPrefix hp.1 DocumentPrefix = true ∧
      Contains hp.1 SignatureMarker = false)
    (hdel : ∀ hp ∈ secs, Contains (encodeSection hp.1 hp.2) SectionDelimiter = false) :
    ParseData U p (encodeArchive secs) =
      ({ entries := p.entries ++ secs.map (fun hp => sectionRecord U hp.1 hp.2),
         data := encodeArchive secs }, none) := by
  have hd : encodeArchive secs ≠ [] := by simp [encodeArchive, EndMarker]
  rw [ParseData_nonempty U p _ hd]
  have hs : Split (encodeArchive secs) SectionDelimiter
      = archiveSections (secs.map (fun hp => encodeSection hp.1 hp.2)) := by
    unfold encodeArchive
    apply Split_archive
    intro e he
    obtain ⟨hp, hp1, rfl⟩ := List.mem_map.1 he
    exact hdel hp hp1
  rw [hs, archiveSections_length _ (by simpa using hne), List.length_map,
    parseContentLoop_archive U secs.length secs 0 p.entries hne (by simp) hwf]

/-- C2: round trip of a well-formed archive. For a non-empty list of
(header, payload) pairs in which every header starts with `DOCU` and contains no
signature marker, every payload is shorter than `2^32` bytes and no encoded
section contains the delimiter, `ParseData` on a fresh parser applied to the
encoded archive returns no error and yields one record per pair, in the same
order, the content of the i-th record being the i-th payload. -/
theorem ParseData_roundtrip (U : UnicodeTables) (secs : List (Bytes × Bytes))
    (hne : secs ≠ [])
    (hwf : ∀ hp ∈ secs, HasPrefix hp.1 DocumentPrefix = true ∧
      Contains hp.1 SignatureMarker = false ∧ hp.2.length < 4294967296 ∧
      Contains (encodeSection hp.1 hp.2) SectionDelimiter = false) :
    (ParseData U New (encodeArchive secs)).2 = none ∧
      (ParseData U New (encodeArchive secs)).1.entries.length = secs.length ∧
      (ParseData U New (encodeArchive secs)).1.entries.map (fun e => e.Content)
        = secs.map (fun hp => hp.2) := by
  rw [ParseData_archive U New secs hne (fun hp h => ⟨(hwf hp h).1, (hwf hp h).2.1⟩)
    (fun hp h => (hwf hp h).2.2.2)]
  refine ⟨rfl, by simp [New], ?_⟩
  simp only [New, List.nil_append, List.map_map]
  apply List.map_congr_left
  intro hp h
  have hlt := (hwf hp h).2.2.1
  simp [sectionRecord, Nat.mod_eq_of_lt hlt]

/-- C2, on the two sections of `TestParseData_MultipleSections`. -/
theorem ParseData_roundtrip_witness :
    (ParseData asciiTables New (encodeArchive testTwoSections)).2 = none ∧
      (ParseData asciiTables New (encodeArchive testTwoSections)).1.entries.length
        = testTwoSections.length ∧
      (ParseData asciiTables New (encodeArchive testTwoSections)).1.entries.map
        (fun e => e.Content) = testTwoSections.map (fun hp => hp.2) :=
  ParseData_roundtrip asciiTables testTwoSections (by decide) (by decide)

/-- C3, counterexample: the header `DOCU` with the payload `**%%` is a
well-formed section, and the archive made of it yields one record whose content
has length 0 while its `ContentLengthHint` is 4. -/
theorem delimiter_in_payload :
    HasPrefix DocumentPrefix DocumentPrefix = true ∧
      Contains DocumentPrefix SignatureMarker = false ∧
      (ParseData asciiTables New
        (encodeSection DocumentPrefix SectionDelimiter ++ EndMarker)).1.entries.map
          (fun e => (e.Content.length, e.ContentLengthHint)) = [(0, 4)] := by
  decide

/-- C3, amended: for an archive made of a single well-formed section (a header
that begins with `DOCU` and contains no signature marker, the marker, the
little-endian length of the payload, the payload) that does not contain the
delimiter, followed by the terminator, `ParseData` on a fresh parser returns no
error and yields exactly one record, and the length of its content equals its
`ContentLengthHint`. -/
theorem ParseData_single_section (U : UnicodeTables) (header payload : Bytes)
    (hdoc : HasPrefix header DocumentPrefix = true)
    (hsig : Contains header SignatureMarker = false)
    (hdel : Contains (encodeSection header payload) SectionDelimiter = false) :
    (ParseData U New (encodeSection header payload ++ EndMarker)).2 = none ∧
      ∃ e, (ParseData U New (encodeSection header payload ++ EndMarker)).1.entries = [e] ∧
        e.Content.length = e.ContentLengthHint := by
  have h := ParseData_archive U New [(header, payload)] (by simp)
    (by simpa using ⟨hdoc, hsig⟩) (by simpa using hdel)
  have e : encodeArchive [(header, payload)] = encodeSection header payload ++ EndMarker := rfl
  rw [e] at h
  rw [h]
  refine ⟨rfl, sectionRecord U header payload, by simp [New], ?_⟩
  simp only [sectionRecord, List.length_take]
  exact Nat.min_eq_left (Nat.mod_le _ _)

/-- C3, amended, on the input of `TestParseData`: the header
`"DOCUTest\nFILENAME/test.txt\n"` and the payload `"Hi"`. -/
theorem ParseData_single_section_witness :
    (ParseData asciiTables New (encodeSection testHeader [72, 105] ++ EndMarker)).2 = none ∧
      ∃ e, (ParseData asciiTables New
          (encodeSection testHeader [72, 105] ++ EndMarker)).1.entries = [e] ∧
        e.Content.length = e.ContentLengthHint :=
  ParseData_single_section asciiTables testHeader [72, 105] (by decide) (by decide)
    (by decide)

/-! ## Facts about the header decoder -/

theorem MapLookup_MapSet_self (m : StringMap) (k v : Bytes) :
    MapLookup (MapSet m k v) k = some v := by
  simp [MapLookup, MapSet, List.lookup]

theorem lookup_filter_ne (m : StringMap) (k k1 : Bytes) (h : k1 ≠ k) :
    (m.filter (fun p => p.1 != k)).lookup k1 = m.lookup k1 := by
  induction m with
  | nil => rfl
  | cons hd tl ih =>
    obtain ⟨a, b⟩ := hd
    by_cases ha : a = k
    · subst ha
      have h1 : (k1 == a) = false := by simpa using h
      simp [List.filter, List.lookup, h1, ih]
    · have h2 : (a != k) = true := by simpa using ha
      simp only [List.filter, h2, List.lookup]
      cases k1 == a <;> simp [ih]

theorem MapLookup_MapSet_ne (m : StringMap) (k v k1 : Bytes) (h : k1 ≠ k) :
    MapLookup (MapSet m k v) k1 = MapLookup m k1 := by
  have h1 : (k1 == k) = false := by simpa using h
  simp only [MapLookup, MapSet, List.lookup, h1]
  exact lookup_filter_ne m k k1 h

theorem mapMetadataToFields_Metadata (key value : Bytes) (entry : FileEntry) :
    (mapMetadataToFields key value entry).Metadata = entry.Metadata := by
  unfold mapMetadataToFields
  split_ifs <;> rfl

theorem parseDocumentType_Metadata (U : UnicodeTables) (line : Bytes) (entry : FileEntry) :
    (parseDocumentType U line entry).Metadata = entry.Metadata := by
  unfold parseDocumentType
  simp only
  split_ifs <;> rfl

/-- The method `parseMetadataLine` in terms of the pair it accepts. -/
theorem parseMetadataLine_eq (line : Bytes) (entry : FileEntry) :
    parseMetadataLine line entry =
      match lineKeyValue line with
      | none => entry
      | some kv => mapMetadataToFields kv.1 kv.2
          { entry with Metadata := MapSet entry.Metadata kv.1 kv.2 } := by
  unfold parseMetadataLine lineKeyValue
  simp only
  by_cases h1 : TrimSpace line = [] ∨ HasPrefix (TrimSpace line) CommentToken = true
  · simp only [h1, if_true]
  · simp only [h1, if_false]
    by_cases h2 : Contains (TrimSpace line) Slash = true ∧
        ¬ HasPrefix (TrimSpace line) SignatureMarker = true
    · simp only [h2, not_false_eq_true, and_self, if_true, SplitN2]
      cases hI : Index (TrimSpace line) Slash with
      | none => simp [Contains, hI] at h2
      | some m => rfl
    · simp only [h2, if_false]

theorem parseMetadataLine_Metadata (line : Bytes) (entry : FileEntry) :
    (parseMetadataLine line entry).Metadata =
      match lineKeyValue line with
      | none => entry.Metadata
      | some kv => MapSet entry.Metadata kv.1 kv.2 := by
  rw [parseMetadataLine_eq]
  cases lineKeyValue line with
  | none => rfl
  | some kv => simp only [mapMetadataToFields_Metadata]

/-- Lines that do not yield the key `k` leave `Metadata[k]` as it is. -/
theorem foldl_parseMetadataLine_lookup (k : Bytes) :
    ∀ (post : List Bytes) (entry : FileEntry),
      (∀ l ∈ post, ∀ kv, lineKeyValue l = some kv → kv.1 ≠ k) →
      MapLookup (post.foldl (fun e line => parseMetadataLine line e) entry).Metadata k
        = MapLookup entry.Metadata k := by
  intro post
  induction post with
  | nil => intro entry _; rfl
  | cons l rest ih =>
    intro entry h
    simp only [List.foldl_cons]
    rw [ih _ (fun x hx => h x (by simp [hx])), parseMetadataLine_Metadata]
    cases hkv : lineKeyValue l with
    | none => rfl
    | some kv =>
      simp only
      exact MapLookup_MapSet_ne _ _ _ _ (fun e => h l (by simp) kv hkv e.symm)

theorem lineKeyValue_of_accepted (line : Bytes) (m : Nat)
    (hne : TrimSpace line ≠ [])
    (hcomment : HasPrefix (TrimSpace line) CommentToken = false)
    (hmarker : HasPrefix (TrimSpace line) SignatureMarker = false)
    (hslash : Index (TrimSpace line) Slash = some m) :
    lineKeyValue line =
      some (TrimSpace ((TrimSpace line).take m), TrimSpace ((TrimSpace line).drop (m + 1))) := by
  unfold lineKeyValue
  simp [hne, hcomment, hmarker, hslash, Contains]

/-- C9, counterexample: in the header `"A/1\nA/2"` the line `A/1` has the form
KEY/value with key `A` and value `1`, and after `parseHeader` on an entry with an
empty map `Metadata["A"]` is `2`. -/
theorem duplicate_key_last_wins :
    ([65, 47, 49] : Bytes) ∈ Split testDuplicateKey Newline ∧
      TrimSpace [65, 47, 49] ≠ [] ∧
      HasPrefix (TrimSpace [65, 47, 49]) CommentToken = false ∧
      HasPrefix (TrimSpace [65, 47, 49]) SignatureMarker = false ∧
      lineKeyValue [65, 47, 49] = some ([65], [49]) ∧
      Contains [65] Slash = false ∧
      MapLookup (parseHeader asciiTables testDuplicateKey emptyEntry).Metadata [65]
        = some [50] := by
  decide

/-- C9, amended: for every header and every line of it that is non-empty after
trimming, does not start with `%%` or with the signature marker and contains a
`/`, with KEY the trimmed text before the first `/` and value the trimmed text
after it: if no later line of the header is accepted with the same key, then
after `parseHeader` (on any entry) `Metadata[KEY]` equals value, whether or not
KEY maps to a named field. -/
theorem parseHeader_metadata (U : UnicodeTables) (headerData : Bytes) (entry : FileEntry)
    (pre post : List Bytes) (line : Bytes) (m : Nat)
    (hlines : Split headerData Newline = pre ++ line :: post)
    (hne : TrimSpace line ≠ [])
    (hcomment : HasPrefix (TrimSpace line) CommentToken = false)
    (hmarker : HasPrefix (TrimSpace line) SignatureMarker = false)
    (hslash : Index (TrimSpace line) Slash = some m)
    (hlast : ∀ l ∈ post, ∀ kv, lineKeyValue l = some kv →
      kv.1 ≠ TrimSpace ((TrimSpace line).take m)) :
    MapLookup (parseHeader U headerData entry).Metadata (TrimSpace ((TrimSpace line).take m))
        = some (TrimSpace ((TrimSpace line).drop (m + 1))) ∧
      Contains ((TrimSpace line).take m) Slash = false := by
  constructor
  · unfold parseHeader
    simp only [hlines, List.foldl_append, List.foldl_cons]
    rw [foldl_parseMetadataLine_lookup _ post _ hlast, parseMetadataLine_Metadata,
      lineKeyValue_of_accepted line m hne hcomment hmarker hslash]
    exact MapLookup_MapSet_self _ _ _
  · rw [Contains_eq_false_iff]
    intro i hp
    obtain ⟨h1, _, h3⟩ := (Index_eq_some_iff _ _ _).1 hslash
    by_cases hi : i < m
    · apply h3 i hi
      have hd : ((TrimSpace line).take m).drop i <+: (TrimSpace line).drop i := by
        rw [List.drop_take]
        exact List.take_prefix _ _
      exact hp.trans hd
    · have := hp.length_le
      simp only [Slash, List.length_singleton, List.length_drop, List.length_take] at this
      omega

/-- C9, amended, on the header `"A/1\nB/x/y"` and its first line. -/
theorem parseHeader_metadata_witness :
    MapLookup (parseHeader asciiTables testTwoKeys emptyEntry).Metadata
        (TrimSpace ((TrimSpace [65, 47, 49]).take 1))
        = some (TrimSpace ((TrimSpace [65, 47, 49]).drop (1 + 1))) ∧
      Contains ((TrimSpace [65, 47, 49]).take 1) Slash = false :=
  parseHeader_metadata asciiTables testTwoKeys emptyEntry [] [[66, 47, 120, 47, 121]]
    [65, 47, 49] 1 (by decide) (by decide) (by decide) (by decide) (by decide) (by decide)

/-! ## Strings of runes -/

theorem allRunesLoop_succ (p : Nat → Bool) (fuel : Nat) (s : Bytes) :
    allRunesLoop p (fuel + 1) s =
      if s.isEmpty = true then true
      else p (DecodeRune s).1 && allRunesLoop p fuel (s.drop (DecodeRune s).2) := rfl

/-- A non-empty string whose runes all satisfy `p` ends with a whole rune that
satisfies `p`. -/
theorem allRunesLoop_last (p : Nat → Bool) :
    ∀ (fuel : Nat) (s : Bytes), s.length ≤ fuel → s ≠ [] → allRunesLoop p fuel s = true →
      ∃ pre w, s = pre ++ w ∧ w ≠ [] ∧ (DecodeRune w).2 = w.length ∧
        p (DecodeRune w).1 = true := by
  intro fuel
  induction fuel with
  | zero =>
    intro s h hne _
    exact absurd (List.length_eq_zero.1 (by omega)) hne
  | succ n ih =>
    intro s h hne hall
    rw [allRunesLoop_succ] at hall
    have he : s.isEmpty = false := by cases s <;> simp_all
    simp only [he, Bool.false_eq_true, if_false, Bool.and_eq_true] at hall
    have hw := DecodeRune_width s hne
    by_cases hr : s.drop (DecodeRune s).2 = []
    · refine ⟨[], s, rfl, hne, ?_, hall.1⟩
      have := congrArg List.length hr
      simp only [List.length_drop, List.length_nil] at this
      omega
    · obtain ⟨pre, w, h1, h2, h3, h4⟩ := ih _ (by simp only [List.length_drop]; omega) hr hall.2
      refine ⟨s.take (DecodeRune s).2 ++ pre, w, ?_, h2, h3, h4⟩
      rw [List.append_assoc, ← h1, List.take_append_drop]

theorem AllRunes_first (p : Nat → Bool) (s : Bytes) (hne : s ≠ []) (h : AllRunes p s = true) :
    p (DecodeRune s).1 = true := by
  unfold AllRunes at h
  obtain ⟨n, hn⟩ : ∃ n, s.length = n + 1 :=
    ⟨s.length - 1, by have := List.length_pos.2 hne; omega⟩
  rw [hn, allRunesLoop_succ] at h
  have he : s.isEmpty = false := by cases s <;> simp_all
  simp only [he, Bool.false_eq_true, if_false, Bool.and_eq_true] at h
  exact h.1

/-- An ASCII byte of a string is one of its runes. -/
theorem allRunesLoop_ascii (p : Nat → Bool) :
    ∀ (fuel : Nat) (s : Bytes), s.length ≤ fuel → allRunesLoop p fuel s = true →
      ∀ b ∈ s, b.val < 0x80 → p b.val = true := by
  intro fuel
  induction fuel with
  | zero =>
    intro s h _ b hb
    have : s = [] := List.length_eq_zero.1 (by omega)
    subst this
    simp at hb
  | succ n ih =>
    intro s h hall b hb hlt
    have hne : s ≠ [] := List.ne_nil_of_mem hb
    rw [allRunesLoop_succ] at hall
    have he : s.isEmpty = false := by cases s <;> simp_all
    simp only [he, Bool.false_eq_true, if_false, Bool.and_eq_true] at hall
    have hw := DecodeRune_width s hne
    rw [← List.take_append_drop (DecodeRune s).2 s, List.mem_append] at hb
    rcases hb with hb | hb
    · obtain ⟨j, hj⟩ := List.mem_iff_getElem?.1 hb
      have hjlt : j < (DecodeRune s).2 := by
        by_contra hge
        rw [List.getElem?_take_eq_none (by omega)] at hj
        cases hj
      rw [List.getElem?_take_of_lt hjlt] at hj
      cases j with
      | zero =>
        rcases s with _ | ⟨s0, s1⟩
        · exact absurd rfl hne
        · simp only [List.getElem?_cons_zero, Option.some.injEq] at hj
          subst hj
          rw [DecodeRune_ascii s0 s1 hlt] at hall
          exact hall.1
      | succ j =>
        obtain ⟨x, hx1, hx2⟩ := DecodeRune_cont s (j + 1) (by omega) hjlt
        rw [hj] at hx1
        simp only [Option.some.injEq] at hx1
        subst hx1
        rw [RuneStart_ascii b hlt] at hx2
        cases hx2
    · exact ih _ (by simp only [List.length_drop]; omega) hall.2 b hb hlt

theorem AllRunes_ascii (p : Nat → Bool) (s : Bytes) (h : AllRunes p s = true) (b : Byte)
    (hb : b ∈ s) (hlt : b.val < 0x80) : p b.val = true :=
  allRunesLoop_ascii p _ s le_rfl h b hb hlt

theorem DecodeRune_width_le_four (s : Bytes) : (DecodeRune s).2 ≤ 4 := by
  rcases s with _ | ⟨s0, _ | ⟨s1, _ | ⟨s2, _ | ⟨s3, r⟩⟩⟩⟩
  · simp [DecodeRune]
  all_goals
    simp only [DecodeRune]
    split_ifs <;> simp

theorem RuneStart_of_width (b : Byte) (t : Bytes) (h : 2 ≤ (DecodeRune (b :: t)).2) :
    RuneStart b = true := by
  by_contra hn
  simp only [Bool.not_eq_true] at hn
  rw [DecodeRune_not_start b t hn] at h
  simp at h

theorem not_ascii_of_cont (b : Byte) (h : RuneStart b = false) : ¬ b.val < 0x80 := by
  rw [RuneStart_eq_false_iff] at h
  omega

/-- Decoding backwards finds the whole rune at the end of a string. -/
theorem DecodeLastRune_chunk (pre w : Bytes) (hne : w ≠ [])
    (hw : (DecodeRune w).2 = w.length) (hr : (DecodeRune w).1 ≠ RuneError) :
    DecodeLastRune (pre ++ w) = DecodeRune w := by
  have h4 := DecodeRune_width_le_four w
  rcases w with _ | ⟨l, _ | ⟨c1, _ | ⟨c2, _ | ⟨c3, _ | ⟨c4, r⟩⟩⟩⟩⟩
  · exact absurd rfl hne
  · by_cases hl : l.val < 0x80
    · rw [DecodeLastRune_snoc_ascii pre l hl, DecodeRune_ascii l [] hl]
    · rw [DecodeRune_single l (by omega)] at hr
      exact absurd rfl hr
  · have hs := RuneStart_of_width l [c1] (by rw [hw]; simp)
    obtain ⟨x, hx1, hx2⟩ := DecodeRune_cont [l, c1] 1 (by omega) (by rw [hw]; simp)
    simp only [List.getElem?_cons_succ, List.getElem?_cons_zero, Option.some.injEq] at hx1
    subst hx1
    have e : pre ++ [l, c1] = (pre ++ [l]) ++ [c1] := by simp
    rw [e, DecodeLastRune_snoc]
    simp [not_ascii_of_cont c1 hx2, backToRuneStart, hs, hw]
  · have hs := RuneStart_of_width l [c1, c2] (by rw [hw]; simp)
    obtain ⟨x, hx1, hx2⟩ := DecodeRune_cont [l, c1, c2] 1 (by omega) (by rw [hw]; simp)
    obtain ⟨y, hy1, hy2⟩ := DecodeRune_cont [l, c1, c2] 2 (by omega) (by rw [hw]; simp)
    simp only [List.getElem?_cons_succ, List.getElem?_cons_zero, Option.some.injEq] at hx1 hy1
    subst hx1 hy1
    have e : pre ++ [l, c1, c2] = (pre ++ [l, c1]) ++ [c2] := by simp
    rw [e, DecodeLastRune_snoc]
    simp [not_ascii_of_cont c2 hy2, backToRuneStart, hs, hx2, hw]
  · have hs := RuneStart_of_width l [c1, c2, c3] (by rw [hw]; simp)
    obtain ⟨x, hx1, hx2⟩ := DecodeRune_cont [l, c1, c2, c3] 1 (by omega) (by rw [hw]; simp)
    obtain ⟨y, hy1, hy2⟩ := DecodeRune_cont [l, c1, c2, c3] 2 (by omega) (by rw [hw]; simp)
    obtain ⟨z, hz1, hz2⟩ := DecodeRune_cont [l, c1, c2, c3] 3 (by omega) (by rw [hw]; simp)
    simp only [List.getElem?_cons_succ, List.getElem?_cons_zero, Option.some.injEq]
      at hx1 hy1 hz1
    subst hx1 hy1 hz1
    have e : pre ++ [l, c1, c2, c3] = (pre ++ [l, c1, c2]) ++ [c3] := by simp
    rw [e, DecodeLastRune_snoc]
    simp [not_ascii_of_cont c3 hz2, backToRuneStart, hs, hx2, hy2, hw]
  · rw [hw] at h4
    simp at h4

/-- Trimming on the right removes nothing when the string ends with a whole rune
that `f` rejects. -/
theorem TrimRightFunc_chunk (f : Nat → Bool) (pre w : Bytes) (hne : w ≠ [])
    (hw : (DecodeRune w).2 = w.length) (hr : (DecodeRune w).1 ≠ RuneError)
    (hf : f (DecodeRune w).1 = false) : TrimRightFunc (pre ++ w) f = pre ++ w := by
  have hd := DecodeLastRune_chunk pre w hne hw hr
  unfold TrimRightFunc lastIndexFunc
  obtain ⟨n, hn⟩ : ∃ n, (pre ++ w).length = n + 1 :=
    ⟨(pre ++ w).length - 1, by
      have := List.length_pos.2 hne
      simp only [List.length_append]; omega⟩
  have hi : lastIndexFuncLoop f false (pre ++ w) (pre ++ w).length (pre ++ w).length
      = some pre.length := by
    conv_lhs => rw [hn, lastIndexFuncLoop_succ]
    rw [← hn, List.take_length, hd]
    simp [hf, hw, hne]
  rw [hi]
  have hdrop : (pre ++ w).drop pre.length = w := List.drop_left _ _
  simp only [hdrop, hw]
  have htake : (pre ++ w).take (pre.length + w.length) = pre ++ w := by
    rw [← List.length_append, List.take_length]
  split_ifs with h80
  · exact htake
  · rcases w with _ | ⟨w0, w1⟩
    · exact absurd rfl hne
    · have hg : (pre ++ w0 :: w1).getD pre.length 0 = w0 := by
        rw [List.getD_eq_getElem?_getD, List.getElem?_append_right le_rfl]
        simp
      rw [hg] at h80
      rw [DecodeRune_ascii w0 w1 (by omega)] at hw
      simp only [List.length_cons] at hw
      have hw1 : w1 = [] := List.length_eq_zero.1 (by omega)
      subst hw1
      simp

theorem TrimLeftFunc_first (f : Nat → Bool) (s : Bytes) (hne : s ≠ [])
    (hf : f (DecodeRune s).1 = false) : TrimLeftFunc s f = s := by
  unfold TrimLeftFunc indexFunc
  obtain ⟨n, hn⟩ : ∃ n, s.length = n + 1 :=
    ⟨s.length - 1, by have := List.length_pos.2 hne; omega⟩
  rw [hn, indexFuncLoop_succ]
  have he : s.isEmpty = false := by cases s <;> simp_all
  simp [he, hf]

/-- A non-empty string of runes that satisfy `p` is left as it is by
`strings.TrimFunc` when `f` rejects the runes that satisfy `p` and `U+FFFD` is
none of them. -/
theorem TrimFunc_AllRunes (f p : Nat → Bool) (s : Bytes) (hne : s ≠ [])
    (h : AllRunes p s = true) (hr : ∀ r, p r = true → f r = false ∧ r ≠ RuneError) :
    TrimFunc s f = s ∧ TrimRightFunc s f = s := by
  have h1 := AllRunes_first _ s hne h
  obtain ⟨pre, w, e, h2, h3, h4⟩ := allRunesLoop_last _ _ s le_rfl hne h
  have h5 : TrimRightFunc s f = s := by
    rw [e]; exact TrimRightFunc_chunk f pre w h2 h3 (hr _ h4).2 (hr _ h4).1
  unfold TrimFunc
  rw [TrimLeftFunc_first f s hne (hr _ h1).1]
  exact ⟨h5, h5⟩

/-! ## Headers made of a document type and key/value lines -/

theorem Contains_byte_false (a : Bytes) (c : Byte) (h : c ∉ a) : Contains a [c] = false := by
  rw [Contains_eq_false_iff_isInfix]
  intro hin
  exact h (hin.subset (List.mem_singleton_self c))

theorem Index_byte_first (a rest : Bytes) (c : Byte) (h : c ∉ a) :
    Index (a ++ ([c] ++ rest)) [c] = some a.length := by
  apply Index_append_first
  intro j hj hp
  rcases hd : a.drop j with _ | ⟨x, t⟩
  · have := congrArg List.length hd
    simp only [List.length_drop, List.length_nil] at this
    omega
  · rw [hd] at hp
    simp only [List.cons_append, List.cons_prefix_cons] at hp
    have hx : x ∈ a := List.mem_of_mem_drop (by rw [hd]; simp)
    exact h (hp.1 ▸ hx)

theorem Split_byte_append (a rest : Bytes) (c : Byte) (h : c ∉ a) :
    Split (a ++ ([c] ++ rest)) [c] = a :: Split rest [c] := by
  rw [Split_eq _ _ (by simp), Index_byte_first a rest c h]
  have e2 : (a ++ ([c] ++ rest)).drop (a.length + [c].length) = rest := by
    rw [← List.append_assoc, ← List.length_append, List.drop_left]
  have e3 : (a ++ ([c] ++ rest)).take a.length = a := List.take_left _ _
  simp only [e2, e3]

theorem Split_byte_last (a : Bytes) (c : Byte) (h : c ∉ a) : Split a [c] = [a] :=
  Split_of_not_Contains a [c] (by simp) (Contains_byte_false a c h)

theorem TrimRightFunc_nil (f : Nat → Bool) : TrimRightFunc [] f = [] := rfl

theorem TrimRightFunc_ascii_append (f : Nat → Bool) (p : Bytes)
    (hp : ∀ c ∈ p, c.val < 0x80 ∧ f c.val = false) (t : Bytes) :
    TrimRightFunc (p ++ t) f = p ++ TrimRightFunc t f := by
  induction p with
  | nil => rfl
  | cons c rest ih =>
    have hc := hp c (by simp)
    rw [List.cons_append, TrimRightFunc_ascii_cons f c _ hc.1 hc.2,
      ih (fun x hx => hp x (by simp [hx]))]
    rfl

theorem TrimFunc_ascii_append (f : Nat → Bool) (c : Byte) (p : Bytes)
    (hp : ∀ x ∈ c :: p, x.val < 0x80 ∧ f x.val = false) (t : Bytes) :
    TrimFunc (c :: p ++ t) f = c :: p ++ TrimRightFunc t f := by
  have hc := hp c (by simp)
  rw [List.cons_append, TrimFunc_ascii_cons f c _ hc.1 hc.2,
    TrimRightFunc_ascii_append f p (fun x hx => hp x (by simp [hx]))]
  rfl

/-- A string that trimming leaves as it is has nothing to trim on the right. -/
theorem TrimRightFunc_of_TrimFunc (f : Nat → Bool) (v : Bytes) (h : TrimFunc v f = v) :
    TrimRightFunc v f = v := by
  unfold TrimFunc at h
  obtain ⟨i, hi, e1⟩ := TrimLeftFunc_eq_drop v f
  obtain ⟨j, e2⟩ := TrimRightFunc_eq_take (TrimLeftFunc v f) f
  have hl := congrArg List.length h
  rw [e2, e1] at hl
  simp only [List.length_take, List.length_drop] at hl
  have hi0 : i = 0 ∨ v.length = 0 := by omega
  have e3 : TrimLeftFunc v f = v := by
    rcases hi0 with h0 | h0
    · rw [e1, h0]; rfl
    · have : v = [] := List.length_eq_zero.1 h0
      rw [e1, this]; simp
  rw [e3] at h
  exact h

theorem allRunesLoop_mono (p q : Nat → Bool) (hpq : ∀ r, p r = true → q r = true) :
    ∀ (fuel : Nat) (s : Bytes), allRunesLoop p fuel s = true → allRunesLoop q fuel s = true := by
  intro fuel
  induction fuel with
  | zero => intro s _; rfl
  | succ n ih =>
    intro s h
    rw [allRunesLoop_succ] at h ⊢
    by_cases he : s.isEmpty = true
    · simp [he]
    · rw [if_neg he, Bool.and_eq_true] at h ⊢
      exact ⟨hpq _ h.1, ih _ h.2⟩

/-- Letters and digits are not white space and not `U+FFFD`, when that holds
of the tables above Latin-1. -/
theorem IsLetterOrDigit_sane (U : UnicodeTables)
    (hU : ∀ r, 0xFF < r → (U.Letter r || U.Digit r) = true →
      IsSpace r = false ∧ r ≠ RuneError)
    (r : Nat) (h : IsLetterOrDigit U r = true) : IsSpace r = false ∧ r ≠ RuneError := by
  by_cases hr : r ≤ 0xFF
  · unfold IsLetterOrDigit IsLetter IsDigit at h
    simp only [hr, if_true, Bool.or_eq_true, Bool.and_eq_true, decide_eq_true_eq,
      beq_iff_eq] at h
    constructor
    · unfold IsSpace
      simp only [hr, if_true, Bool.or_eq_false_iff, beq_eq_false_iff_ne, ne_eq]
      omega
    · unfold RuneError; omega
  · apply hU r (by omega)
    unfold IsLetterOrDigit IsLetter IsDigit at h
    simpa only [hr, if_false] using h

theorem notLetterNorDigit_eq_false (U : UnicodeTables) (r : Nat)
    (h : IsLetterOrDigit U r = true) : notLetterNorDigit U r = false := by
  unfold IsLetterOrDigit at h
  unfold notLetterNorDigit
  cases h1 : IsLetter U r <;> cases h2 : IsDigit U r <;> simp_all

/-- The first line `DOCU` + `T`, with `T` a non-empty string of letters and
digits: trimming changes nothing and the document type is `T`. -/
theorem parseDocumentType_letters (U : UnicodeTables)
    (hU : ∀ r, 0xFF < r → (U.Letter r || U.Digit r) = true →
      IsSpace r = false ∧ r ≠ RuneError)
    (T : Bytes) (hT : T ≠ []) (hTr : AllRunes (IsLetterOrDigit U) T = true)
    (entry : FileEntry) :
    TrimSpace (DocumentPrefix ++ T) = DocumentPrefix ++ T ∧
      parseDocumentType U (DocumentPrefix ++ T) entry = { entry with DocType := T } := by
  have hsane := IsLetterOrDigit_sane U hU
  have h1 : TrimRightFunc T IsSpace = T :=
    (TrimFunc_AllRunes IsSpace _ T hT hTr hsane).2
  have h2 : TrimSpace (DocumentPrefix ++ T) = DocumentPrefix ++ T := by
    rw [TrimSpace_DocumentPrefix, h1]
  have h3 : TrimFunc T (notLetterNorDigit U) = T :=
    (TrimFunc_AllRunes (notLetterNorDigit U) _ T hT hTr
      (fun r hr => ⟨notLetterNorDigit_eq_false U r hr, (hsane r hr).2⟩)).1
  refine ⟨h2, ?_⟩
  unfold parseDocumentType
  have h4 : HasPrefix (DocumentPrefix ++ T) DocumentPrefix = true := by
    rw [HasPrefix_iff]; exact List.prefix_append _ _
  have h5 : TrimPrefix (DocumentPrefix ++ T) DocumentPrefix = T := by
    simp [TrimPrefix, h4]
  simp only [h2, h4, if_true, h5, h3]
  simp [hT]

theorem TrimSpace_ascii (c : Byte) (k : Bytes)
    (hk : ∀ x ∈ c :: k, x.val < 0x80 ∧ IsSpace x.val = false) : TrimSpace (c :: k) = c :: k := by
  have := TrimFunc_ascii_append IsSpace c k hk []
  simpa [TrimRightFunc_nil] using this

/-- The line `key/value` with an ASCII key that has no white space and no `/` and
does not start with `%` or `_`, and a value that trimming leaves as it is. -/
theorem lineKeyValue_ascii_key (c : Byte) (k v : Bytes)
    (hk : ∀ x ∈ c :: k, x.val < 0x80 ∧ IsSpace x.val = false) (hslash : (47 : Byte) ∉ c :: k)
    (hc : c ≠ 37) (hm : c ≠ 95) (hv : TrimSpace v = v) :
    lineKeyValue (c :: k ++ (Slash ++ v)) = some (c :: k, v) := by
  have hv1 : TrimRightFunc v IsSpace = v := TrimRightFunc_of_TrimFunc IsSpace v hv
  have e : c :: k ++ (Slash ++ v) = c :: (k ++ Slash) ++ v := by simp
  have ht : TrimSpace (c :: k ++ (Slash ++ v)) = c :: k ++ (Slash ++ v) := by
    unfold TrimSpace
    rw [e, TrimFunc_ascii_append IsSpace c (k ++ Slash) (by
      intro x hx
      simp only [List.mem_cons, List.mem_append, Slash, List.mem_singleton, List.not_mem_nil,
        or_false] at hx
      rcases hx with hx | hx | hx
      · exact hk x (by simp [hx])
      · exact hk x (by simp [hx])
      · subst hx; exact ⟨by decide, by decide⟩), hv1]
  have h1 : HasPrefix (c :: k ++ (Slash ++ v)) CommentToken = false := by
    simp [HasPrefix, CommentToken, List.isPrefixOf, Ne.symm hc]
  have h2 : HasPrefix (c :: k ++ (Slash ++ v)) SignatureMarker = false := by
    simp [HasPrefix, SignatureMarker, List.isPrefixOf, Ne.symm hm]
  have h3 : Index (c :: k ++ (Slash ++ v)) Slash = some (c :: k).length :=
    Index_byte_first (c :: k) v 47 hslash
  rw [lineKeyValue_of_accepted _ (c :: k).length (by rw [ht]; simp) (by rw [ht]; exact h1)
    (by rw [ht]; exact h2) (by rw [ht]; exact h3), ht]
  have e1 : (c :: k ++ (Slash ++ v)).take (c :: k).length = c :: k := List.take_left _ _
  have e2 : (c :: k ++ (Slash ++ v)).drop ((c :: k).length + 1) = v := by
    have : (c :: k).length + 1 = (c :: k ++ Slash).length := by simp [Slash]
    rw [this, ← List.append_assoc, List.drop_left]
  rw [e1, e2, TrimSpace_ascii c k hk, hv]

theorem IsLetterOrDigit_newline (U : UnicodeTables) : IsLetterOrDigit U 10 = false := by
  simp [IsLetterOrDigit, IsLetter, IsDigit]

theorem IsLetterOrDigit_slash (U : UnicodeTables) : IsLetterOrDigit U 47 = false := by
  simp [IsLetterOrDigit, IsLetter, IsDigit]

theorem mapMetadataToFields_FILENAME (v : Bytes) (e : FileEntry) :
    mapMetadataToFields keyFILENAME v e = { e with Filename := v } := by
  simp [mapMetadataToFields, show keyFILENAME ≠ keyENV_GUID by decide,
    show keyFILENAME ≠ keyEXT by decide]

theorem mapMetadataToFields_GUID (v : Bytes) (e : FileEntry) :
    mapMetadataToFields keyGUID v e = { e with GUID := v } := by
  simp [mapMetadataToFields, show keyGUID ≠ keyENV_GUID by decide,
    show keyGUID ≠ keyEXT by decide, show keyGUID ≠ keyFILENAME by decide]

theorem mapMetadataToFields_SHA1 (v : Bytes) (e : FileEntry) :
    mapMetadataToFields keySHA1 v e = { e with SHA1 := v } := by
  simp [mapMetadataToFields, show keySHA1 ≠ keyENV_GUID by decide,
    show keySHA1 ≠ keyEXT by decide, show keySHA1 ≠ keyFILENAME by decide,
    show keySHA1 ≠ keyGUID by decide]

theorem Split_fieldsHeader (T f g s : Bytes) (hT : (10 : Byte) ∉ T) (hf : (10 : Byte) ∉ f)
    (hg : (10 : Byte) ∉ g) (hs : (10 : Byte) ∉ s) :
    Split (fieldsHeader T f g s) Newline =
      [DocumentPrefix ++ T, keyFILENAME ++ (Slash ++ f), keyGUID ++ (Slash ++ g),
        keySHA1 ++ (Slash ++ s)] := by
  have e : fieldsHeader T f g s =
      (DocumentPrefix ++ T) ++ ([10] ++ ((keyFILENAME ++ (Slash ++ f)) ++ ([10]
        ++ ((keyGUID ++ (Slash ++ g)) ++ ([10] ++ (keySHA1 ++ (Slash ++ s))))))) := by
    simp [fieldsHeader, Newline]
  have n1 : (10 : Byte) ∉ DocumentPrefix ++ T := by
    simp only [List.mem_append, not_or]; exact ⟨by decide, hT⟩
  have n2 : (10 : Byte) ∉ keyFILENAME ++ (Slash ++ f) := by
    simp only [List.mem_append, not_or]; exact ⟨by decide, by decide, hf⟩
  have n3 : (10 : Byte) ∉ keyGUID ++ (Slash ++ g) := by
    simp only [List.mem_append, not_or]; exact ⟨by decide, by decide, hg⟩
  have n4 : (10 : Byte) ∉ keySHA1 ++ (Slash ++ s) := by
    simp only [List.mem_append, not_or]; exact ⟨by decide, by decide, hs⟩
  rw [e]
  unfold Newline
  rw [Split_byte_append _ _ 10 n1, Split_byte_append _ _ 10 n2, Split_byte_append _ _ 10 n3,
    Split_byte_last _ 10 n4]

theorem keyFILENAME_ascii :
    ∀ x ∈ ([70, 73, 76, 69, 78, 65, 77, 69] : Bytes), x.val < 0x80 ∧ IsSpace x.val = false := by
  intro x hx
  simp only [List.mem_cons, List.mem_singleton, List.not_mem_nil, or_false] at hx
  rcases hx with h | h | h | h | h | h | h | h <;> subst h <;> exact ⟨by decide, by decide⟩

theorem keyGUID_ascii :
    ∀ x ∈ ([71, 85, 73, 68] : Bytes), x.val < 0x80 ∧ IsSpace x.val = false := by
  intro x hx
  simp only [List.mem_cons, List.mem_singleton, List.not_mem_nil, or_false] at hx
  rcases hx with h | h | h | h <;> subst h <;> exact ⟨by decide, by decide⟩

theorem keySHA1_ascii :
    ∀ x ∈ ([83, 72, 65, 49] : Bytes), x.val < 0x80 ∧ IsSpace x.val = false := by
  intro x hx
  simp only [List.mem_cons, List.mem_singleton, List.not_mem_nil, or_false] at hx
  rcases hx with h | h | h | h <;> subst h <;> exact ⟨by decide, by decide⟩

/-- C10: for the header `"DOCU" + T + "\nFILENAME/" + f + "\nGUID/" + g +
"\nSHA1/" + s`, where `T` is a non-empty string whose runes are letters or digits
and `f`, `g`, `s` contain no newline and have no leading or trailing white space,
`parseHeader` on a fresh entry yields `DocType = T`, `Filename = f`, `GUID = g`,
`SHA1 = s` and `Metadata["FILENAME"] = f`. The tables of letters and digits above
Latin-1 are a parameter, of which it is assumed that they contain no white space
and not `U+FFFD`. -/
theorem parseHeader_fields (U : UnicodeTables) (T f g s : Bytes)
    (hU : ∀ r, 0xFF < r → (U.Letter r || U.Digit r) = true →
      IsSpace r = false ∧ r ≠ RuneError)
    (hT : T ≠ []) (hTr : AllRunes (IsLetterOrDigit U) T = true)
    (hf : (10 : Byte) ∉ f ∧ TrimSpace f = f) (hg : (10 : Byte) ∉ g ∧ TrimSpace g = g)
    (hs : (10 : Byte) ∉ s ∧ TrimSpace s = s) :
    (parseHeader U (fieldsHeader T f g s) emptyEntry).DocType = T ∧
      (parseHeader U (fieldsHeader T f g s) emptyEntry).Filename = f ∧
      (parseHeader U (fieldsHeader T f g s) emptyEntry).GUID = g ∧
      (parseHeader U (fieldsHeader T f g s) emptyEntry).SHA1 = s ∧
      MapLookup (parseHeader U (fieldsHeader T f g s) emptyEntry).Metadata keyFILENAME
        = some f := by
  have hT10 : (10 : Byte) ∉ T := fun h => by
    have := AllRunes_ascii _ T hTr 10 h (by decide)
    rw [show ((10 : Byte) : Nat) = 10 from rfl, IsLetterOrDigit_newline] at this
    cases this
  have hT47 : (47 : Byte) ∉ T := fun h => by
    have := AllRunes_ascii _ T hTr 47 h (by decide)
    rw [show ((47 : Byte) : Nat) = 47 from rfl, IsLetterOrDigit_slash] at this
    cases this
  obtain ⟨ht0, hdoc⟩ := parseDocumentType_letters U hU T hT hTr emptyEntry
  have l0 : lineKeyValue (DocumentPrefix ++ T) = none := by
    have hc : Contains (DocumentPrefix ++ T) Slash = false :=
      Contains_byte_false _ 47 (by
        simp only [List.mem_append, not_or]; exact ⟨by decide, hT47⟩)
    unfold lineKeyValue
    simp [ht0, hc]
  have l1 : lineKeyValue (keyFILENAME ++ (Slash ++ f)) = some (keyFILENAME, f) :=
    lineKeyValue_ascii_key 70 [73, 76, 69, 78, 65, 77, 69] f keyFILENAME_ascii (by decide)
      (by decide) (by decide) hf.2
  have l2 : lineKeyValue (keyGUID ++ (Slash ++ g)) = some (keyGUID, g) :=
    lineKeyValue_ascii_key 71 [85, 73, 68] g keyGUID_ascii (by decide) (by decide)
      (by decide) hg.2
  have l3 : lineKeyValue (keySHA1 ++ (Slash ++ s)) = some (keySHA1, s) :=
    lineKeyValue_ascii_key 83 [72, 65, 49] s keySHA1_ascii (by decide) (by decide)
      (by decide) hs.2
  have hp : parseHeader U (fieldsHeader T f g s) emptyEntry =
      { emptyEntry with
        DocType := T, Filename := f, GUID := g, SHA1 := s
        Metadata := MapSet (MapSet (MapSet [] keyFILENAME f) keyGUID g) keySHA1 s } := by
    unfold parseHeader
    simp only [Split_fieldsHeader T f g s hT10 hf.1 hg.1 hs.1, List.foldl_cons,
      List.foldl_nil, hdoc, parseMetadataLine_eq, l0, l1, l2, l3,
      mapMetadataToFields_FILENAME, mapMetadataToFields_GUID, mapMetadataToFields_SHA1]
    rfl
  rw [hp]
  refine ⟨rfl, rfl, rfl, rfl, ?_⟩
  simp only
  rw [MapLookup_MapSet_ne _ _ _ _ (by decide), MapLookup_MapSet_ne _ _ _ _ (by decide),
    MapLookup_MapSet_self]

/-- C10, on the header of `TestParseHeader`:
`"DOCUTestType\nFILENAME/test.txt\nGUID/1234\nSHA1/abcd"`. -/
theorem parseHeader_fields_witness :
    (parseHeader asciiTables (fieldsHeader [84, 101, 115, 116, 84, 121, 112, 101]
        [116, 101, 115, 116, 46, 116, 120, 116] [49, 50, 51, 52] [97, 98, 99, 100])
        emptyEntry).DocType = [84, 101, 115, 116, 84, 121, 112, 101] ∧
      (parseHeader asciiTables (fieldsHeader [84, 101, 115, 116, 84, 121, 112, 101]
        [116, 101, 115, 116, 46, 116, 120, 116] [49, 50, 51, 52] [97, 98, 99, 100])
        emptyEntry).Filename = [116, 101, 115, 116, 46, 116, 120, 116] ∧
      (parseHeader asciiTables (fieldsHeader [84, 101, 115, 116, 84, 121, 112, 101]
        [116, 101, 115, 116, 46, 116, 120, 116] [49, 50, 51, 52] [97, 98, 99, 100])
        emptyEntry).GUID = [49, 50, 51, 52] ∧
      (parseHeader asciiTables (fieldsHeader [84, 101, 115, 116, 84, 121, 112, 101]
        [116, 101, 115, 116, 46, 116, 120, 116] [49, 50, 51, 52] [97, 98, 99, 100])
        emptyEntry).SHA1 = [97, 98, 99, 100] ∧
      MapLookup (parseHeader asciiTables (fieldsHeader [84, 101, 115, 116, 84, 121, 112, 101]
        [116, 101, 115, 116, 46, 116, 120, 116] [49, 50, 51, 52] [97, 98, 99, 100])
        emptyEntry).Metadata keyFILENAME = some [116, 101, 115, 116, 46, 116, 120, 116] :=
  parseHeader_fields asciiTables _ _ _ _ (by simp [asciiTables]) (by decide) (by decide)
    (by decide) (by decide) (by decide)

/-! ## The accessors -/

/-- C16: `GetEntry(index)` fails if and only if `index` is outside
`[0, Count())`, where `Count()` is the number of stored entries; for every index
inside the range it returns the entry at that position of `GetEntries()`; the
parser is left as it is. -/
theorem GetEntry_spec (p : ArchiveParser) (index : Int) :
    ((∃ err, (GetEntry p index).2 = .error err) ↔ (index < 0 ∨ Count p ≤ index)) ∧
      (∀ e, (GetEntry p index).2 = .ok e ↔
        (0 ≤ index ∧ index < Count p ∧ (GetEntries p)[index.toNat]? = some e)) ∧
      (GetEntry p index).1 = p ∧ Count p = ((GetEntries p).length : Int) := by
  unfold GetEntry Count GetEntries
  by_cases h : index < 0 ∨ index ≥ (p.entries.length : Int)
  · rw [dif_pos h]
    refine ⟨⟨fun _ => h, fun _ => ⟨_, rfl⟩⟩, ?_, rfl, rfl⟩
    intro e
    constructor
    · intro h1; cases h1
    · rintro ⟨h1, h2, _⟩; omega
  · rw [dif_neg h]
    refine ⟨⟨?_, fun h1 => absurd h1 h⟩, ?_, rfl, rfl⟩
    · rintro ⟨err, h1⟩; cases h1
    · intro e
      have hlt : index.toNat < p.entries.length := by omega
      simp only [Except.ok.injEq, List.get_eq_getElem]
      constructor
      · intro h1
        refine ⟨by omega, by omega, ?_⟩
        rw [List.getElem?_eq_getElem hlt, h1]
      · rintro ⟨_, _, h3⟩
        rw [List.getElem?_eq_getElem hlt] at h3
        exact Option.some.inj h3

theorem findByFilename_none (filename : Bytes) (l : List FileEntry) :
    findByFilename filename l = none ↔ ∀ e ∈ l, e.Filename ≠ filename := by
  induction l with
  | nil => simp [findByFilename]
  | cons a rest ih =>
    simp only [findByFilename]
    by_cases h : a.Filename = filename
    · simp [h]
    · simp [h, ih]

theorem findByFilename_some (filename : Bytes) (l : List FileEntry) (e : FileEntry) :
    findByFilename filename l = some e ↔
      ∃ i : Nat, l[i]? = some e ∧ e.Filename = filename ∧
        ∀ (j : Nat) (a : FileEntry), j < i → l[j]? = some a → a.Filename ≠ filename := by
  induction l with
  | nil => simp [findByFilename]
  | cons a rest ih =>
    simp only [findByFilename]
    by_cases h : a.Filename = filename
    · simp only [h, if_true, Option.some.injEq]
      constructor
      · intro h1; subst h1
        exact ⟨0, by simp, h, by intro j a hj; omega⟩
      · rintro ⟨i, h1, _, h3⟩
        cases i with
        | zero => simpa using h1
        | succ i => exact absurd h (h3 0 a (by omega) (by simp))
    · simp only [h, if_false, ih]
      constructor
      · rintro ⟨i, h1, h2, h3⟩
        refine ⟨i + 1, by simpa using h1, h2, ?_⟩
        intro j b hj hb
        cases j with
        | zero =>
          simp only [List.getElem?_cons_zero, Option.some.injEq] at hb
          subst hb; exact h
        | succ j => exact h3 j b (by omega) (by simpa using hb)
      · rintro ⟨i, h1, h2, h3⟩
        cases i with
        | zero =>
          simp only [List.getElem?_cons_zero, Option.some.injEq] at h1
          subst h1; exact absurd h2 h
        | succ i =>
          refine ⟨i, by simpa using h1, h2, ?_⟩
          intro j b hj hb
          exact h3 (j + 1) b (by omega) (by simpa using hb)

/-- C17: `GetEntryByFilename(name)` fails if and only if no stored entry has
`Filename` equal to `name`; otherwise it returns the entry with the smallest index
whose `Filename` equals `name`; the stored entries are left as they are. -/
theorem GetEntryByFilename_spec (p : ArchiveParser) (name : Bytes) :
    ((∃ err, (GetEntryByFilename p name).2 = .error err) ↔
        ∀ e ∈ GetEntries p, e.Filename ≠ name) ∧
      (∀ e, (GetEntryByFilename p name).2 = .ok e ↔
        ∃ i : Nat, (GetEntries p)[i]? = some e ∧ e.Filename = name ∧
          ∀ (j : Nat) (a : FileEntry), j < i → (GetEntries p)[j]? = some a →
            a.Filename ≠ name) ∧
      (GetEntryByFilename p name).1 = p := by
  unfold GetEntryByFilename GetEntries
  cases h : findByFilename name p.entries with
  | none =>
    have h1 := (findByFilename_none name p.entries).1 h
    refine ⟨⟨fun _ => h1, fun _ => ⟨_, rfl⟩⟩, ?_, rfl⟩
    intro e
    constructor
    · intro h2; cases h2
    · rintro ⟨i, h2, h3, _⟩
      exact absurd h3 (h1 e (List.mem_iff_getElem?.2 ⟨i, h2⟩))
  | some e0 =>
    refine ⟨⟨?_, ?_⟩, ?_, rfl⟩
    · rintro ⟨err, h1⟩; cases h1
    · intro h1
      have := (findByFilename_none name p.entries).2 h1
      rw [h] at this; cases this
    · intro e
      simp only [Except.ok.injEq]
      rw [← findByFilename_some, h]
      simp

/-! ## The dispatch of keys to named fields -/

theorem mapMetadataToFields_DocType (k v : Bytes) (e : FileEntry) :
    (mapMetadataToFields k v e).DocType =
      if k = keyDOCTYPE ∧ e.DocType = [] then v else e.DocType := by
  unfold mapMetadataToFields
  by_cases h1 : k = keyENV_GUID
  · subst h1; simp [show keyENV_GUID ≠ keyDOCTYPE by decide]
  by_cases h2 : k = keyEXT
  · subst h2; simp [show keyEXT ≠ keyENV_GUID by decide, show keyEXT ≠ keyDOCTYPE by decide]
  by_cases h3 : k = keyFILENAME
  · subst h3
    simp [show keyFILENAME ≠ keyENV_GUID by decide, show keyFILENAME ≠ keyEXT by decide,
      show keyFILENAME ≠ keyDOCTYPE by decide]
  by_cases h4 : k = keyGUID
  · subst h4
    simp [show keyGUID ≠ keyENV_GUID by decide, show keyGUID ≠ keyEXT by decide,
      show keyGUID ≠ keyFILENAME by decide, show keyGUID ≠ keyDOCTYPE by decide]
  by_cases h5 : k = keySHA1
  · subst h5
    simp [show keySHA1 ≠ keyENV_GUID by decide, show keySHA1 ≠ keyEXT by decide,
      show keySHA1 ≠ keyFILENAME by decide, show keySHA1 ≠ keyGUID by decide,
      show keySHA1 ≠ keyDOCTYPE by decide]
  by_cases h6 : k = keyTYPE
  · subst h6
    simp [show keyTYPE ≠ keyENV_GUID by decide, show keyTYPE ≠ keyEXT by decide,
      show keyTYPE ≠ keyFILENAME by decide, show keyTYPE ≠ keyGUID by decide,
      show keyTYPE ≠ keySHA1 by decide, show keyTYPE ≠ keyDOCTYPE by decide]
  by_cases h7 : k = keyDOCTYPE
  · subst h7
    simp only [if_neg h1, if_neg h2, if_neg h3, if_neg h4, if_neg h5, if_neg h6, if_true,
      true_and]
    split_ifs <;> rfl
  · simp [h1, h2, h3, h4, h5, h6, h7]

theorem parseMetadataLine_DocType (line : Bytes) (e : FileEntry) :
    (parseMetadataLine line e).DocType =
      match lineKeyValue line with
      | some kv => if kv.1 = keyDOCTYPE ∧ e.DocType = [] then kv.2 else e.DocType
      | none => e.DocType := by
  rw [parseMetadataLine_eq]
  cases lineKeyValue line with
  | none => rfl
  | some kv => simp only [mapMetadataToFields_DocType]

/-- The document type after the metadata lines: what was there before when that
is non-empty, otherwise the value of the first `DOCTYPE` line with a non-empty
value. -/
theorem foldl_parseMetadataLine_DocType :
    ∀ (lines : List Bytes) (e : FileEntry),
      (lines.foldl (fun e line => parseMetadataLine line e) e).DocType =
        if e.DocType ≠ [] then e.DocType else firstDocType lines := by
  intro lines
  induction lines with
  | nil => intro e; by_cases h : e.DocType = [] <;> simp [firstDocType, h]
  | cons l rest ih =>
    intro e
    simp only [List.foldl_cons]
    rw [ih, parseMetadataLine_DocType]
    simp only [firstDocType]
    cases lineKeyValue l with
    | none => rfl
    | some kv =>
      simp only
      by_cases h1 : e.DocType = []
      · by_cases h2 : kv.1 = keyDOCTYPE
        · by_cases h3 : kv.2 = [] <;> simp [h1, h2, h3]
        · simp [h1, h2]
      · simp [h1]

/-- C11: the document type taken from the first header line takes precedence
over `DOCTYPE` lines. If the first line of the header, trimmed, starts with `DOCU`
and yields a non-empty document type `D`, then `DocType` is `D` after
`parseHeader`, whatever the other lines are. A line accepted with the key
`DOCTYPE` sets `DocType` to its value only when `DocType` is empty at that point,
and no other line changes `DocType`; so after `parseHeader`, when the first line
sets no document type and the entry had none, `DocType` is the value of the first
`DOCTYPE` line with a non-empty value. -/
theorem parseHeader_DocType (U : UnicodeTables) (headerData : Bytes) (entry : FileEntry)
    (l0 : Bytes) (rest : List Bytes) (hlines : Split headerData Newline = l0 :: rest) :
    (HasPrefix (TrimSpace l0) DocumentPrefix = true →
      TrimFunc (TrimPrefix (TrimSpace l0) DocumentPrefix) (notLetterNorDigit U) ≠ [] →
      (parseHeader U headerData entry).DocType =
        TrimFunc (TrimPrefix (TrimSpace l0) DocumentPrefix) (notLetterNorDigit U)) ∧
      (∀ (line : Bytes) (e : FileEntry),
        (parseMetadataLine line e).DocType =
          match lineKeyValue line with
          | some kv => if kv.1 = keyDOCTYPE ∧ e.DocType = [] then kv.2 else e.DocType
          | none => e.DocType) ∧
      ((parseDocumentType U l0 entry).DocType = [] →
        (parseHeader U headerData entry).DocType = firstDocType (l0 :: rest)) := by
  have hp : (parseHeader U headerData entry).DocType =
      if (parseDocumentType U l0 entry).DocType ≠ [] then (parseDocumentType U l0 entry).DocType
      else firstDocType (l0 :: rest) := by
    unfold parseHeader
    simp only [hlines]
    exact foldl_parseMetadataLine_DocType _ _
  refine ⟨?_, parseMetadataLine_DocType, ?_⟩
  · intro h1 h2
    have hd : (parseDocumentType U l0 entry).DocType =
        TrimFunc (TrimPrefix (TrimSpace l0) DocumentPrefix) (notLetterNorDigit U) := by
      unfold parseDocumentType
      simp [h1, h2]
    rw [hp, hd]
    simp [h2]
  · intro h
    rw [hp]
    simp [h]

/-- C11, on the header `"DOCU-Test9!\nDOCTYPE/zz"`: the document type is `Test9`,
not `zz`. -/
theorem parseHeader_DocType_witness :
    (parseHeader asciiTables testDocTypeHeader emptyEntry).DocType =
      TrimFunc (TrimPrefix (TrimSpace [68, 79, 67, 85, 45, 84, 101, 115, 116, 57, 33])
        DocumentPrefix) (notLetterNorDigit asciiTables) ∧
      TrimFunc (TrimPrefix (TrimSpace [68, 79, 67, 85, 45, 84, 101, 115, 116, 57, 33])
        DocumentPrefix) (notLetterNorDigit asciiTables) = [84, 101, 115, 116, 57] :=
  ⟨(parseHeader_DocType asciiTables testDocTypeHeader emptyEntry
      [68, 79, 67, 85, 45, 84, 101, 115, 116, 57, 33] [[68, 79, 67, 84, 89, 80, 69, 47, 122, 122]]
      (by decide)).1 (by decide) (by decide), by decide⟩

/-- C19: `parseMetadataLine` sets only the named field that the dispatch table
assigns to the key. A line is rejected exactly when, after trimming, it is
empty, starts with `%%`, starts with the signature marker or contains no `/`, and
a rejected line leaves the entry, so also `Metadata`, as it is. For a line
accepted with key `k` and value `v` the entry afterwards is the entry before
with `Metadata[k] = v` and, for `k` one of `ENV_GUID`, `EXT`, `FILENAME`, `GUID`,
`SHA1`, `TYPE`, with the field `EnvGUID`, `Extension`, `Filename`, `GUID`, `SHA1`,
`Type` set to `v`; for any other `k` except `DOCTYPE` nothing else changes. -/
theorem parseMetadataLine_dispatch (line : Bytes) (entry : FileEntry) :
    (lineKeyValue line = none ↔
        (TrimSpace line = [] ∨ HasPrefix (TrimSpace line) CommentToken = true ∨
          HasPrefix (TrimSpace line) SignatureMarker = true ∨
          Contains (TrimSpace line) Slash = false)) ∧
      (lineKeyValue line = none → parseMetadataLine line entry = entry) ∧
      ∀ (k v : Bytes), lineKeyValue line = some (k, v) →
        (k = keyENV_GUID → parseMetadataLine line entry =
          { entry with EnvGUID := v, Metadata := MapSet entry.Metadata k v }) ∧
        (k = keyEXT → parseMetadataLine line entry =
          { entry with Extension := v, Metadata := MapSet entry.Metadata k v }) ∧
        (k = keyFILENAME → parseMetadataLine line entry =
          { entry with Filename := v, Metadata := MapSet entry.Metadata k v }) ∧
        (k = keyGUID → parseMetadataLine line entry =
          { entry with GUID := v, Metadata := MapSet entry.Metadata k v }) ∧
        (k = keySHA1 → parseMetadataLine line entry =
          { entry with SHA1 := v, Metadata := MapSet entry.Metadata k v }) ∧
        (k = keyTYPE → parseMetadataLine line entry =
          { entry with Type_ := v, Metadata := MapSet entry.Metadata k v }) ∧
        (k ≠ keyENV_GUID → k ≠ keyEXT → k ≠ keyFILENAME → k ≠ keyGUID → k ≠ keySHA1 →
          k ≠ keyTYPE → k ≠ keyDOCTYPE → parseMetadataLine line entry =
          { entry with Metadata := MapSet entry.Metadata k v }) := by
  refine ⟨?_, ?_, ?_⟩
  · unfold lineKeyValue
    simp only
    by_cases h1 : TrimSpace line = []
    · simp [h1]
    by_cases h2 : HasPrefix (TrimSpace line) CommentToken = true
    · simp [h2]
    by_cases h3 : HasPrefix (TrimSpace line) SignatureMarker = true
    · simp [h3]
    cases h4 : Index (TrimSpace line) Slash with
    | none => simp [h1, h2, h3, Contains, h4]
    | some m => simp [h1, h2, h3, Contains, h4]
  · intro h
    rw [parseMetadataLine_eq, h]
  · intro k v h
    rw [parseMetadataLine_eq, h]
    simp only
    refine ⟨?_, ?_, ?_, ?_, ?_, ?_, ?_⟩
    · intro hk; subst hk; simp [mapMetadataToFields]
    · intro hk; subst hk
      simp [mapMetadataToFields, show keyEXT ≠ keyENV_GUID by decide]
    · intro hk; subst hk; exact mapMetadataToFields_FILENAME _ _
    · intro hk; subst hk; exact mapMetadataToFields_GUID _ _
    · intro hk; subst hk; exact mapMetadataToFields_SHA1 _ _
    · intro hk; subst hk
      simp [mapMetadataToFields, show keyTYPE ≠ keyENV_GUID by decide,
        show keyTYPE ≠ keyEXT by decide, show keyTYPE ≠ keyFILENAME by decide,
        show keyTYPE ≠ keyGUID by decide, show keyTYPE ≠ keySHA1 by decide]
    · intro h1 h2 h3 h4 h5 h6 h7
      simp [mapMetadataToFields, h1, h2, h3, h4, h5, h6, h7]

/-- C19, on the line `"EXT/.txt"`: only `Extension` and `Metadata` change. -/
theorem parseMetadataLine_dispatch_witness :
    parseMetadataLine testExtLine emptyEntry =
      { emptyEntry with
        Extension := [46, 116, 120, 116]
        Metadata := MapSet emptyEntry.Metadata keyEXT [46, 116, 120, 116] } :=
  ((parseMetadataLine_dispatch testExtLine emptyEntry).2.2 keyEXT [46, 116, 120, 116]
    (by decide)).2.1 rfl

/-! ## The length hint -/

theorem digitChar_byte (d : Nat) (h : d < 10) :
    (Fin.ofNat (Nat.digitChar d).toNat : Byte) = Fin.ofNat (48 + d) := by
  interval_cases d <;> rfl

theorem decimalLoop_toDigitsCore :
    ∀ (fuel n : Nat) (ds : List Char),
      (Nat.toDigitsCore 10 fuel n ds).map (fun c => (Fin.ofNat c.toNat : Byte)) =
        decimalLoop fuel n (ds.map (fun c => (Fin.ofNat c.toNat : Byte))) := by
  intro fuel
  induction fuel with
  | zero => intro n ds; rfl
  | succ k ih =>
    intro n ds
    simp only [Nat.toDigitsCore, decimalLoop]
    by_cases h : n / 10 = 0
    · simp [h, digitChar_byte (n % 10) (Nat.mod_lt _ (by decide))]
    · simp only [h, if_false]
      rw [ih]
      simp [digitChar_byte (n % 10) (Nat.mod_lt _ (by decide))]

theorem FormatUint_eq_decimalString (n : Nat) : FormatUint n = decimalString n := by
  unfold FormatUint decimalString Nat.toDigits
  rw [decimalLoop_toDigitsCore]
  rfl

theorem parseSection_hint (U : UnicodeTables) (s : Bytes) (e : FileEntry)
    (h : parseSection U s = .ok e) :
    MapLookup e.Metadata keyContentLengthHint = some (FormatUint e.ContentLengthHint) := by
  cases hI : Index s SignatureMarker with
  | none => rw [parseSection_no_marker U s hI] at h; cases h
  | some k =>
    by_cases hs : s.length < k + SignatureMarker.length + 4
    · rw [parseSection_short U s k hI hs] at h; cases h
    · rw [parseSection_long U s k hI (by omega)] at h
      simp only [Except.ok.injEq] at h
      subst h
      exact MapLookup_MapSet_self _ _ _

theorem parseContentStep_hint (U : UnicodeTables) (total i : Nat) (sec : Bytes) :
    ∀ e ∈ parseContentStep U total [] i sec,
      MapLookup e.Metadata keyContentLengthHint = some (FormatUint e.ContentLengthHint) := by
  intro e he
  cases hp : parseSection U (normalizeSectionData sec i total) with
  | error err =>
    rw [parseContentStep_of_error U total [] i sec err hp] at he
    simp at he
  | ok e1 =>
    unfold parseContentStep at he
    simp only [hp, List.nil_append] at he
    split_ifs at he
    · simp at he
    · simp at he
    · simp only [List.mem_singleton] at he
      subst he
      exact parseSection_hint U _ _ hp

theorem parseContentLoop_hint (U : UnicodeTables) (total : Nat) :
    ∀ (secs : List Bytes) (i : Nat), ∀ e ∈ parseContentLoop U total i secs [],
      MapLookup e.Metadata keyContentLengthHint = some (FormatUint e.ContentLengthHint) := by
  intro secs
  induction secs with
  | nil => intro i e he; simp [parseContentLoop] at he
  | cons sec rest ih =>
    intro i e he
    rw [parseContentLoop_cons] at he
    simp only [List.nil_append, List.mem_append] at he
    rcases he with he | he
    · exact parseContentStep_hint U total i sec e he
    · exact ih (i + 1) e he

/-- C15: after a successful `extractSectionContent` the entry's
`ContentLengthHint` is the unsigned little-endian value
`b0 + 256*b1 + 65536*b2 + 16777216*b3` of the four bytes that follow the marker,
and `Metadata["ContentLengthHint"]` is that value in decimal digits; every record
that `ParseData` adds to the parser has `Metadata["ContentLengthHint"]` equal to
the decimal digits of its `ContentLengthHint`, whatever lines its header has. -/
theorem extractSectionContent_hint (U : UnicodeTables) (sectionBytes : Bytes)
    (sigIndex : Nat) (entry : FileEntry) (content : Bytes)
    (h : (extractSectionContent sectionBytes sigIndex entry).2 = .ok content) :
    (∀ b0 b1 b2 b3 : Byte,
        (sectionBytes.drop (sigIndex + SignatureMarker.length)).take 4 = [b0, b1, b2, b3] →
        (extractSectionContent sectionBytes sigIndex entry).1.ContentLengthHint =
          b0.val + 256 * b1.val + 65536 * b2.val + 16777216 * b3.val) ∧
      (∃ b0 b1 b2 b3 : Byte,
        (sectionBytes.drop (sigIndex + SignatureMarker.length)).take 4 = [b0, b1, b2, b3]) ∧
      MapLookup (extractSectionContent sectionBytes sigIndex entry).1.Metadata
          keyContentLengthHint =
        some (decimalString
          (extractSectionContent sectionBytes sigIndex entry).1.ContentLengthHint) ∧
      ∀ (p : ArchiveParser) (data : Bytes), ∀ e ∈ (ParseData U p data).1.entries,
        e ∈ p.entries ∨
          MapLookup e.Metadata keyContentLengthHint = some (decimalString e.ContentLengthHint) := by
  have hlen : sigIndex + SignatureMarker.length + 4 ≤ sectionBytes.length := by
    by_contra hc
    rw [extractSectionContent_short sectionBytes sigIndex entry (by omega)] at h
    cases h
  rw [extractSectionContent_long sectionBytes sigIndex entry hlen]
  refine ⟨?_, ?_, ?_, ?_⟩
  · intro b0 b1 b2 b3 hb
    simp only [declaredLength, hb, LittleEndianUint32, List.getD_cons_zero,
      List.getD_cons_succ]
    omega
  · have hl : ((sectionBytes.drop (sigIndex + SignatureMarker.length)).take 4).length = 4 := by
      rw [List.length_take, List.length_drop]; omega
    generalize (sectionBytes.drop (sigIndex + SignatureMarker.length)).take 4 = l at hl
    rcases l with _ | ⟨b0, _ | ⟨b1, _ | ⟨b2, _ | ⟨b3, _ | ⟨b4, t⟩⟩⟩⟩⟩ <;>
      simp only [List.length_cons, List.length_nil] at hl <;> try omega
    exact ⟨b0, b1, b2, b3, rfl⟩
  · simp only
    rw [← FormatUint_eq_decimalString]
    exact MapLookup_MapSet_self _ _ _
  · intro p data e he
    by_cases hd : data = []
    · subst hd
      left
      simpa [ParseData] using he
    · rw [ParseData_nonempty U p data hd] at he
      simp only at he
      rw [parseContentLoop_append, List.mem_append] at he
      rcases he with he | he
      · exact Or.inl he
      · right
        rw [← FormatUint_eq_decimalString]
        exact parseContentLoop_hint U _ _ _ e he

/-- C15, on an archive whose header has the line `ContentLengthHint/99` and whose
length field is 2: the record has the hint 2 and `Metadata["ContentLengthHint"]`
is `"2"`. -/
theorem extractSectionContent_hint_witness :
    (∀ e ∈ (ParseData asciiTables New testHintLine).1.entries,
        e ∈ New.entries ∨
          MapLookup e.Metadata keyContentLengthHint = some (decimalString e.ContentLengthHint)) ∧
      (ParseData asciiTables New testHintLine).1.entries.map
        (fun e => (e.ContentLengthHint, MapLookup e.Metadata keyContentLengthHint))
        = [(2, some [50])] :=
  ⟨(extractSectionContent_hint asciiTables testExtractBuffer 7 emptyEntry
      [97, 98, 99, 100, 101] (by
        rw [extractSectionContent_long _ _ _ (by decide)]
        exact congrArg Except.ok (by decide))).2.2.2 New testHintLine, by decide⟩

/-! ## Safe file names -/

theorem Index_single_cons (b c : Byte) (t : Bytes) :
    Index (b :: t) [c] = if b = c then some 0 else (Index t [c]).map (· + 1) := by
  simp only [Index, HasPrefix]
  by_cases h : b = c
  · subst h; simp [List.isPrefixOf]
  · have h1 : (c == b) = false := by simpa using Ne.symm h
    simp [List.isPrefixOf, h, h1]

theorem replaceLoop_single_cons (c : Byte) (new : Bytes) (fuel : Nat) (b : Byte) (t : Bytes) :
    replaceLoop [c] new (fuel + 1) (b :: t) =
      if b = c then new ++ replaceLoop [c] new fuel t
      else b :: replaceLoop [c] new (fuel + 1) t := by
  simp only [replaceLoop, Index_single_cons]
  by_cases h : b = c
  · simp [h]
  · simp only [h, if_false]
    cases Index t [c] with
    | none => rfl
    | some j => simp

theorem replaceLoop_single (c d : Byte) :
    ∀ (s : Bytes) (fuel : Nat), s.length ≤ fuel →
      replaceLoop [c] [d] fuel s = s.map (fun b => if b = c then d else b) := by
  intro s
  induction s with
  | nil => intro fuel _; cases fuel <;> simp [replaceLoop, Index, HasPrefix, List.isPrefixOf]
  | cons b t ih =>
    intro fuel h
    obtain ⟨k, rfl⟩ : ∃ k, fuel = k + 1 := ⟨fuel - 1, by simp at h; omega⟩
    rw [replaceLoop_single_cons]
    simp only [List.length_cons] at h
    by_cases hb : b = c
    · simp [hb, ih k (by omega)]
    · simp [hb, ih (k + 1) (by omega)]

theorem ReplaceAll_single (s : Bytes) (c d : Byte) :
    ReplaceAll s [c] [d] = s.map (fun b => if b = c then d else b) := by
  unfold ReplaceAll
  by_cases h : [c] = [d]
  · have hcd : c = d := by simpa using h
    subst hcd
    simp only [if_true]
    symm
    conv_rhs => rw [← List.map_id s]
    apply List.map_congr_left
    intro b _
    by_cases hb : b = c <;> simp [hb]
  · simp only [h, if_false]
    exact replaceLoop_single c d s _ le_rfl

/-- Replacing the bytes of `keys` by `_` one key after the other replaces every
byte that is a key, in whatever order the keys are taken. -/
theorem foldl_ReplaceAll (keys : List Bytes) (hk : ∀ k ∈ keys, ∃ c : Byte, k = [c]) :
    ∀ (s : Bytes), keys.foldl (fun name old => ReplaceAll name old Underscore) s =
      s.map (fun b => if [b] ∈ keys then 95 else b) := by
  induction keys with
  | nil => intro s; simp
  | cons k ks ih =>
    intro s
    obtain ⟨c, rfl⟩ := hk k (by simp)
    simp only [List.foldl_cons]
    rw [ih (fun x hx => hk x (by simp [hx])), Underscore, ReplaceAll_single, List.map_map]
    apply List.map_congr_left
    intro b _
    simp only [Function.comp, List.mem_cons, List.cons.injEq, and_true]
    by_cases hb : b = c
    · simp [hb]
    · simp [hb]

theorem replacementKeys_single : ∀ k ∈ replacementKeys, ∃ c : Byte, k = [c] := by
  intro k hk
  simp only [replacementKeys, List.mem_cons, List.mem_singleton, List.not_mem_nil,
    or_false] at hk
  rcases hk with h | h | h | h | h | h | h | h | h <;> exact ⟨_, h⟩

/-- C18: `generateFilename` returns the base name (the `Filename` of the entry if
it is non-empty, otherwise `"file_" + index + "_" + DocType + Extension`) with
every byte `/ \ : * ? " < > |` replaced by an underscore, in whatever order the
loop visits the keys of the map `replacements`; the result contains none of the
nine characters. -/
theorem generateFilename_spec (order : List Bytes) (entry : FileEntry) (index : Int)
    (horder : order.Perm replacementKeys) :
    generateFilename order entry index = (baseFilename entry index).map sanitizeByte ∧
      (∀ b ∈ generateFilename order entry index, [b] ∉ replacementKeys) ∧
      generateFilename order entry index = generateFilename replacementKeys entry index ∧
      baseFilename entry index =
        (if entry.Filename = [] then
          filePrefix ++ (FormatInt index ++ (Underscore ++ (entry.DocType ++ entry.Extension)))
        else entry.Filename) := by
  have key : ∀ o : List Bytes, o.Perm replacementKeys →
      generateFilename o entry index = (baseFilename entry index).map sanitizeByte := by
    intro o ho
    unfold generateFilename
    rw [foldl_ReplaceAll o (fun k hk => replacementKeys_single k (ho.mem_iff.1 hk))]
    apply List.map_congr_left
    intro b _
    simp only [sanitizeByte, ho.mem_iff]
  refine ⟨key order horder, ?_, ?_, rfl⟩
  · intro b hb
    rw [key order horder] at hb
    obtain ⟨a, _, rfl⟩ := List.mem_map.1 hb
    unfold sanitizeByte
    by_cases ha : [a] ∈ replacementKeys
    · simp only [ha, if_true]; decide
    · simpa only [ha, if_false] using ha
  · rw [key order horder, key replacementKeys (List.Perm.refl _)]

/-- C18, on the entry of `TestGenerateFilename` with index 0, the keys visited in
reverse order: the name is `file_0_X.txt`. -/
theorem generateFilename_spec_witness :
    generateFilename replacementKeys.reverse testEntryX 0 =
        (baseFilename testEntryX 0).map sanitizeByte ∧
      (baseFilename testEntryX 0).map sanitizeByte
        = [102, 105, 108, 101, 95, 48, 95, 88, 46, 116, 120, 116] :=
  ⟨(generateFilename_spec replacementKeys.reverse testEntryX 0
      (List.reverse_perm replacementKeys)).1, by decide⟩

/-! ## Decoding a rune of a longer string -/

theorem firstSize_cases (s0 : Byte) : firstSize s0 = 2 ∨ firstSize s0 = 3 ∨ firstSize s0 = 4 := by
  unfold firstSize; split_ifs <;> simp

/-- A rune that starts with a leading byte is `U+FFFD` of width 1 or has the
width that the leading byte announces. -/
theorem DecodeRune_width_cases (s0 : Byte) (rest : Bytes) (h0 : ¬ s0.val < 0x80)
    (hxx : ¬ (s0.val < 0xC2 ∨ 0xF4 < s0.val)) :
    DecodeRune (s0 :: rest) = (RuneError, 1) ∨
      (DecodeRune (s0 :: rest)).2 = firstSize s0 := by
  rcases firstSize_cases s0 with hfs | hfs | hfs <;>
  rcases rest with _ | ⟨a1, _ | ⟨a2, _ | ⟨a3, r⟩⟩⟩ <;>
  simp only [DecodeRune, h0, hxx, hfs, if_false] <;>
  split_ifs <;> first | omega | simp

/-- A string that holds all the bytes its leading byte announces decodes the
same with more bytes behind it. -/
theorem DecodeRune_append_long (a0 : Byte) (ar x : Bytes) (h0 : ¬ a0.val < 0x80)
    (hxx : ¬ (a0.val < 0xC2 ∨ 0xF4 < a0.val)) (hl : firstSize a0 ≤ ar.length + 1) :
    DecodeRune (a0 :: ar ++ x) = DecodeRune (a0 :: ar) := by
  rcases firstSize_cases a0 with hfs | hfs | hfs
  · rcases ar with _ | ⟨a1, r⟩
    · simp [hfs] at hl
    · have e1 : ¬ ((a1 :: r ++ x).length + 1 < 2) := by simp
      have e2 : ¬ ((a1 :: r).length + 1 < 2) := by simp
      simp only [List.cons_append, DecodeRune, h0, hxx, hfs, if_false] at e1 e2 ⊢
      simp only [e1, e2, if_false, le_refl, if_true]
  · rcases ar with _ | ⟨a1, _ | ⟨a2, r⟩⟩
    · simp [hfs] at hl
    · simp [hfs] at hl
    · have e1 : ¬ ((a1 :: a2 :: r ++ x).length + 1 < 3) := by simp
      have e2 : ¬ ((a1 :: a2 :: r).length + 1 < 3) := by simp
      have e3 : ¬ (3 ≤ 2) := by omega
      simp only [List.cons_append, DecodeRune, h0, hxx, hfs, if_false] at e1 e2 ⊢
      simp only [e1, e2, e3, if_false, le_refl, if_true]
  · rcases ar with _ | ⟨a1, _ | ⟨a2, _ | ⟨a3, r⟩⟩⟩
    · simp [hfs] at hl
    · simp [hfs] at hl
    · simp [hfs] at hl
    · have e1 : ¬ ((a1 :: a2 :: a3 :: r ++ x).length + 1 < 4) := by simp
      have e2 : ¬ ((a1 :: a2 :: a3 :: r).length + 1 < 4) := by simp
      have e3 : ¬ (4 ≤ 2) := by omega
      have e4 : ¬ (4 ≤ 3) := by omega
      simp only [List.cons_append, DecodeRune, h0, hxx, hfs, if_false] at e1 e2 ⊢
      simp only [e1, e2, e3, e4, if_false]

/-- Appending bytes to a string changes its first rune only when the string
ends inside that rune. -/
theorem DecodeRune_append (a x : Bytes) (ha : a ≠ []) :
    DecodeRune (a ++ x) = DecodeRune a ∨
      (DecodeRune a = (RuneError, 1) ∧ a.length < (DecodeRune (a ++ x)).2) := by
  rcases a with _ | ⟨a0, ar⟩
  · exact absurd rfl ha
  by_cases h0 : a0.val < 0x80
  · left
    rw [List.cons_append, DecodeRune_ascii a0 _ h0, DecodeRune_ascii a0 _ h0]
  by_cases hxx : a0.val < 0xC2 ∨ 0xF4 < a0.val
  · left
    simp only [List.cons_append, DecodeRune, h0, hxx, if_true, if_false]
  by_cases hl : firstSize a0 ≤ ar.length + 1
  · exact Or.inl (DecodeRune_append_long a0 ar x h0 hxx hl)
  · have hshort : DecodeRune (a0 :: ar) = (RuneError, 1) := by
      have : ar.length + 1 < firstSize a0 := by omega
      simp only [DecodeRune, h0, hxx, this, if_true, if_false]
    rcases DecodeRune_width_cases a0 (ar ++ x) h0 hxx with h | h
    · left
      rw [List.cons_append, h, hshort]
    · right
      refine ⟨hshort, ?_⟩
      rw [List.cons_append, h, List.length_cons]
      omega

/-! ## Lines of the form key/value -/

theorem TrimLeftFunc_of_TrimFunc (f : Nat → Bool) (v : Bytes) (h : TrimFunc v f = v) :
    TrimLeftFunc v f = v := by
  unfold TrimFunc at h
  obtain ⟨i, hi, e1⟩ := TrimLeftFunc_eq_drop v f
  obtain ⟨j, e2⟩ := TrimRightFunc_eq_take (TrimLeftFunc v f) f
  have hl := congrArg List.length h
  rw [e2, e1] at hl
  simp only [List.length_take, List.length_drop] at hl
  have hi0 : i = 0 ∨ v.length = 0 := by omega
  rcases hi0 with h0 | h0
  · rw [e1, h0]; rfl
  · have : v = [] := List.length_eq_zero.1 h0
    rw [e1, this]; simp

/-- A non-empty string that trimming on the left leaves as it is starts with a
rune that `f` rejects. -/
theorem TrimLeftFunc_self_first (f : Nat → Bool) (s : Bytes) (hne : s ≠ [])
    (h : TrimLeftFunc s f = s) : f (DecodeRune s).1 = false := by
  by_contra hf
  simp only [Bool.not_eq_false] at hf
  unfold TrimLeftFunc indexFunc at h
  obtain ⟨n, hn⟩ : ∃ n, s.length = n + 1 :=
    ⟨s.length - 1, by have := List.length_pos.2 hne; omega⟩
  rw [hn, indexFuncLoop_succ] at h
  have he : s.isEmpty = false := by cases s <;> simp_all
  simp only [he, Bool.false_eq_true, if_false, hf, Bool.true_eq_false, beq_iff_eq] at h
  have hw := DecodeRune_width s hne
  cases hr : indexFuncLoop f false n (s.drop (DecodeRune s).2) (0 + (DecodeRune s).2) with
  | none => rw [hr] at h; exact hne h.symm
  | some k =>
    rw [hr] at h
    have hb := indexFuncLoop_bound f false _ _ _ _ hr
    have hl := congrArg List.length h
    simp only [List.length_drop] at hl
    omega

/-- The key in front of a `/` is not trimmed away. -/
theorem TrimLeftFunc_append_slash (f : Nat → Bool) (k v : Bytes) (hf : f 47 = false)
    (hk : TrimLeftFunc k f = k) : TrimLeftFunc (k ++ 47 :: v) f = k ++ 47 :: v := by
  by_cases hne : k = []
  · subst hne
    exact TrimLeftFunc_ascii f 47 v (by decide) hf
  · apply TrimLeftFunc_first f _ (by simp)
    have h1 := TrimLeftFunc_self_first f k hne hk
    rcases DecodeRune_append k (47 :: v) hne with h | ⟨_, h⟩
    · rw [h]; exact h1
    · obtain ⟨x, hx1, hx2⟩ := DecodeRune_cont (k ++ 47 :: v) k.length
        (List.length_pos.2 hne) h
      rw [List.getElem?_append_right le_rfl] at hx1
      simp only [Nat.sub_self, List.getElem?_cons_zero, Option.some.injEq] at hx1
      subst hx1
      exact absurd hx2 (by decide)

theorem TrimSpace_append_slash (k v : Bytes) (hk : TrimSpace k = k) (hv : TrimSpace v = v) :
    TrimSpace (k ++ 47 :: v) = k ++ 47 :: v := by
  unfold TrimSpace TrimFunc
  rw [TrimLeftFunc_append_slash IsSpace k v (by decide) (TrimLeftFunc_of_TrimFunc IsSpace k hk),
    TrimRightFunc_after_ascii IsSpace k 47 v (by decide) (by decide),
    TrimRightFunc_of_TrimFunc IsSpace v hv]

theorem not_mem_of_Contains_byte (a : Bytes) (c : Byte) (h : Contains a [c] = false) :
    c ∉ a := by
  rw [Contains_eq_false_iff_isInfix] at h
  intro hc
  obtain ⟨s, t, rfl⟩ := List.append_of_mem hc
  exact h ⟨s, t, by simp⟩

/-- The pair that `parseMetadataLine` takes from the line `k + "/" + v`. -/
theorem lineKeyValue_key_value (k v : Bytes) (hslash : Contains k Slash = false)
    (hk : TrimSpace k = k) (hcomment : HasPrefix k CommentToken = false)
    (hmarker : HasPrefix (k ++ (Slash ++ v)) SignatureMarker = false)
    (hv : TrimSpace v = v) : lineKeyValue (k ++ (Slash ++ v)) = some (k, v) := by
  have ht : TrimSpace (k ++ (Slash ++ v)) = k ++ (Slash ++ v) :=
    TrimSpace_append_slash k v hk hv
  have h1 : HasPrefix (k ++ (Slash ++ v)) CommentToken = false := by
    rcases k with _ | ⟨x, _ | ⟨y, t⟩⟩
    · simp [HasPrefix, CommentToken, Slash, List.isPrefixOf]
    · simp [HasPrefix, CommentToken, Slash, List.isPrefixOf]
    · simpa [HasPrefix, CommentToken, Slash, List.isPrefixOf] using hcomment
  have h3 : Index (k ++ (Slash ++ v)) Slash = some k.length :=
    Index_byte_first k v 47 (not_mem_of_Contains_byte k 47 hslash)
  rw [lineKeyValue_of_accepted _ k.length (by rw [ht]; simp [Slash]) (by rw [ht]; exact h1)
    (by rw [ht]; exact hmarker) (by rw [ht]; exact h3), ht]
  have e1 : (k ++ (Slash ++ v)).take k.length = k := List.take_left _ _
  have e2 : (k ++ (Slash ++ v)).drop (k.length + 1) = v := by
    have : k.length + 1 = (k ++ Slash).length := by simp [Slash]
    rw [this, ← List.append_assoc, List.drop_left]
  rw [e1, e2, hk, hv]

/-- C20, counterexample: the key `_SIG` contains no `/`, has no white space and
starts neither with `%%` nor with the signature marker, the value `D.C.` has no
newline and no white space, and `parseMetadataLine` on `_SIG/D.C.` stores
nothing under the key. -/
theorem marker_line_rejected :
    Contains [95, 83, 73, 71] Slash = false ∧ TrimSpace [95, 83, 73, 71] = [95, 83, 73, 71] ∧
      HasPrefix [95, 83, 73, 71] CommentToken = false ∧
      HasPrefix [95, 83, 73, 71] SignatureMarker = false ∧
      Contains [68, 46, 67, 46] Newline = false ∧ TrimSpace [68, 46, 67, 46] = [68, 46, 67, 46] ∧
      MapLookup (parseMetadataLine ([95, 83, 73, 71] ++ (Slash ++ [68, 46, 67, 46]))
        emptyEntry).Metadata [95, 83, 73, 71] = none ∧
      parseMetadataLine ([95, 83, 73, 71] ++ (Slash ++ [68, 46, 67, 46])) emptyEntry
        = emptyEntry := by
  decide

/-- C20, amended: a header line is split on the first `/` only. For every key
`k` that contains no `/`, has no leading or trailing white space and does not
start with `%%`, and every value `v` without leading or trailing white space
(`v` may contain `/`), such that the line `k + "/" + v` does not start with the
signature marker, `parseMetadataLine` on that line stores `Metadata[k] = v`. -/
theorem parseMetadataLine_first_slash (k v : Bytes) (entry : FileEntry)
    (hslash : Contains k Slash = false) (hk : TrimSpace k = k)
    (hcomment : HasPrefix k CommentToken = false)
    (hmarker : HasPrefix (k ++ (Slash ++ v)) SignatureMarker = false)
    (hv : TrimSpace v = v) :
    MapLookup (parseMetadataLine (k ++ (Slash ++ v)) entry).Metadata k = some v ∧
      lineKeyValue (k ++ (Slash ++ v)) = some (k, v) := by
  have h := lineKeyValue_key_value k v hslash hk hcomment hmarker hv
  refine ⟨?_, h⟩
  rw [parseMetadataLine_Metadata, h]
  exact MapLookup_MapSet_self _ _ _

/-- C20, amended, on the key `B` and the value `x/y`. -/
theorem parseMetadataLine_first_slash_witness :
    MapLookup (parseMetadataLine ([66] ++ (Slash ++ [120, 47, 121])) emptyEntry).Metadata [66]
        = some [120, 47, 121] ∧
      lineKeyValue ([66] ++ (Slash ++ [120, 47, 121])) = some ([66], [120, 47, 121]) :=
  parseMetadataLine_first_slash [66] [120, 47, 121] emptyEntry (by decide) (by decide)
    (by decide) (by decide) (by decide)

/-! ## What `strings.TrimFunc` leaves -/

theorem indexFuncLoop_found (f : Nat → Bool) (truth : Bool) :
    ∀ (fuel : Nat) (s : Bytes) (off k : Nat), indexFuncLoop f truth fuel s off = some k →
      (f (DecodeRune (s.drop (k - off))).1 == truth) = true := by
  intro fuel
  induction fuel with
  | zero => intro s off k h; simp [indexFuncLoop] at h
  | succ n ih =>
    intro s off k h
    have hb := indexFuncLoop_bound f truth _ _ _ _ h
    rw [indexFuncLoop_succ] at h
    rcases s with _ | ⟨s0, s1⟩
    · simp at h
    · have hw := DecodeRune_width (s0 :: s1) (by simp)
      simp only [List.isEmpty_cons, Bool.false_eq_true, if_false] at h
      split_ifs at h with hf
      · simp only [Option.some.injEq] at h
        subst h
        simpa using hf
      · have hb2 := indexFuncLoop_bound f truth _ _ _ _ h
        have := ih _ _ _ h
        rw [List.drop_drop] at this
        have e : (DecodeRune (s0 :: s1)).2 + (k - (off + (DecodeRune (s0 :: s1)).2)) = k - off := by
          omega
        rwa [e] at this

theorem lastIndexFuncLoop_found (f : Nat → Bool) (truth : Bool) (s : Bytes) :
    ∀ (fuel i k : Nat), lastIndexFuncLoop f truth s fuel i = some k →
      ∃ e, 0 < e ∧ e ≤ i ∧ k = e - (DecodeLastRune (s.take e)).2 ∧
        (f (DecodeLastRune (s.take e)).1 == truth) = true := by
  intro fuel
  induction fuel with
  | zero => intro i k h; simp [lastIndexFuncLoop] at h
  | succ n ih =>
    intro i k h
    rw [lastIndexFuncLoop_succ] at h
    split_ifs at h with h0 hf
    · simp only [Option.some.injEq] at h
      exact ⟨i, by omega, le_rfl, h.symm, hf⟩
    · obtain ⟨e, h1, h2, h3, h4⟩ := ih _ _ h
      exact ⟨e, h1, by omega, h3, h4⟩

/-- A last rune other than `U+FFFD` is the rune that decoding forwards finds at
its offset, and it ends the string. -/
theorem DecodeLastRune_valid (s : Bytes) (hne : s ≠ [])
    (h : (DecodeLastRune s).1 ≠ RuneError) :
    DecodeRune (s.drop (s.length - (DecodeLastRune s).2)) = DecodeLastRune s ∧
      (s.drop (s.length - (DecodeLastRune s).2)).length = (DecodeLastRune s).2 := by
  have hw := DecodeLastRune_width s hne
  refine ⟨?_, by rw [List.length_drop]; omega⟩
  obtain ⟨g, b0, rfl⟩ := exists_snoc s hne
  rw [DecodeLastRune_snoc] at h ⊢
  by_cases h0 : b0.val < 0x80
  · simp only [h0, if_true]
    have e : (g ++ [b0]).drop ((g ++ [b0]).length - 1) = [b0] := by
      simp
    rw [e, DecodeRune_ascii b0 [] h0]
  · simp only [h0, if_false] at h ⊢
    have ew : ((b0 :: g.reverse).take (backToRuneStart g.reverse + 1)).reverse
        = (g ++ [b0]).drop ((g ++ [b0]).length - (backToRuneStart g.reverse + 1)) := by
      have e1 : b0 :: g.reverse = (g ++ [b0]).reverse := by simp
      rw [e1, List.take_reverse, List.reverse_reverse]
    rw [ew] at h ⊢
    generalize hn : backToRuneStart g.reverse + 1 = n at h ⊢
    by_cases hd : (DecodeRune ((g ++ [b0]).drop ((g ++ [b0]).length - n))).2
        ≠ ((g ++ [b0]).drop ((g ++ [b0]).length - n)).length
    · rw [if_pos hd] at h
      exact absurd rfl h
    · rw [if_neg hd]
      simp only [ne_eq, Decidable.not_not] at hd
      rw [hd, List.length_drop]
      have e2 : (g ++ [b0]).length - ((g ++ [b0]).length - ((g ++ [b0]).length - n))
          = (g ++ [b0]).length - n := by omega
      rw [e2]

theorem RuneStart_of_valid (w : Bytes) (hne : w ≠ []) (hw : (DecodeRune w).2 = w.length)
    (hr : (DecodeRune w).1 ≠ RuneError) : ∃ b t, w = b :: t ∧ RuneStart b = true := by
  rcases w with _ | ⟨b, t⟩
  · exact absurd rfl hne
  · refine ⟨b, t, rfl, ?_⟩
    by_contra hn
    simp only [Bool.not_eq_true] at hn
    rw [DecodeRune_not_start b t hn] at hr
    exact hr rfl

theorem getD_of_drop (u : Bytes) (i : Nat) (b : Byte) (r : Bytes) (h : u.drop i = b :: r) :
    u.getD i 0 = b ∧ u[i]? = some b := by
  have h1 : (u.drop i)[0]? = some b := by rw [h]; simp
  rw [List.getElem?_drop] at h1
  simp only [Nat.add_zero] at h1
  exact ⟨by rw [List.getD_eq_getElem?_getD, h1]; rfl, h1⟩

/-- What `strings.TrimFunc` returns, when it is not empty, starts with a rune that
`f` rejects and ends with a rune that `f` rejects, provided `f` accepts
`U+FFFD`. -/
theorem TrimFunc_ends (f : Nat → Bool) (s : Bytes) (hR : f RuneError = true)
    (hne : TrimFunc s f ≠ []) :
    f (DecodeRune (TrimFunc s f)).1 = false ∧ f (DecodeLastRune (TrimFunc s f)).1 = false := by
  unfold TrimFunc at hne ⊢
  generalize hu : TrimLeftFunc s f = u at hne ⊢
  have hune : u ≠ [] := by
    intro h0; subst h0; exact hne rfl
  -- the first rune of what is left after trimming on the left
  have hfirst : f (DecodeRune u).1 = false := by
    unfold TrimLeftFunc indexFunc at hu
    cases hi : indexFuncLoop f false s.length s 0 with
    | none => rw [hi] at hu; exact absurd hu.symm hune
    | some k =>
      rw [hi] at hu
      have := indexFuncLoop_found f false _ _ _ _ hi
      simp only [Nat.sub_zero] at this
      rw [← hu]
      simpa using this
  -- the rune at which trimming on the right stops
  unfold TrimRightFunc lastIndexFunc at hne ⊢
  cases hl : lastIndexFuncLoop f false u u.length u.length with
  | none => rw [hl] at hne; exact absurd rfl hne
  | some i =>
    obtain ⟨e, he0, hele, hi, hfd⟩ := lastIndexFuncLoop_found f false u _ _ _ hl
    simp only
    have htne : u.take e ≠ [] := by
      intro h0
      have := congrArg List.length h0
      rw [List.length_take, List.length_nil] at this
      omega
    have htl : (u.take e).length = e := by rw [List.length_take]; omega
    have hfd1 : f (DecodeLastRune (u.take e)).1 = false := by simpa using hfd
    have hnr : (DecodeLastRune (u.take e)).1 ≠ RuneError := by
      intro h0; rw [h0, hR] at hfd1; cases hfd1
    have hw := DecodeLastRune_width (u.take e) htne
    obtain ⟨hv1, hv2⟩ := DecodeLastRune_valid (u.take e) htne hnr
    rw [htl] at hv1 hv2 hw
    rw [← hi] at hv1 hv2
    -- the window `w` is the rune, and what follows it in `u` does not change it
    have hsplit : u.drop i = (u.take e).drop i ++ u.drop e := by
      conv_lhs => rw [← List.take_append_drop e u]
      rw [List.drop_append_of_le_length (by rw [htl]; omega)]
    have hwne : (u.take e).drop i ≠ [] := by
      intro h0
      rw [h0, List.length_nil] at hv2
      omega
    have hdec : DecodeRune (u.drop i) = DecodeLastRune (u.take e) := by
      rw [hsplit]
      rcases DecodeRune_append _ (u.drop e) hwne with h | ⟨h, _⟩
      · rw [h, hv1]
      · rw [hv1] at h
        exact absurd (congrArg Prod.fst h) hnr
    obtain ⟨b, tw, hwb, hstart⟩ := RuneStart_of_valid _ hwne (by rw [hv1, hv2])
      (by rw [hv1]; exact hnr)
    have hub : u.drop i = b :: (tw ++ u.drop e) := by rw [hsplit, hwb]; rfl
    obtain ⟨hg, hgi⟩ := getD_of_drop u i b _ hub
    have hie : i + (DecodeLastRune (u.take e)).2 = e := by omega
    have hres : (if 0x80 ≤ (u.getD i 0).val then u.take (i + (DecodeRune (u.drop i)).2)
        else u.take (i + 1)) = u.take e := by
      rw [hdec, hie, hg]
      split_ifs with h80
      · rfl
      · have hb : b.val < 0x80 := by omega
        have := hv1
        rw [hwb, DecodeRune_ascii b tw hb] at this
        have h1 : (DecodeLastRune (u.take e)).2 = 1 := (congrArg Prod.snd this).symm
        have : i + 1 = e := by omega
        rw [this]
    rw [hres]
    refine ⟨?_, hfd1⟩
    -- the first rune of `u.take e` is the first rune of `u`
    rcases DecodeRune_append (u.take e) (u.drop e) htne with h | ⟨h1, h2⟩
    · rw [List.take_append_drop] at h
      rw [← h]; exact hfirst
    · rw [List.take_append_drop, htl] at h2
      by_cases hi0 : i = 0
      · subst hi0
        simp only [List.drop_zero] at hv1
        rw [hv1] at h1
        exact absurd (congrArg Prod.fst h1) hnr
      · obtain ⟨x, hx1, hx2⟩ := DecodeRune_cont u i (by omega) (by omega)
        rw [hgi] at hx1
        simp only [Option.some.injEq] at hx1
        subst hx1
        rw [hstart] at hx2
        cases hx2

/-! ## The first line of a header -/

theorem TrimFunc_isInfix (s : Bytes) (f : Nat → Bool) :
    ∃ a b, s = a ++ (TrimFunc s f ++ b) := by
  unfold TrimFunc
  obtain ⟨i, _, hi⟩ := TrimLeftFunc_eq_drop s f
  obtain ⟨j, hj⟩ := TrimRightFunc_eq_take (TrimLeftFunc s f) f
  refine ⟨s.take i, (TrimLeftFunc s f).drop j, ?_⟩
  rw [hj, List.take_append_drop, hi, List.take_append_drop]

theorem notLetterNorDigit_eq (U : UnicodeTables) (r : Nat) :
    notLetterNorDigit U r = !IsLetterOrDigit U r := by
  unfold notLetterNorDigit IsLetterOrDigit
  cases IsLetter U r <;> cases IsDigit U r <;> rfl

/-- Claim C12. For every first header line: when the line, trimmed of white
space, starts with `DOCU`, and what is left of it after the prefix is removed
and the runes that are neither letters nor digits are trimmed at both ends is
not empty, `parseDocumentType` sets `DocType` to it and changes nothing else,
and this `DocType` is a part of the line that begins with a letter or digit
and ends with a letter or digit. When the trimmed line does not start with
`DOCU`, or what is left is empty, `parseDocumentType` returns the entry
unchanged. The tables of letters and digits are assumed not to hold
`U+FFFD`. -/
theorem parseDocumentType_spec (U : UnicodeTables)
    (hU : IsLetterOrDigit U RuneError = false) (firstLine : Bytes) (entry : FileEntry) :
    (HasPrefix (TrimSpace firstLine) DocumentPrefix = true →
      trimmedDocType U firstLine ≠ [] →
        parseDocumentType U firstLine entry =
            { entry with DocType := trimmedDocType U firstLine } ∧
          (∃ a b, TrimSpace firstLine =
            DocumentPrefix ++ (a ++ (trimmedDocType U firstLine ++ b))) ∧
          IsLetterOrDigit U (DecodeRune (trimmedDocType U firstLine)).1 = true ∧
          IsLetterOrDigit U (DecodeLastRune (trimmedDocType U firstLine)).1 = true) ∧
      (HasPrefix (TrimSpace firstLine) DocumentPrefix = false ∨
          trimmedDocType U firstLine = [] →
        parseDocumentType U firstLine entry = entry) := by
  constructor
  · intro hp hne
    refine ⟨?_, ?_, ?_⟩
    · unfold parseDocumentType
      simp only [hp, if_true]
      unfold trimmedDocType at hne
      rw [if_pos hne]
      rfl
    · obtain ⟨a, b, hab⟩ :=
        TrimFunc_isInfix (TrimPrefix (TrimSpace firstLine) DocumentPrefix)
          (notLetterNorDigit U)
      refine ⟨a, b, ?_⟩
      have hpre : TrimSpace firstLine =
          DocumentPrefix ++ TrimPrefix (TrimSpace firstLine) DocumentPrefix := by
        obtain ⟨t, ht⟩ := (HasPrefix_iff _ _).1 hp
        rw [← ht]
        unfold TrimPrefix
        rw [if_pos ((HasPrefix_iff _ _).2 ⟨t, rfl⟩), List.drop_left]
      unfold trimmedDocType
      rw [← hab]
      exact hpre
    · have hR : notLetterNorDigit U RuneError = true := by
        rw [notLetterNorDigit_eq, hU]; rfl
      have := TrimFunc_ends (notLetterNorDigit U)
        (TrimPrefix (TrimSpace firstLine) DocumentPrefix) hR hne
      simp only [notLetterNorDigit_eq, Bool.not_eq_false'] at this
      exact this
  · intro h
    unfold parseDocumentType
    rcases h with h | h
    · simp only [h, Bool.false_eq_true, if_false]
    · unfold trimmedDocType at h
      simp only [h, ne_eq, not_true_eq_false, if_false, ite_self]

theorem parseDocumentType_spec_witness :
    IsLetterOrDigit asciiTables RuneError = false ∧
      HasPrefix (TrimSpace testDocLine) DocumentPrefix = true ∧
      trimmedDocType asciiTables testDocLine = [84, 101, 115, 116, 57] ∧
      parseDocumentType asciiTables testDocLine emptyEntry =
        { emptyEntry with DocType := trimmedDocType asciiTables testDocLine } :=
  ⟨by decide, by decide, by decide,
    ((parseDocumentType_spec asciiTables (by decide) testDocLine emptyEntry).1
      (by decide) (by decide)).1⟩

/-! ## Runes that do not start with an ASCII byte -/

/-- A rune decoded at a byte that is not ASCII is not an ASCII rune. -/
theorem DecodeRune_ge (s0 : Byte) (rest : Bytes) (h0 : ¬ s0.val < 0x80) :
    0x80 ≤ (DecodeRune (s0 :: rest)).1 := by
  by_cases hxx : s0.val < 0xC2 ∨ 0xF4 < s0.val
  · simp only [DecodeRune, h0, hxx, if_true, if_false, RuneError]
    omega
  · rcases rest with _ | ⟨a1, _ | ⟨a2, _ | ⟨a3, r⟩⟩⟩ <;>
    simp only [DecodeRune, h0, hxx, if_false] <;>
    split_ifs <;>
    first
      | (simp only [RuneError]; omega)
      | (unfold firstSize acceptLo acceptHi at *
         split_ifs at * <;> omega)

theorem or_ge_of_right (a : Nat) (b : Byte) (hb : 0x80 ≤ b.val) : 0x80 ≤ (a ||| b.val) := by
  have hb2 := b.isLt
  have h7 : b.val.testBit 7 = true := by
    rw [Nat.testBit_to_div_mod, decide_eq_true_eq]
    omega
  have : (a ||| b.val).testBit 7 = true := by
    rw [Nat.testBit_or, h7, Bool.or_true]
  exact Nat.testBit_implies_ge this

theorem or_ge_iff (a b : Byte) (ha : a.val < 0x80) :
    0x80 ≤ (a.val ||| b.val) ↔ 0x80 ≤ b.val := by
  constructor
  · intro h
    by_contra hb
    have : a.val ||| b.val < 2 ^ 7 := Nat.or_lt_two_pow (by omega) (by omega)
    omega
  · exact or_ge_of_right a.val b

/-! ## `strings.EqualFold` against a string of lower-case hexadecimal digits -/

theorem isLowerHex_iff (b : Byte) :
    isLowerHex b = true ↔
      (0x30 ≤ b.val ∧ b.val ≤ 0x39) ∨ (0x61 ≤ b.val ∧ b.val ≤ 0x66) := by
  simp [isLowerHex]

theorem asciiLower_val (b : Byte) :
    (asciiLower b).val = if 0x41 ≤ b.val ∧ b.val ≤ 0x5A then b.val + 0x20 else b.val := by
  unfold asciiLower
  have h32 : ((0x20 : Byte)).val = 32 := rfl
  have hb := b.isLt
  split_ifs with h
  · rw [Fin.val_add, h32]; omega
  · rfl

theorem asciiLower_hex (b : Byte) (h : isLowerHex b = true) : asciiLower b = b := by
  have h1 := (isLowerHex_iff b).1 h
  apply Fin.ext
  rw [asciiLower_val]
  split_ifs <;> omega

theorem SimpleFold_digit (fold : Nat → Nat) (r : Nat) (h : 0x30 ≤ r ∧ r ≤ 0x39) :
    SimpleFold fold r = r := by
  unfold SimpleFold asciiFold
  split_ifs <;> omega

theorem SimpleFold_lower (fold : Nat → Nat) (r : Nat) (h : 0x61 ≤ r ∧ r ≤ 0x66) :
    SimpleFold fold r = r - 0x20 := by
  unfold SimpleFold asciiFold
  split_ifs <;> omega

theorem SimpleFold_upper (fold : Nat → Nat) (r : Nat) (h : 0x41 ≤ r ∧ r ≤ 0x46) :
    SimpleFold fold r = r + 0x20 := by
  unfold SimpleFold asciiFold
  split_ifs <;> omega

theorem foldLoop_stop (fold : Nat → Nat) (sr tr fuel r : Nat) (h : ¬ (r ≠ sr ∧ r < tr)) :
    foldLoop fold sr tr (fuel + 1) r = some r := by
  rw [foldLoop, if_neg h]

theorem foldLoop_step (fold : Nat → Nat) (sr tr fuel r : Nat) (h : r ≠ sr ∧ r < tr) :
    foldLoop fold sr tr (fuel + 1) r = foldLoop fold sr tr fuel (SimpleFold fold r) := by
  rw [foldLoop, if_pos h]

/-- A hexadecimal digit and a rune that is not ASCII do not fold to each other:
the orbit of the digit is left after at most two steps. -/
theorem foldRunes_hex (fold : Nat → Nat) (k : Nat) (sr : Byte)
    (hs : isLowerHex sr = true) (tr : Nat) (ht : 0x80 ≤ tr) :
    foldRunes fold (k + 2) sr.val tr = some false := by
  have h1 := (isLowerHex_iff sr).1 hs
  have e1 : ¬ tr = sr.val := by omega
  have e2 : ¬ tr < sr.val := by omega
  have e3 : ¬ tr < 0x80 := by omega
  have e4 : (sr.val == tr) = false := by simpa using fun h => e1 h.symm
  unfold foldRunes
  simp only [e1, e2, e3, if_false]
  rcases h1 with hd | hl
  · rw [SimpleFold_digit fold _ hd, foldLoop_stop fold _ _ _ _ (by simp)]
    simp only [e4]
  · have c2 : SimpleFold fold (sr.val - 0x20) = sr.val := by
      rw [SimpleFold_upper fold _ (by omega)]; omega
    rw [SimpleFold_lower fold _ hl, foldLoop_step fold _ _ _ _ (by omega), c2,
      foldLoop_stop fold _ _ _ _ (by simp)]
    simp only [e4]

theorem equalFoldUnicode_hex (fold : Nat → Nat) (k n : Nat) (sr tr : Byte) (s t : Bytes)
    (hs : isLowerHex sr = true) (ht : 0x80 ≤ tr.val) :
    equalFoldUnicode fold (k + 2) (n + 1) (sr :: s) (tr :: t) = some false := by
  have h1 := (isLowerHex_iff sr).1 hs
  have e1 : ¬ tr.val < 0x80 := by omega
  have hge := DecodeRune_ge tr t e1
  unfold equalFoldUnicode
  simp only [List.isEmpty_cons, Bool.false_eq_true, if_false, e1]
  rw [DecodeRune_ascii sr s (by omega), foldRunes_hex fold k sr hs _ hge]

/-- The first loop of `strings.EqualFold` on a string `s` of lower-case hexadecimal
digits: the result is whether `t`, with `A` to `Z` in lower case, is `s`. -/
theorem equalFoldLoop_hex (fold : Nat → Nat) (k : Nat) :
    ∀ (s t : Bytes), (∀ b ∈ s, isLowerHex b = true) →
      equalFoldLoop fold (k + 2) s t = some (decide (t.map asciiLower = s)) := by
  intro s
  induction s with
  | nil =>
    intro t _
    cases t with
    | nil => rfl
    | cons tr t => simp [equalFoldLoop]
  | cons sr s ih =>
    intro t hs
    cases t with
    | nil => simp [equalFoldLoop]
    | cons tr t =>
      have hs0 : isLowerHex sr = true := hs sr (List.mem_cons_self _ _)
      have hsr := (isLowerHex_iff sr).1 hs0
      have ih1 := ih t (fun b hb => hs b (List.mem_cons_of_mem _ hb))
      have hmap : ((tr :: t).map asciiLower = sr :: s) ↔
          ((asciiLower tr).val = sr.val ∧ t.map asciiLower = s) := by
        rw [List.map_cons, List.cons.injEq, Fin.ext_iff]
      rw [asciiLower_val] at hmap
      unfold equalFoldLoop
      by_cases h80 : 0x80 ≤ (sr.val ||| tr.val)
      · rw [if_pos h80]
        have htr := (or_ge_iff sr tr (by omega)).1 h80
        rw [List.length_cons, equalFoldUnicode_hex fold k _ sr tr s t hs0 htr]
        congr 1
        symm
        rw [decide_eq_false_iff_not, hmap]
        rintro ⟨h, _⟩
        split_ifs at h <;> omega
      · rw [if_neg h80]
        have htr : tr.val < 0x80 := by
          have := (or_ge_iff sr tr (by omega)).not.1 h80
          omega
        by_cases heq : tr = sr
        · rw [if_pos heq, ih1]
          congr 1
          rw [decide_eq_decide, hmap]
          subst heq
          constructor
          · intro h
            exact ⟨by split_ifs <;> omega, h⟩
          · intro h
            exact h.2
        · rw [if_neg heq]
          have hne : tr.val ≠ sr.val := fun h => heq (Fin.ext h)
          dsimp only
          by_cases hc : 0x41 ≤ (if tr.val < sr.val then tr.val else sr.val) ∧
              (if tr.val < sr.val then tr.val else sr.val) ≤ 0x5A ∧
              (if tr.val < sr.val then sr.val else tr.val) =
                (if tr.val < sr.val then tr.val else sr.val) + 0x20
          · rw [if_pos hc, ih1]
            congr 1
            rw [decide_eq_decide, hmap]
            have : (if 0x41 ≤ tr.val ∧ tr.val ≤ 0x5A then tr.val + 0x20 else tr.val)
                = sr.val := by
              split_ifs at hc ⊢ <;> omega
            rw [this]
            simp
          · rw [if_neg hc]
            congr 1
            symm
            rw [decide_eq_false_iff_not, hmap]
            rintro ⟨h, _⟩
            apply hc
            split_ifs at h ⊢ <;> omega

/-! ## The digest in hexadecimal digits -/

theorem hextable_hex (i : Nat) (hi : i < 16) : isLowerHex (hextable.getD i 0) = true := by
  interval_cases i <;> rfl

theorem EncodeToString_hex : ∀ (l : Bytes), ∀ b ∈ EncodeToString l, isLowerHex b = true := by
  intro l
  induction l with
  | nil => intro b hb; simp [EncodeToString] at hb
  | cons v rest ih =>
    intro b hb
    have hv := v.isLt
    simp only [EncodeToString, List.mem_cons] at hb
    rcases hb with hb | hb | hb
    · rw [hb]
      apply hextable_hex
      rw [Nat.shiftRight_eq_div_pow]
      have : (2 : Nat) ^ 4 = 16 := by norm_num
      rw [this]
      omega
    · rw [hb]
      apply hextable_hex
      exact Nat.and_lt_two_pow _ (by norm_num : 15 < 2 ^ 4)
    · exact ih b hb

theorem EncodeToString_length : ∀ (l : Bytes), (EncodeToString l).length = 2 * l.length := by
  intro l
  induction l with
  | nil => rfl
  | cons v rest ih => simp only [EncodeToString, List.length_cons, ih]; omega

theorem bigEndian_length : ∀ (n x : Nat), (bigEndian n x).length = n := by
  intro n
  induction n with
  | zero => intro x; rfl
  | succ n ih => intro x; simp only [bigEndian, List.length_append, ih, List.length_singleton]

theorem sha1Sum_length (content : Bytes) : (sha1Sum content).length = 20 := by
  unfold sha1Sum
  simp only [List.length_append, bigEndian_length]

theorem map_asciiLower_hex : ∀ (s : Bytes), (∀ b ∈ s, isLowerHex b = true) →
    s.map asciiLower = s := by
  intro s
  induction s with
  | nil => intro _; rfl
  | cons b s ih =>
    intro h
    rw [List.map_cons, asciiLower_hex b (h b (List.mem_cons_self _ _)),
      ih (fun x hx => h x (List.mem_cons_of_mem _ hx))]

/-! ## The method `verifySHA1` -/

/-- The result of `verifySHA1` when the orbit loop has fuel for two steps. -/
theorem verifySHA1_eq (fold : Nat → Nat) (k : Nat) (p : ArchiveParser)
    (content expectedSHA1 : Bytes) :
    verifySHA1 fold (k + 2) p content expectedSHA1 =
      some (p,
        if expectedSHA1 = [] then some VerifyError.emptyExpected
        else if expectedSHA1.map asciiLower = EncodeToString (sha1Sum content) then none
        else some (VerifyError.mismatch expectedSHA1 (EncodeToString (sha1Sum content)))) := by
  unfold verifySHA1 EqualFold
  by_cases he : expectedSHA1 = []
  · rw [if_pos he, if_pos he]
  · rw [if_neg he, if_neg he]
    simp only
    rw [equalFoldLoop_hex fold k _ _ (EncodeToString_hex (sha1Sum content))]
    by_cases hm : expectedSHA1.map asciiLower = EncodeToString (sha1Sum content)
    · rw [if_pos hm, decide_eq_true hm]
    · rw [if_neg hm, decide_eq_false hm]

/-- Claim C13. `verifySHA1(content, expected)` returns and leaves the parser as it
is; it returns `nil` if and only if `expected` is not empty and, with `A` to `Z`
read as `a` to `z`, is the SHA-1 digest of `content` written by
`hex.EncodeToString`, which is 40 digits out of `0` to `9` and `a` to `f`; for an
empty `expected` it returns the error of the empty digest and for every other
`expected` the mismatch error. The orbit loop of `strings.EqualFold` needs fuel
for two steps. -/
theorem verifySHA1_spec (fold : Nat → Nat) (fuel : Nat) (hfuel : 2 ≤ fuel)
    (p : ArchiveParser) (content expectedSHA1 : Bytes) :
    (verifySHA1 fold fuel p content expectedSHA1 = some (p, none) ↔
        (expectedSHA1 ≠ [] ∧
          expectedSHA1.map asciiLower = EncodeToString (sha1Sum content))) ∧
      (expectedSHA1 = [] →
        verifySHA1 fold fuel p content expectedSHA1 =
          some (p, some VerifyError.emptyExpected)) ∧
      (expectedSHA1 ≠ [] →
        expectedSHA1.map asciiLower ≠ EncodeToString (sha1Sum content) →
        verifySHA1 fold fuel p content expectedSHA1 =
          some (p, some (VerifyError.mismatch expectedSHA1
            (EncodeToString (sha1Sum content))))) ∧
      (∀ b ∈ EncodeToString (sha1Sum content), isLowerHex b = true) ∧
      (EncodeToString (sha1Sum content)).length = 40 ∧
      (EncodeToString (sha1Sum content)).map asciiLower = EncodeToString (sha1Sum content) := by
  obtain ⟨k, rfl⟩ : ∃ k, fuel = k + 2 := ⟨fuel - 2, by omega⟩
  have hex := EncodeToString_hex (sha1Sum content)
  refine ⟨?_, ?_, ?_, hex, ?_, map_asciiLower_hex _ hex⟩
  · rw [verifySHA1_eq]
    by_cases he : expectedSHA1 = []
    · simp [he]
    · by_cases hm : expectedSHA1.map asciiLower = EncodeToString (sha1Sum content)
      · simp [he, hm]
      · simp [he, hm]
  · intro he
    rw [verifySHA1_eq, if_pos he]
  · intro he hm
    rw [verifySHA1_eq, if_neg he, if_neg hm]
  · rw [EncodeToString_length, sha1Sum_length]

set_option maxRecDepth 100000 in
theorem verifySHA1_spec_witness :
    2 ≤ 2 ∧ testHelloSHA1 ≠ [] ∧
      testHelloSHA1.map asciiLower = EncodeToString (sha1Sum testHello) ∧
      verifySHA1 (fun r => r) 2 New testHello testHelloSHA1 = some (New, none) :=
  ⟨by decide, by decide, by decide,
    (verifySHA1_spec (fun r => r) 2 (by decide) New testHello testHelloSHA1).1.2
      ⟨by decide, by decide⟩⟩

/-- Claim C14. Hash verification is case-insensitive and deterministic. For every
content and every two expected digests that are the same once `A` to `Z` are read
as `a` to `z`, `verifySHA1` returns `nil` on both or an error on both; an expected
digest with a byte that is not ASCII gives an error; and the call leaves the
parser as it is, so that repeating it with the same arguments gives the same
outcome. The orbit loop of `strings.EqualFold` needs fuel for two steps. -/
theorem verifySHA1_case_insensitive (fold : Nat → Nat) (fuel : Nat) (hfuel : 2 ≤ fuel)
    (p : ArchiveParser) (content e1 e2 : Bytes)
    (hcase : e1.map asciiLower = e2.map asciiLower) :
    (verifySHA1 fold fuel p content e1 = some (p, none) ↔
        verifySHA1 fold fuel p content e2 = some (p, none)) ∧
      ((∃ err, verifySHA1 fold fuel p content e1 = some (p, some err)) ↔
        (∃ err, verifySHA1 fold fuel p content e2 = some (p, some err))) ∧
      ((∃ b ∈ e1, 0x80 ≤ b.val) →
        ∃ err, verifySHA1 fold fuel p content e1 = some (p, some err)) ∧
      (∃ r, verifySHA1 fold fuel p content e1 = some (p, r)) ∧
      (∀ q r, verifySHA1 fold fuel p content e1 = some (q, r) →
        q = p ∧ verifySHA1 fold fuel q content e1 = some (q, r)) := by
  obtain ⟨k, rfl⟩ : ∃ k, fuel = k + 2 := ⟨fuel - 2, by omega⟩
  have hnil : e1 = [] ↔ e2 = [] := by
    constructor
    · intro h
      rw [h, List.map_nil] at hcase
      exact List.map_eq_nil_iff.1 hcase.symm
    · intro h
      rw [h, List.map_nil] at hcase
      exact List.map_eq_nil_iff.1 hcase
  refine ⟨?_, ?_, ?_, ⟨_, verifySHA1_eq fold k p content e1⟩, ?_⟩
  · rw [verifySHA1_eq, verifySHA1_eq, ← hcase]
    by_cases he : e1 = []
    · have he2 := hnil.1 he
      simp [he, he2]
    · have he2 : ¬ e2 = [] := fun h => he (hnil.2 h)
      simp only [he, he2, if_false]
      by_cases hm : e1.map asciiLower = EncodeToString (sha1Sum content)
      · simp [hm]
      · simp [hm]
  · rw [verifySHA1_eq, verifySHA1_eq, ← hcase]
    by_cases he : e1 = []
    · have he2 := hnil.1 he
      simp [he, he2]
    · have he2 : ¬ e2 = [] := fun h => he (hnil.2 h)
      simp only [he, he2, if_false]
      by_cases hm : e1.map asciiLower = EncodeToString (sha1Sum content)
      · simp [hm]
      · simp [hm]
  · rintro ⟨b, hb, hb80⟩
    rw [verifySHA1_eq]
    have he : e1 ≠ [] := List.ne_nil_of_mem hb
    have hm : e1.map asciiLower ≠ EncodeToString (sha1Sum content) := by
      intro h
      have hmem : asciiLower b ∈ EncodeToString (sha1Sum content) := by
        rw [← h]; exact List.mem_map_of_mem _ hb
      have h1 := (isLowerHex_iff _).1 (EncodeToString_hex _ _ hmem)
      rw [asciiLower_val] at h1
      split_ifs at h1 <;> omega
    rw [if_neg he, if_neg hm]
    exact ⟨_, rfl⟩
  · intro q r h
    rw [verifySHA1_eq] at h
    simp only [Option.some.injEq, Prod.mk.injEq] at h
    obtain ⟨h1, h2⟩ := h
    subst h1
    refine ⟨rfl, ?_⟩
    rw [verifySHA1_eq, h2]

theorem verifySHA1_case_insensitive_witness :
    2 ≤ 2 ∧ testHelloSHA1.map asciiLower = testHelloUpper.map asciiLower ∧
      (verifySHA1 (fun r => r) 2 New testHello testHelloSHA1 = some (New, none) ↔
        verifySHA1 (fun r => r) 2 New testHello testHelloUpper = some (New, none)) :=
  ⟨by decide, by decide,
    (verifySHA1_case_insensitive (fun r => r) 2 (by decide) New testHello testHelloSHA1
      testHelloUpper (by decide)).1⟩

/-! ## The entries already stored -/

/-- The entries after `ParseData` are the entries before it followed by the
entries that the same input gives to a new parser. -/
theorem ParseData_entries_append (U : UnicodeTables) (p : ArchiveParser) (data : Bytes) :
    (ParseData U p data).1.entries = p.entries ++ (ParseData U New data).1.entries := by
  by_cases h : data = []
  · subst h
    simp [ParseData, New]
  · rw [ParseData_nonempty U p data h, ParseData_nonempty U New data h]
    simp only [New]
    exact parseContentLoop_append U _ _ 0 p.entries

/-- Claim C21. `ParseData` never removes, reorders or alters the records already
stored in the parser: for every parser state and every input the entries before
the call are a prefix of the entries after the call, entry by entry at the same
index, and what the call adds is what the input gives to a new parser; so a second
`ParseData` on the same parser appends its records to those of the first. The
call fails exactly on the empty input, and then the parser, with its entries and
its raw buffer, is unchanged; on any other input the buffer becomes the input. -/
theorem ParseData_keeps_entries (U : UnicodeTables) (p : ArchiveParser)
    (data data2 : Bytes) :
    p.entries <+: (ParseData U p data).1.entries ∧
      (∀ (i : Nat) (e : FileEntry), p.entries[i]? = some e →
        (ParseData U p data).1.entries[i]? = some e) ∧
      (ParseData U p data).1.entries = p.entries ++ (ParseData U New data).1.entries ∧
      (ParseData U (ParseData U p data).1 data2).1.entries =
        p.entries ++ ((ParseData U New data).1.entries ++ (ParseData U New data2).1.entries) ∧
      ((ParseData U p data).2 ≠ none ↔ data = []) ∧
      (data = [] → ParseData U p data = (p, some "data cannot be empty")) ∧
      (data ≠ [] → (ParseData U p data).1.data = data) := by
  have happ := ParseData_entries_append U p data
  refine ⟨⟨_, happ.symm⟩, ?_, happ, ?_, ?_, ?_, ?_⟩
  · intro i e he
    rw [happ]
    have hi : i < p.entries.length := by
      by_contra hge
      rw [List.getElem?_eq_none (by omega)] at he
      cases he
    rw [List.getElem?_append_left hi]
    exact he
  · rw [ParseData_entries_append U (ParseData U p data).1 data2, happ, List.append_assoc]
  · by_cases h : data = []
    · subst h
      simp [ParseData]
    · rw [ParseData_nonempty U p data h]
      simp [h]
  · intro h
    subst h
    simp [ParseData]
  · intro h
    rw [ParseData_nonempty U p data h]

end Archive
